import Mathlib

/-! # MazeFixing (etheriqa/mm89): a shallow embedding of `solution.h`

The C++ program is embedded as pure functions.

* `coordinate_type` and `direction_type` are 8-bit unsigned, `size_type` is 16-bit
  unsigned: they are natural numbers here, reduced `% 256` / `% 65536` wherever the
  source converts a (promoted, signed) `int` expression back to the narrow type.
* Expressions the source evaluates in `int` after integer promotion (for instance
  `y_ - 1 == adjacent.y_`, `x_ < w - 1`) are evaluated in `Int`.
* Everything that can throw or has undefined behaviour returns `Except Err _`.
* Loops without a syntactic bound take a `fuel` argument; running out of fuel is the
  error `Err.fuel`.
* The pseudo random generator is a stream of natural numbers with a read position.
-/

namespace MazeFixing

/-! ## Failure modes -/

/-- The ways in which a run of the program can fail to return a value. -/
inductive Err where
  /-- A `std::logic_error` was thrown. -/
  | logicError
  /-- Undefined behaviour: a `std::vector` (or string) index beyond its size. -/
  | outOfRange
  /-- Undefined behaviour: integer division by zero. -/
  | divByZero
  /-- Undefined behaviour: a draw from an empty range or an element of an empty container. -/
  | emptyRange
  /-- A loop did not finish within the given number of iterations. -/
  | fuel
  deriving DecidableEq, Repr

deriving instance DecidableEq for Except

/-! ## Constants and enumerations -/

/-- The constant `kMaxCoordinate`. -/
def kMaxCoordinate : Nat := 80

/-- The constant `kGridSize = kMaxCoordinate * kMaxCoordinate`. -/
def kGridSize : Nat := kMaxCoordinate * kMaxCoordinate

/-- Conversion of an `int` value to `coordinate_type` (8-bit unsigned). -/
def u8 (i : Int) : Nat := (i % 256).toNat

/-- The enumeration `Cell`. -/
inductive Cell where
  | straight
  | right
  | turn
  | left
  | every
  | outside
  deriving DecidableEq, Repr

/-- The underlying value of a `Cell`. -/
def Cell.toNat : Cell → Nat
  | .straight => 0
  | .right => 1
  | .turn => 2
  | .left => 3
  | .every => 4
  | .outside => 5

/-- The cast `static_cast<Cell>(n % 4)`: the argument is always reduced modulo 4 by the caller. -/
def Cell.cast (n : Nat) : Cell :=
  match n % 4 with
  | 0 => .straight
  | 1 => .right
  | 2 => .turn
  | _ => .left

/-- A cell carries a fixed rule when it is neither `every` nor `outside`. -/
def Cell.isFixed (c : Cell) : Bool :=
  c != Cell.every && c != Cell.outside

/-- The enumeration `Direction`. -/
inductive Direction where
  | up
  | right
  | down
  | left
  deriving DecidableEq, Repr

/-- The underlying value of a `Direction`. -/
def Direction.toNat : Direction → Nat
  | .up => 0
  | .right => 1
  | .down => 2
  | .left => 3

/-- The cast `static_cast<Direction>(n % 4)`. -/
def Direction.cast (n : Nat) : Direction :=
  match n % 4 with
  | 0 => .up
  | 1 => .right
  | 2 => .down
  | _ => .left

/-! ## Vertex -/

/-- The class `Vertex`: a pair of 8-bit coordinates. -/
structure Vertex where
  x : Nat
  y : Nat
  deriving DecidableEq, Repr

/-- The constructor `Vertex(x, y)` applied to `int` arguments. -/
def Vertex.make (x y : Int) : Vertex := ⟨u8 x, u8 y⟩

/-- The function `Vertex::pack`: `x + y * kMaxCoordinate` converted to `size_type`. -/
def Vertex.pack (v : Vertex) : Nat := (v.x + v.y * kMaxCoordinate) % 65536

/-- The function `Vertex::unpack`. -/
def Vertex.unpack (v : Nat) : Vertex :=
  Vertex.make (v % kMaxCoordinate : Nat) (v / kMaxCoordinate : Nat)

/-- The function `Vertex::adjacents`. The comparisons with `w - 1` and `h - 1` are made in `int`. -/
def Vertex.adjacents (v : Vertex) (w h : Nat) : List Vertex :=
  (if v.y > 0 then [Vertex.make v.x ((v.y : Int) - 1)] else []) ++
  (if (v.x : Int) < (w : Int) - 1 then [Vertex.make ((v.x : Int) + 1) v.y] else []) ++
  (if (v.y : Int) < (h : Int) - 1 then [Vertex.make v.x ((v.y : Int) + 1)] else []) ++
  (if v.x > 0 then [Vertex.make ((v.x : Int) - 1) v.y] else [])

/-- The function `Vertex::move`. The new coordinate is converted back to 8 bits, so that
`y_ - 1` at `y_ = 0` is 255. The `default` branch cannot be reached from a `Direction`. -/
def Vertex.move (v : Vertex) : Direction → Vertex
  | .up => Vertex.make v.x ((v.y : Int) - 1)
  | .right => Vertex.make ((v.x : Int) + 1) v.y
  | .down => Vertex.make v.x ((v.y : Int) + 1)
  | .left => Vertex.make ((v.x : Int) - 1) v.y

/-- The function `Vertex::direction`. The comparisons are made in `int`, without wrap-around. -/
def Vertex.direction (v adjacent : Vertex) : Except Err Direction :=
  if (v.x : Int) = adjacent.x ∧ (v.y : Int) - 1 = adjacent.y then .ok .up
  else if (v.x : Int) + 1 = adjacent.x ∧ (v.y : Int) = adjacent.y then .ok .right
  else if (v.x : Int) = adjacent.x ∧ (v.y : Int) + 1 = adjacent.y then .ok .down
  else if (v.x : Int) - 1 = adjacent.x ∧ (v.y : Int) = adjacent.y then .ok .left
  else .error .logicError

/-! ## Grid and its iterator -/

/-- The class template `Grid<T>`: the dimensions and a vector of `kGridSize` elements,
given by its element at every index below `kGridSize`. -/
structure Grid (T : Type) where
  width : Nat
  height : Nat
  grid : Nat → T

/-- The constructor `Grid(w, h, value)`. -/
def Grid.fill {T : Type} (w h : Nat) (value : T) : Grid T :=
  ⟨w, h, fun _ => value⟩

/-- Reading `operator[]`: an index beyond the vector is undefined behaviour. -/
def Grid.get {T : Type} (g : Grid T) (i : Nat) : Except Err T :=
  if i < kGridSize then .ok (g.grid i) else .error .outOfRange

/-- Writing through `operator[]`. -/
def Grid.set {T : Type} (g : Grid T) (i : Nat) (value : T) : Except Err (Grid T) :=
  if i < kGridSize then .ok { g with grid := fun j => if j = i then value else g.grid j }
  else .error .outOfRange

/-- Reading `Grid::at(const Vertex&)`. -/
def Grid.at {T : Type} (g : Grid T) (v : Vertex) : Except Err T :=
  g.get v.pack

/-- Writing through `Grid::at(const Vertex&)`. -/
def Grid.setAt {T : Type} (g : Grid T) (v : Vertex) (value : T) : Except Err (Grid T) :=
  g.set v.pack value

/-- The class `GridIterator`. -/
structure GridIterator where
  width : Nat
  height : Nat
  v : Vertex
  deriving DecidableEq, Repr

/-- The function `GridIterator::begin`. -/
def GridIterator.begin (w h : Nat) : GridIterator := ⟨w, h, Vertex.make 0 0⟩

/-- The function `GridIterator::end`. -/
def GridIterator.end_ (w h : Nat) : GridIterator :=
  ⟨w, h, Vertex.make kMaxCoordinate kMaxCoordinate⟩

/-- The operator `GridIterator::operator++`. -/
def GridIterator.next (it : GridIterator) : Except Err GridIterator :=
  let x1 := (it.v.x + 1) % 256
  if it.width = 0 then .error .divByZero
  else
    let y1 := (it.v.y + x1 / it.width) % 256
    let x2 := x1 % it.width
    if y1 ≥ it.height then .ok (GridIterator.end_ it.width it.height)
    else .ok ⟨it.width, it.height, ⟨x2, y1⟩⟩

/-- The vertices visited by `for (it = first; it != end; ++it)`, at most `n` of them. -/
def GridIterator.collect : Nat → GridIterator → Except Err (List Vertex)
  | 0, it => if it = GridIterator.end_ it.width it.height then .ok [] else .error .fuel
  | n + 1, it =>
    if it = GridIterator.end_ it.width it.height then .ok []
    else do
      let it1 ← it.next
      let rest ← GridIterator.collect n it1
      pure (it.v :: rest)

/-- The vertices of a range-based `for` over a grid of the given dimensions. An iterator has
at most `255 * 255` positions before the end, which bounds the loop. -/
def gridVertices (w h : Nat) : Except Err (List Vertex) :=
  GridIterator.collect (255 * 255) (GridIterator.begin w h)

/-- The vertices of `for (const auto& v : grid)`. -/
def Grid.vertices {T : Type} (g : Grid T) : Except Err (List Vertex) :=
  gridVertices g.width g.height

/-! ## Maze -/

/-- The class `Maze`, a `Grid<Cell>`. -/
abbrev Maze := Grid Cell

/-- A path is a vector of vertices. -/
abbrev Path := List Vertex

/-- The element `*(p.rbegin() + k)`; undefined behaviour when the path is too short. -/
def Path.fromBack (p : Path) (k : Nat) : Except Err Vertex :=
  match p.reverse.get? k with
  | some v => .ok v
  | none => .error .emptyRange

/-- The body of the `while (!stack.empty())` loop of `Maze::initialize` for one popped vertex:
the `for` loop over its adjacent vertices. -/
def Maze.fillAdjacents : List Vertex → Maze → List Vertex → List Vertex →
    Except Err (Maze × List Vertex × List Vertex)
  | [], maze, visited, stack => .ok (maze, visited, stack)
  | v1 :: rest, maze, visited, stack => do
    let c ← maze.at v1
    if v1 ∉ visited ∧ c = Cell.every then
      let maze1 ← maze.setAt v1 Cell.outside
      Maze.fillAdjacents rest maze1 (v1 :: visited) (v1 :: stack)
    else
      Maze.fillAdjacents rest maze visited stack

/-- The `while (!stack.empty())` loop of `Maze::initialize`; the head of the list is the top of
the stack. -/
def Maze.fillLoop : Nat → Maze → List Vertex → List Vertex → Except Err Maze
  | _, maze, _, [] => .ok maze
  | 0, _, _, _ :: _ => .error .fuel
  | n + 1, maze, visited, v0 :: stack => do
    let (maze1, visited1, stack1) ←
      Maze.fillAdjacents (v0.adjacents maze.width maze.height) maze visited stack
    Maze.fillLoop n maze1 visited1 stack1

/-- The first loop of `Maze::initialize`: the stack of the `outside` vertices, last one on top. -/
def Maze.outsideStack (maze : Maze) : List Vertex → List Vertex → Except Err (List Vertex)
  | [], stack => .ok stack
  | v :: rest, stack => do
    let c ← maze.at v
    if c = Cell.outside then Maze.outsideStack maze rest (v :: stack)
    else Maze.outsideStack maze rest stack

/-- The function `Maze::initialize`. Every iteration of the second loop pops one vertex, and a
vertex is pushed only when a cell changes from `every` to `outside`, so that `3 * kGridSize`
iterations bound the loop when the extent lies within the grid. -/
def Maze.initialize (grid : Grid Cell) : Except Err Maze := do
  let vs ← grid.vertices
  let stack ← Maze.outsideStack grid vs []
  Maze.fillLoop (3 * kGridSize) grid [] stack

/-- The function `Maze::forward`. -/
def Maze.forward (m : Maze) (v0 v1 : Vertex) : Except Err Vertex := do
  let c ← m.at v1
  if c = Cell.every ∨ c = Cell.outside then .error .logicError
  else
    let d0 ← v0.direction v1
    pure (v1.move (Direction.cast ((d0.toNat + c.toNat) % 4)))

/-- The function `Maze::backward`. -/
def Maze.backward (m : Maze) (v0 v1 : Vertex) : Except Err Vertex := do
  let c ← m.at v1
  if c = Cell.every ∨ c = Cell.outside then .error .logicError
  else
    let d0 ← v0.direction v1
    pure (v1.move (Direction.cast ((4 + d0.toNat - c.toNat) % 4)))

/-- The `while (true)` loop of `Maze::search`: `some` is the subpath pushed to the result,
`none` a trace that is dropped. -/
def Maze.trace (m : Maze) (next : Maze → Vertex → Vertex → Except Err Vertex) (complete : Bool) :
    Nat → Vertex → Vertex → List Vertex → Path → Except Err (Option Path)
  | 0, _, _, _, _ => .error .fuel
  | n + 1, v0, v1, visited, subpath => do
    let v2 ← next m v0 v1
    if v2 ∈ visited then
      pure (if !complete then some subpath else none)
    else
      let c ← m.at v2
      if c = Cell.every ∨ c = Cell.outside then
        pure (if complete then some (subpath ++ [v2]) else none)
      else
        Maze.trace m next complete n v1 v2 (v2 :: visited) (subpath ++ [v2])

/-- The inner `for` loop of `Maze::search`, over the vertices adjacent to `end`. -/
def Maze.searchAdjacents (m : Maze) (next : Maze → Vertex → Vertex → Except Err Vertex)
    (complete : Bool) (fuel : Nat) (end_ : Vertex) : List Vertex → Except Err (List Path)
  | [] => .ok []
  | v1 :: rest => do
    let c ← m.at v1
    if c = Cell.every ∨ c = Cell.outside then
      Maze.searchAdjacents m next complete fuel end_ rest
    else
      let r ← Maze.trace m next complete fuel end_ v1 [end_, v1] [end_, v1]
      let more ← Maze.searchAdjacents m next complete fuel end_ rest
      pure (r.toList ++ more)

/-- The outer `for` loop of `Maze::search`, over the vertices of the grid. -/
def Maze.searchVertices (m : Maze) (next : Maze → Vertex → Vertex → Except Err Vertex)
    (complete : Bool) (fuel : Nat) : List Vertex → Except Err (List Path)
  | [] => .ok []
  | end_ :: rest => do
    let c ← m.at end_
    if c ≠ Cell.every ∧ c ≠ Cell.outside then
      Maze.searchVertices m next complete fuel rest
    else
      let here ← Maze.searchAdjacents m next complete fuel end_
        (end_.adjacents m.width m.height)
      let more ← Maze.searchVertices m next complete fuel rest
      pure (here ++ more)

/-- The function `Maze::search`; `fuel` bounds the length of each trace. -/
def Maze.search (m : Maze) (next : Maze → Vertex → Vertex → Except Err Vertex)
    (complete : Bool) (fuel : Nat) : Except Err (List Path) := do
  let vs ← m.vertices
  Maze.searchVertices m next complete fuel vs

/-- The function `Maze::searchComplete`. -/
def Maze.searchComplete (m : Maze) (fuel : Nat) : Except Err (List Path) :=
  m.search Maze.forward true fuel

/-- The function `Maze::searchLeading`. -/
def Maze.searchLeading (m : Maze) (fuel : Nat) : Except Err (List Path) :=
  m.search Maze.forward false fuel

/-- The function `Maze::searchTrailing`. -/
def Maze.searchTrailing (m : Maze) (fuel : Nat) : Except Err (List Path) :=
  m.search Maze.backward false fuel

/-! ## The pseudo random generator -/

/-- The generator: a stream of numbers and the position of the next one. -/
structure Rng where
  seq : Nat → Nat
  pos : Nat

/-- A draw of `std::uniform_int_distribution<>(0, n - 1)`; undefined behaviour for `n = 0`. -/
def Rng.uniform (r : Rng) (n : Nat) : Except Err (Nat × Rng) :=
  if n = 0 then .error .emptyRange
  else .ok (r.seq r.pos % n, { r with pos := r.pos + 1 })

/-- Insertion of an element at a position of a list (at the end when the position is beyond). -/
def insertAt (v : Vertex) : Nat → List Vertex → List Vertex
  | 0, l => v :: l
  | _ + 1, [] => [v]
  | k + 1, a :: l => a :: insertAt v k l

/-- The function `std::shuffle`: a permutation of the list chosen by the generator. -/
def Rng.shuffle (r : Rng) : List Vertex → List Vertex × Rng
  | [] => ([], r)
  | v :: l =>
    let (l1, r1) := Rng.shuffle r l
    (insertAt v (r1.seq r1.pos % (l1.length + 1)) l1, { r1 with pos := r1.pos + 1 })

/-! ## State -/

/-- The class `State`. -/
structure State where
  maze_ : Maze

/-- The loop of `State::fixes`. -/
def State.fixesLoop (s : State) (original : Maze) :
    List Vertex → Except Err (List (Vertex × Cell))
  | [] => .ok []
  | v :: rest => do
    let c ← s.maze_.at v
    let c0 ← original.at v
    let fs ← State.fixesLoop s original rest
    if c ≠ c0 then pure ((v, c) :: fs) else pure fs

/-- The function `State::fixes`. -/
def State.fixes (s : State) (original : Maze) : Except Err (List (Vertex × Cell)) := do
  let vs ← original.vertices
  s.fixesLoop original vs

/-- The loop of `State::countNumberOfFixing`; the counter is a `size_type`. -/
def State.countLoop (s : State) (original : Maze) : List Vertex → Nat → Except Err Nat
  | [], count => .ok count
  | v :: rest, count => do
    let c ← s.maze_.at v
    let c0 ← original.at v
    if c ≠ c0 then State.countLoop s original rest ((count + 1) % 65536)
    else State.countLoop s original rest count

/-- The function `State::countNumberOfFixing`. -/
def State.countNumberOfFixing (s : State) (original : Maze) : Except Err Nat := do
  let vs ← original.vertices
  s.countLoop original vs 0

/-- The loop over one subpath in `State::calculateEnergy`. -/
def State.markContributing (maze : Maze) : Path → Grid Bool → Except Err (Grid Bool)
  | [], contribution => .ok contribution
  | v :: rest, contribution => do
    let c ← maze.at v
    if c ≠ Cell.outside then
      let contribution1 ← contribution.setAt v true
      State.markContributing maze rest contribution1
    else
      State.markContributing maze rest contribution

/-- The loop over the subpaths in `State::calculateEnergy`. -/
def State.markContributingAll (maze : Maze) : List Path → Grid Bool → Except Err (Grid Bool)
  | [], contribution => .ok contribution
  | p :: rest, contribution => do
    let contribution1 ← State.markContributing maze p contribution
    State.markContributingAll maze rest contribution1

/-- The second loop of `State::calculateEnergy`. -/
def State.sumEnergy (contribution : Grid Bool) : List Vertex → Int → Except Err Int
  | [], energy => .ok energy
  | v :: rest, energy => do
    let b ← contribution.at v
    if b then State.sumEnergy contribution rest (energy - 1)
    else State.sumEnergy contribution rest energy

/-- The function `State::calculateEnergy`. The result is a `double` holding an integer. -/
def State.calculateEnergy (s : State) (fuel : Nat) : Except Err Int := do
  let contribution : Grid Bool := Grid.fill s.maze_.width s.maze_.height false
  let paths ← s.maze_.searchComplete fuel
  let contribution1 ← State.markContributingAll s.maze_ paths contribution
  let vs ← contribution1.vertices
  State.sumEnergy contribution1 vs 0

/-- The resampling loop of `State::sampleSubpathPair`. -/
def State.sampleLoop (leadings trailings : List Path) :
    Nat → Rng → Except Err ((Path × Path) × Rng)
  | 0, _ => .error .fuel
  | n + 1, r => do
    let (i, r1) ← r.uniform leadings.length
    let leading := leadings.getD i []
    let (j, r2) ← r1.uniform trailings.length
    let trailing := trailings.getD j []
    let lb ← Path.fromBack leading 0
    let tb ← Path.fromBack trailing 0
    let distance := ((lb.x : Int) - (tb.x : Int)).natAbs + ((lb.y : Int) - (tb.y : Int)).natAbs
    if distance > 10 then State.sampleLoop leadings trailings n r2
    else pure ((leading, trailing), r2)

/-- The function `State::sampleSubpathPair`. -/
def State.sampleSubpathPair (s : State) (fuel : Nat) (r : Rng) :
    Except Err ((Path × Path) × Rng) := do
  let leadings ← s.maze_.searchLeading fuel
  let trailings ← s.maze_.searchTrailing fuel
  State.sampleLoop leadings trailings fuel r

/-- The loop of `State::connectSubpathPair` that assigns the rules along the connecting
subpath. -/
def State.assignRules : Maze → Path → Except Err Maze
  | maze, u0 :: u1 :: u2 :: rest => do
    let d01 ← u0.direction u1
    let d12 ← u1.direction u2
    let maze1 ← maze.setAt u1 (Cell.cast ((4 + d12.toNat - d01.toNat) % 4))
    State.assignRules maze1 (u1 :: u2 :: rest)
  | maze, _ => .ok maze

/-- The `for` loop over the shuffled adjacent vertices in `State::connectSubpathPair`:
`Sum.inl` is the maze at the `return`, `Sum.inr` the visited set and the queue after the loop. -/
def State.connectAdjacents (maze : Maze) (trailing subpath : Path) :
    List Vertex → List Vertex → List Path → Except Err (Maze ⊕ (List Vertex × List Path))
  | [], visited, queue => .ok (Sum.inr (visited, queue))
  | v1 :: rest, visited, queue => do
    let tb ← Path.fromBack trailing 0
    if v1 = tb then
      let tb1 ← Path.fromBack trailing 1
      let maze1 ← State.assignRules maze (subpath ++ [v1] ++ [tb1])
      pure (Sum.inl maze1)
    else
      let cell ← maze.at v1
      if v1 ∉ visited ∧ cell ≠ Cell.every ∧ cell ≠ Cell.outside then
        State.connectAdjacents maze trailing subpath rest (v1 :: visited)
          (queue ++ [subpath ++ [v1]])
      else
        State.connectAdjacents maze trailing subpath rest visited queue

/-- The `while (!queue.empty())` loop of `State::connectSubpathPair`. -/
def State.connectLoop (maze : Maze) (trailing : Path) :
    Nat → List Vertex → List Path → Rng → Except Err (Maze × Rng)
  | _, _, [], r => .ok (maze, r)
  | 0, _, _ :: _, _ => .error .fuel
  | n + 1, visited, subpath :: queue, r => do
    let v0 ← Path.fromBack subpath 0
    let (adjacents, r1) := r.shuffle (v0.adjacents maze.width maze.height)
    match ← State.connectAdjacents maze trailing subpath adjacents visited queue with
    | Sum.inl maze1 => pure (maze1, r1)
    | Sum.inr (visited1, queue1) => State.connectLoop maze trailing n visited1 queue1 r1

/-- The function `State::connectSubpathPair`. -/
def State.connectSubpathPair (s : State) (leading trailing : Path) (fuel : Nat) (r : Rng) :
    Except Err (State × Rng) := do
  let visited := leading ++ trailing
  let a ← Path.fromBack leading 1
  let b ← Path.fromBack leading 0
  let (maze1, r1) ← State.connectLoop s.maze_ trailing fuel visited [[a, b]] r
  pure (⟨maze1⟩, r1)

/-- The loop over one subpath in `State::clean`. -/
def State.markCovered : Path → Grid Bool → Except Err (Grid Bool)
  | [], contribution => .ok contribution
  | v :: rest, contribution => do
    let contribution1 ← contribution.setAt v true
    State.markCovered rest contribution1

/-- The loop over the subpaths in `State::clean`. -/
def State.markCoveredAll : List Path → Grid Bool → Except Err (Grid Bool)
  | [], contribution => .ok contribution
  | p :: rest, contribution => do
    let contribution1 ← State.markCovered p contribution
    State.markCoveredAll rest contribution1

/-- The second loop of `State::clean`. -/
def State.resetLoop (contribution : Grid Bool) (original : Maze) :
    List Vertex → Maze → Except Err Maze
  | [], maze => .ok maze
  | v :: rest, maze => do
    let b ← contribution.at v
    if !b then
      let c0 ← original.at v
      let maze1 ← maze.setAt v c0
      State.resetLoop contribution original rest maze1
    else
      State.resetLoop contribution original rest maze

/-- The function `State::clean`. -/
def State.clean (s : State) (original : Maze) (fuel : Nat) : Except Err State := do
  let contribution : Grid Bool := Grid.fill s.maze_.width s.maze_.height false
  let paths ← s.maze_.searchComplete fuel
  let contribution1 ← State.markCoveredAll paths contribution
  let vs ← contribution1.vertices
  let maze1 ← State.resetLoop contribution1 original vs s.maze_
  pure ⟨maze1⟩

/-- The function `State::propose`. -/
def State.propose (s : State) (original : Maze) (fuel : Nat) (r : Rng) :
    Except Err (State × Rng) := do
  let ((leading, trailing), r1) ← s.sampleSubpathPair fuel r
  let (state1, r2) ← s.connectSubpathPair leading trailing fuel r1
  let state2 ← state1.clean original fuel
  pure (state2, r2)

/-! ## MazeFixing -/

/-- The `switch` of `MazeFixing::buildMaze`: the cell written for a character, if any. -/
def cellOfChar (ch : Char) : Option Cell :=
  if ch = 'S' then some Cell.straight
  else if ch = 'R' then some Cell.right
  else if ch = 'U' then some Cell.turn
  else if ch = 'L' then some Cell.left
  else if ch = 'E' then some Cell.every
  else none

/-- The element `row[x]` of a `std::string`: the terminating zero at `x = row.size()`,
undefined behaviour beyond it. -/
def charAt (row : String) (x : Nat) : Except Err Char :=
  match row.toList.get? x with
  | some ch => .ok ch
  | none => if x = row.length then .ok (Char.ofNat 0) else .error .outOfRange

/-- The inner loop of `MazeFixing::buildMaze` over the columns `x` of row `y`. -/
def buildRow (row : String) (y : Nat) : List Nat → Grid Cell → Except Err (Grid Cell)
  | [], g => .ok g
  | x :: xs, g => do
    let ch ← charAt row x
    match cellOfChar ch with
    | some c =>
      let g1 ← g.setAt (Vertex.make x y) c
      buildRow row y xs g1
    | none => buildRow row y xs g

/-- The outer loop of `MazeFixing::buildMaze` over the rows, from row `y` on. -/
def buildRows (width : Nat) : List String → Nat → Grid Cell → Except Err (Grid Cell)
  | [], _, g => .ok g
  | row :: rows, y, g => do
    let g1 ← buildRow row y (List.range width) g
    buildRows width rows (y + 1) g1

/-- The function `MazeFixing::buildMaze`. The loop counters are `size_type`: with 65536 or
more rows or columns they never reach their bound. -/
def buildMaze (grid : List String) : Except Err Maze :=
  match grid with
  | [] => .error .emptyRange
  | row0 :: _ =>
    let width := row0.length
    let height := grid.length
    if width ≥ 65536 ∨ height ≥ 65536 then .error .fuel
    else do
      let cell_grid ← buildRows width grid 0 (Grid.fill (width % 256) (height % 256) Cell.outside)
      Maze.initialize cell_grid

/-- The main loop of `MazeFixing::improve`, with the number of rounds still to run. -/
def improveLoop (maze : Maze) (max_fixing fuel : Nat) :
    Nat → State → Int → Rng → Except Err (State × Int × Rng)
  | 0, state, energy, r => .ok (state, energy, r)
  | n + 1, state, energy, r => do
    let (new_state, r1) ← state.propose maze fuel r
    let new_energy ← new_state.calculateEnergy fuel
    if new_energy > energy then improveLoop maze max_fixing fuel n state energy r1
    else
      let n_fixing ← new_state.countNumberOfFixing maze
      if n_fixing > max_fixing then improveLoop maze max_fixing fuel n state energy r1
      else improveLoop maze max_fixing fuel n new_state new_energy r1

/-- The text of one fix in `MazeFixing::improve`. -/
def formatFix (fix : Vertex × Cell) : Except Err String :=
  let s := Nat.repr fix.1.y ++ " " ++ Nat.repr fix.1.x ++ " "
  match fix.2 with
  | .straight => .ok (s ++ "S")
  | .right => .ok (s ++ "R")
  | .turn => .ok (s ++ "U")
  | .left => .ok (s ++ "L")
  | _ => .error .logicError

/-- The last loop of `MazeFixing::improve`. -/
def formatFixes : List (Vertex × Cell) → Except Err (List String)
  | [] => .ok []
  | fix :: rest => do
    let s ← formatFix fix
    let more ← formatFixes rest
    pure (s :: more)

/-- The state that `MazeFixing::improve` holds after its 500 rounds, with the reference
maze. The generator of the source is `std::mt19937_64 random(0)`; here it is an argument. -/
def improveState (cells : List String) (max_fixing fuel : Nat) (r : Rng) :
    Except Err (Maze × State) := do
  let maze ← buildMaze cells
  let state : State := ⟨maze⟩
  let energy ← state.calculateEnergy fuel
  let (state1, _, _) ← improveLoop maze max_fixing fuel 500 state energy r
  pure (maze, state1)

/-- The value of `state.fixes(maze)` in `MazeFixing::improve`, after the 500 rounds. -/
def improveFixes (cells : List String) (max_fixing fuel : Nat) (r : Rng) :
    Except Err (List (Vertex × Cell)) := do
  let (maze, state) ← improveState cells max_fixing fuel r
  state.fixes maze

/-- The function `MazeFixing::improve`. -/
def improve (cells : List String) (max_fixing fuel : Nat) (r : Rng) :
    Except Err (List String) := do
  let fs ← improveFixes cells max_fixing fuel r
  formatFixes fs

/-! ## Predicates used in the statements -/

/-- A vertex of the `w` by `h` extent. -/
def Vertex.inExtent (v : Vertex) (w h : Nat) : Prop := v.x < w ∧ v.y < h

instance (v : Vertex) (w h : Nat) : Decidable (v.inExtent w h) := by
  unfold Vertex.inExtent; infer_instance

/-- Two vertices one axis-aligned step apart. -/
def Vertex.adjacent4 (v0 v1 : Vertex) : Prop :=
  (v0.x = v1.x ∧ (v0.y + 1 = v1.y ∨ v1.y + 1 = v0.y)) ∨
  (v0.y = v1.y ∧ (v0.x + 1 = v1.x ∨ v1.x + 1 = v0.x))

instance (v0 v1 : Vertex) : Decidable (v0.adjacent4 v1) := by
  unfold Vertex.adjacent4; infer_instance

/-- The vertices of the `w` by `h` extent in row-major order: `y` ascending, then `x`
ascending. -/
def rowMajor (w h : Nat) : List Vertex :=
  (List.range (w * h)).map (fun i => Vertex.mk (i % w) (i / w))

/-- The strict row-major order on vertices. -/
def Vertex.rowMajorLt (a b : Vertex) : Prop :=
  a.y < b.y ∨ (a.y = b.y ∧ a.x < b.x)

/-! ## Sample inputs -/

/-- A maze of width 1 and height 3: one straight cell between two outside cells. -/
def sampleColumn : Maze :=
  { width := 1, height := 3, grid := fun i => if i = 80 then Cell.straight else Cell.outside }

/-- The maze `sampleColumn` with the rule of its middle cell changed to a right turn. -/
def sampleColumnFixed : Maze :=
  { width := 1, height := 3, grid := fun i => if i = 80 then Cell.right else Cell.outside }

/-- The cell read at a vertex carries a fixed rule (straight, right, turn or left). -/
def Maze.fixedAt (m : Maze) (v : Vertex) : Prop :=
  ∃ c, m.at v = .ok c ∧ c ≠ Cell.every ∧ c ≠ Cell.outside

/-- The cell read at a vertex is a wildcard (`every`) or absorbing (`outside`). -/
def Maze.unresolvedAt (m : Maze) (v : Vertex) : Prop :=
  ∃ c, m.at v = .ok c ∧ (c = Cell.every ∨ c = Cell.outside)

/-- Both coordinates fit in 8 bits. -/
def Vertex.valid (v : Vertex) : Prop := v.x < 256 ∧ v.y < 256

/-- The shape of a subpath pushed by `Maze::search` for the start `end_` and one of the given
adjacent vertices: the start is unresolved, the second vertex carries a fixed rule, no vertex
occurs twice, and the rest is a run of fixed-rule vertices that, in a complete search, ends in
one unresolved vertex. -/
def Maze.searchShape (m : Maze) (complete : Bool) (end_ : Vertex) (adj : List Vertex)
    (p : Path) : Prop :=
  ∃ v1 ext, p = end_ :: v1 :: ext ∧ v1 ∈ adj ∧ m.unresolvedAt end_ ∧ m.fixedAt v1 ∧
    p.Nodup ∧ (∀ v ∈ ext, v.valid) ∧ (∀ v ∈ ext.dropLast, m.fixedAt v) ∧
    (complete = true → ∃ e, ext.getLast? = some e ∧ m.unresolvedAt e) ∧
    (complete = false → ∀ v ∈ ext, m.fixedAt v)

/-- Index `i` of the contribution grid is marked by `State::calculateEnergy`: some vertex of
some path has packed index `i` and a cell other than `outside`. -/
def Maze.coveredIndex (m : Maze) (paths : List Path) (i : Nat) : Prop :=
  ∃ p ∈ paths, ∃ u ∈ p, u.pack = i ∧ m.at u ≠ .ok Cell.outside

instance (m : Maze) (paths : List Path) (i : Nat) : Decidable (m.coveredIndex paths i) := by
  unfold Maze.coveredIndex; infer_instance

/-- The vertex lies on some path and its cell is not `outside`. -/
def Maze.onPathNotOutside (m : Maze) (paths : List Path) (v : Vertex) : Prop :=
  (∃ p ∈ paths, v ∈ p) ∧ m.at v ≠ .ok Cell.outside

instance (m : Maze) (paths : List Path) (v : Vertex) :
    Decidable (m.onPathNotOutside paths v) := by
  unfold Maze.onPathNotOutside; infer_instance

/-- A maze of the full width 80 and height 2, the maze of the input rows
`"U" ++ 78 * "." ++ "S"` and `"RU" ++ 77 * "." ++ "U"`: the straight cell in the last column
of row 0 sends a marble entering from the left to column 80, whose packed index is that of
the first cell of row 1. -/
def sampleAlias : Maze :=
  { width := 80, height := 2,
    grid := fun i =>
      if i = 0 then Cell.turn
      else if i = 79 then Cell.straight
      else if i = 80 then Cell.right
      else if i = 81 then Cell.turn
      else if i = 159 then Cell.turn
      else Cell.outside }

/-- A maze of width 2 and height 2 without any fixed rule. -/
def sampleUnresolved : Maze :=
  { width := 2, height := 2, grid := fun i => if i = 0 then Cell.every else Cell.outside }

/-- The input rows `"."`, `"U"`: a turn cell below an outside cell. -/
def sampleRows : List String := [".", "U"]

/-- A generator that always draws zero. -/
def sampleRng : Rng := ⟨fun _ => 0, 0⟩

/-- The second maze has a fixed rule wherever the first one has, and the same cell wherever
the first one has a wildcard or absorbing cell; the dimensions are the same. -/
def Maze.keepsShape (m m1 : Maze) : Prop :=
  m1.width = m.width ∧ m1.height = m.height ∧
    ∀ i, if (m.grid i).isFixed then (m1.grid i).isFixed = true else m1.grid i = m.grid i

/-- A subpath held in the queue of `connectSubpathPair`: at least two vertices, all but the
first with a fixed rule. -/
def Maze.queued (m : Maze) (q : Path) : Prop :=
  2 ≤ q.length ∧ ∀ u ∈ q.tail, m.fixedAt u

/-- The states obtained from `State(original)` by any number of `propose(original, rng)`
steps, with any generator and any fuel. -/
inductive State.reachable (original : Maze) : State → Prop where
  | init : State.reachable original ⟨original⟩
  | step (s s1 : State) (fuel : Nat) (r r1 : Rng) :
      State.reachable original s → s.propose original fuel r = .ok (s1, r1) →
      State.reachable original s1

/-- The number of vertices of the `W` by `H` extent of a maze whose cell is not `outside`. -/
def Maze.nonAbsorbingCount (m : Maze) : Nat :=
  ((rowMajor m.width m.height).filter (fun v => decide (m.at v ≠ .ok Cell.outside))).length

/-- The letter of a cell in the alphabet of the input (`.` for `outside`). -/
def Cell.symbol : Cell → String
  | .straight => "S"
  | .right => "R"
  | .turn => "U"
  | .left => "L"
  | .every => "E"
  | .outside => "."

/-- The text `"<row> <column> <symbol>"` of a fix. -/
def fixText (fix : Vertex × Cell) : String :=
  Nat.repr fix.1.y ++ " " ++ Nat.repr fix.1.x ++ " " ++ fix.2.symbol

/-- The input rows `".", "U", "."`. -/
def sampleTurnRows : List String := [".", "U", "."]

/-- A wildcard vertex of the extent of `g` that is joined to an `outside` vertex of the extent
by a chain of 4-adjacent wildcard vertices of the extent. -/
inductive Maze.wildReach (g : Maze) : Vertex → Prop where
  | base (u v : Vertex) : u.inExtent g.width g.height → v.inExtent g.width g.height →
      u.adjacent4 v → g.at u = .ok Cell.outside → g.at v = .ok Cell.every → Maze.wildReach g v
  | step (u v : Vertex) : Maze.wildReach g u → v.inExtent g.width g.height →
      u.adjacent4 v → g.at v = .ok Cell.every → Maze.wildReach g v

/-- The indices of the vector that hold a wildcard. -/
def Maze.everyIndices (m : Maze) : Finset Nat :=
  (Finset.range kGridSize).filter (fun i => m.grid i = Cell.every)

/-- The invariant of the flood fill of `Maze::initialize` started on the grid `g`. -/
def Maze.fillInv (g maze : Maze) (visited stack : List Vertex) : Prop :=
  maze.width = g.width ∧ maze.height = g.height ∧
  (∀ i, maze.grid i = g.grid i ∨ (g.grid i = Cell.every ∧ maze.grid i = Cell.outside)) ∧
  (∀ v, v.inExtent g.width g.height → maze.at v = .ok Cell.outside →
    g.at v = .ok Cell.outside ∨ g.wildReach v) ∧
  (∀ v ∈ stack, v.inExtent g.width g.height ∧ maze.at v = .ok Cell.outside) ∧
  (∀ v ∈ visited, maze.at v = .ok Cell.outside)

/-- The work list condition of the flood fill: an `outside` vertex of the extent is on the
stack, or none of its adjacent vertices is a wildcard, but for the pending adjacent vertices
of the vertex `v0` being expanded. -/
def Maze.fillWork (g maze : Maze) (stack : List Vertex) (v0 : Vertex)
    (pending : List Vertex) : Prop :=
  ∀ u, u.inExtent g.width g.height → maze.at u = .ok Cell.outside →
    u ∈ stack ∨ ∀ v ∈ u.adjacents g.width g.height,
      maze.at v ≠ .ok Cell.every ∨ (u = v0 ∧ v ∈ pending)

/-- A grid of width 3 and height 2: the row `E`, `E`, `S` above the row `.`, `R`, `E`. The
two wildcards of the first row are joined to the outside cell, the one of the second row is
not. -/
def sampleFill : Grid Cell :=
  { width := 3, height := 2,
    grid := fun i =>
      if i = 0 then Cell.every
      else if i = 1 then Cell.every
      else if i = 2 then Cell.straight
      else if i = 81 then Cell.right
      else if i = 82 then Cell.every
      else Cell.outside }

/-- The maze of the input row `".UU."`: two turn cells between two outside cells. -/
def samplePair : Maze :=
  { width := 4, height := 1,
    grid := fun i => if i = 1 then Cell.turn else if i = 2 then Cell.turn else Cell.outside }

/-- A generator that draws 0, 1, 2, and so on. -/
def sampleCounter : Rng := ⟨fun n => n, 0⟩

/-- The input row `".UU.U."`. -/
def sampleCorridorRows : List String := [".UU.U."]

/-- A generator that draws 0, 2, 4, and so on. -/
def sampleEven : Rng := ⟨fun n => 2 * n, 0⟩

instance (v : Vertex) : Decidable v.valid := by
  unfold Vertex.valid; infer_instance

instance (a b : Vertex) : Decidable (a.rowMajorLt b) := by
  unfold Vertex.rowMajorLt; infer_instance

/-- The function `Vertex::move` on the underlying value of its argument: the four cases of
the `switch` and its `default` branch, which throws. -/
def Vertex.moveRaw (v : Vertex) (direction : Nat) : Except Err Vertex :=
  if direction = 0 then .ok (Vertex.make v.x ((v.y : Int) - 1))
  else if direction = 1 then .ok (Vertex.make ((v.x : Int) + 1) v.y)
  else if direction = 2 then .ok (Vertex.make v.x ((v.y : Int) + 1))
  else if direction = 3 then .ok (Vertex.make ((v.x : Int) - 1) v.y)
  else .error .logicError

/-- The direction turned by 180 degrees. -/
def Direction.opposite : Direction → Direction
  | .up => .down
  | .right => .left
  | .down => .up
  | .left => .right

/-- Every three consecutive vertices `a, b, c` of the path satisfy `step a b = c`: the path is
one that the transition `step` follows. -/
def Path.follows (step : Vertex → Vertex → Except Err Vertex) (p : Path) : Prop :=
  ∀ i a b c, p[i]? = some a → p[i + 1]? = some b → p[i + 2]? = some c →
    step a b = .ok c

/-- Consecutive vertices of the path are one axis-aligned step apart, without wrap-around. -/
def Path.stepwise (p : Path) : Prop :=
  ∀ i a b, p[i]? = some a → p[i + 1]? = some b → a.adjacent4 b

/-- A maze with four straight cells in a row between two outside cells (width 6, height 1). -/
def sampleStraight : Maze :=
  { width := 6, height := 1,
    grid := fun i => if 1 ≤ i ∧ i ≤ 4 then Cell.straight else Cell.outside }

/-- The input rows `"RR"`, `"RR"`: a 2 by 2 grid of right turns, a closed cycle without any
wildcard or outside cell. -/
def sampleSquareRows : List String := ["RR", "RR"]

/-- The maze `m` agrees with the reference maze on every wildcard and outside cell of the
extent of the reference maze, and has a fixed rule wherever the reference maze has one. -/
def Maze.agreesOnExtent (original m : Maze) : Prop :=
  ∀ v, v.inExtent original.width original.height →
    (original.unresolvedAt v → m.at v = original.at v) ∧ (original.fixedAt v → m.fixedAt v)

/-- Some vertex of some path has the packed index `i`. -/
def hitIndex (paths : List Path) (i : Nat) : Prop :=
  ∃ p ∈ paths, ∃ u ∈ p, u.pack = i

instance (paths : List Path) (i : Nat) : Decidable (hitIndex paths i) := by
  unfold hitIndex; infer_instance

/-- The trace that `Maze::search` starts at the unresolved vertex `end_` towards its adjacent
vertex `v1`. -/
def Maze.traceFrom (m : Maze) (next : Maze → Vertex → Vertex → Except Err Vertex)
    (complete : Bool) (fuel : Nat) (end_ v1 : Vertex) : Except Err (Option Path) :=
  Maze.trace m next complete fuel end_ v1 [end_, v1] [end_, v1]

/-- A reference maze for `sampleAlias`: the same cells, but a left turn at the first vertex
of row 1. -/
def sampleAliasRef : Maze :=
  { width := 80, height := 2,
    grid := fun i =>
      if i = 0 then Cell.turn
      else if i = 79 then Cell.straight
      else if i = 80 then Cell.left
      else if i = 81 then Cell.turn
      else if i = 159 then Cell.turn
      else Cell.outside }


/-- Every cell on the border of the extent of the maze is `outside`. -/
def Maze.borderOutside (m : Maze) : Prop :=
  ∀ v : Vertex, v.inExtent m.width m.height →
    (v.x = 0 ∨ v.y = 0 ∨ v.x + 1 = m.width ∨ v.y + 1 = m.height) → m.at v = .ok Cell.outside

/-- Every path of the list stays inside the extent of the maze, visits no vertex twice, and
steps between 4-adjacent vertices. -/
def Maze.safePaths (m : Maze) (paths : List Path) : Prop :=
  ∀ p ∈ paths, p.Nodup ∧ (∀ v ∈ p, v.inExtent m.width m.height) ∧ Path.stepwise p

/-- A maze of width 4 and height 3 with an outside border: a right turn and a wildcard cell
inside. -/
def sampleRing : Maze :=
  { width := 4, height := 3,
    grid := fun i => if i = 81 then Cell.right else if i = 82 then Cell.every else Cell.outside }


/-- A reference maze for `sampleRing`: two wildcard cells inside an outside border. -/
def sampleRingRef : Maze :=
  { width := 4, height := 3,
    grid := fun i => if i = 81 then Cell.every else if i = 82 then Cell.every else Cell.outside }


/-- The `for` loop over the shuffled adjacent vertices in `State::connectSubpathPair`, without
the assignment of the rules: `Sum.inl` is the connective subpath at the `return`, `Sum.inr`
the visited set and the queue after the loop. -/
def State.findAdjacents (maze : Maze) (trailing subpath : Path) :
    List Vertex → List Vertex → List Path → Except Err (Path ⊕ (List Vertex × List Path))
  | [], visited, queue => .ok (Sum.inr (visited, queue))
  | v1 :: rest, visited, queue => do
    let tb ← Path.fromBack trailing 0
    if v1 = tb then
      let tb1 ← Path.fromBack trailing 1
      pure (Sum.inl (subpath ++ [v1] ++ [tb1]))
    else
      let cell ← maze.at v1
      if v1 ∉ visited ∧ cell ≠ Cell.every ∧ cell ≠ Cell.outside then
        State.findAdjacents maze trailing subpath rest (v1 :: visited)
          (queue ++ [subpath ++ [v1]])
      else
        State.findAdjacents maze trailing subpath rest visited queue

/-- The breadth-first search of `State::connectSubpathPair`, without the assignment of the
rules: the connective subpath at the `return`, or `none` when the queue is exhausted. -/
def State.findLoop (maze : Maze) (trailing : Path) :
    Nat → List Vertex → List Path → Rng → Except Err (Option Path × Rng)
  | _, _, [], r => .ok (none, r)
  | 0, _, _ :: _, _ => .error .fuel
  | n + 1, visited, subpath :: queue, r => do
    let v0 ← Path.fromBack subpath 0
    let (adjacents, r1) := r.shuffle (v0.adjacents maze.width maze.height)
    match ← State.findAdjacents maze trailing subpath adjacents visited queue with
    | Sum.inl p => pure (some p, r1)
    | Sum.inr (visited1, queue1) => State.findLoop maze trailing n visited1 queue1 r1

/-- The connective subpath that the breadth-first search of `State::connectSubpathPair`
finds between the two subpaths, or `none` when the search exhausts its queue. -/
def State.connectivePath (s : State) (leading trailing : Path) (fuel : Nat) (r : Rng) :
    Except Err (Option Path × Rng) := do
  let visited := leading ++ trailing
  let a ← Path.fromBack leading 1
  let b ← Path.fromBack leading 0
  State.findLoop s.maze_ trailing fuel visited [[a, b]] r

/-- The state is clean with respect to the reference maze: every vertex of the extent whose
packed index is that of no vertex on a path of `searchComplete` holds the rule of the
reference maze. -/
def State.cleanFor (s : State) (original : Maze) (fuel : Nat) : Prop :=
  ∃ paths, s.maze_.searchComplete fuel = .ok paths ∧
    ∀ v : Vertex, v.inExtent s.maze_.width s.maze_.height → ¬ hitIndex paths v.pack →
      s.maze_.at v = original.at v

/-- A maze of width 3 and height 3: two U-turn cells side by side in the middle row, all
other cells outside. -/
def sampleSplice : Maze :=
  { width := 3, height := 3,
    grid := fun i => if i = 81 then Cell.turn else if i = 82 then Cell.turn else Cell.outside }


/-- A walk: consecutive vertices are 4-adjacent, and every vertex has 8-bit coordinates and a
packed index inside the storage of the grid. -/
def Path.walk (p : Path) : Prop :=
  List.Chain' Vertex.adjacent4 p ∧ ∀ v ∈ p, v.valid ∧ v.pack < kGridSize


/-- The input rows of a 16 by 4 grid: a straight cell in the corner `(0,0)`, U-turn cells at
`(1,0)` and `(0,1)`, and a straight cell in the opposite corner `(15,3)`, whose packed index
255 is that of the vertex `(255,0)`. -/
def sampleWrapRows : List String :=
  ["SU..............", "U...............", "................", "...............S"]

/-- A generator that draws 1, 2, 3, and so on. -/
def sampleAhead : Rng := ⟨fun n => n + 1, 0⟩


/-- A maze of width 5 and height 1: a straight cell and, one outside cell further, a U-turn
cell. -/
def sampleMixed : Maze :=
  { width := 5, height := 1,
    grid := fun i => if i = 1 then Cell.straight else if i = 3 then Cell.turn
      else Cell.outside }

/-! # Theorems -/

/-! ## Coordinates: arithmetic, adjacency, direction -/

theorem u8_natCast (n : Nat) : u8 (n : Int) = n % 256 := by
  unfold u8; omega

theorem u8_succ (n : Nat) : u8 ((n : Int) + 1) = (n + 1) % 256 := by
  unfold u8; omega

theorem u8_pred (n : Nat) (h : 0 < n) : u8 ((n : Int) - 1) = (n - 1) % 256 := by
  unfold u8; omega

theorem u8_pred_zero : u8 ((0 : Nat) - 1 : Int) = 255 := by
  decide

theorem direction_move_of_adjacent4 (v0 v1 : Vertex) (h0x : v0.x < 256) (h0y : v0.y < 256)
    (h1x : v1.x < 256) (h1y : v1.y < 256) (hadj : v0.adjacent4 v1) :
    ∃ d, v0.direction v1 = .ok d ∧ v0.move d = v1 ∧ ∀ d1, v0.move d1 = v1 → d1 = d := by
  obtain ⟨x0, y0⟩ := v0
  obtain ⟨x1, y1⟩ := v1
  simp only [Vertex.adjacent4] at hadj
  simp only at h0x h0y h1x h1y
  rcases hadj with ⟨hx, hy | hy⟩ | ⟨hy, hx | hx⟩ <;> subst hx <;> subst hy
  · refine ⟨.down, ?_, ?_, ?_⟩
    · simp [Vertex.direction]; try omega
    · simp [Vertex.move, Vertex.make, u8]; omega
    · intro d1; cases d1 <;> simp [Vertex.move, Vertex.make, u8] <;> omega
  · refine ⟨.up, ?_, ?_, ?_⟩
    · simp [Vertex.direction]; try omega
    · simp [Vertex.move, Vertex.make, u8]; omega
    · intro d1; cases d1 <;> simp [Vertex.move, Vertex.make, u8] <;> omega
  · refine ⟨.right, ?_, ?_, ?_⟩
    · simp [Vertex.direction]; try omega
    · simp [Vertex.move, Vertex.make, u8]; omega
    · intro d1; cases d1 <;> simp [Vertex.move, Vertex.make, u8] <;> omega
  · refine ⟨.left, ?_, ?_, ?_⟩
    · simp [Vertex.direction]; try omega
    · simp [Vertex.move, Vertex.make, u8]; omega
    · intro d1; cases d1 <;> simp [Vertex.move, Vertex.make, u8] <;> omega

theorem mem_adjacents_iff (v0 v1 : Vertex) (w h : Nat) (hw : w ≤ 256) (hh : h ≤ 256)
    (h0 : v0.inExtent w h) :
    v1 ∈ v0.adjacents w h ↔ v1.inExtent w h ∧ v0.adjacent4 v1 := by
  obtain ⟨x0, y0⟩ := v0
  obtain ⟨x1, y1⟩ := v1
  simp only [Vertex.inExtent] at h0
  simp only [Vertex.adjacents, Vertex.inExtent, Vertex.adjacent4, Vertex.make, u8,
    List.mem_append]
  obtain ⟨hx, hy⟩ := h0
  constructor
  · intro hm
    rcases hm with ((hm | hm) | hm) | hm <;> split_ifs at hm <;>
      simp only [List.mem_singleton, List.not_mem_nil, Vertex.mk.injEq] at hm <;> omega
  · rintro ⟨⟨h1x, h1y⟩, hadj⟩
    rcases hadj with ⟨ex, ey | ey⟩ | ⟨ey, ex | ex⟩
    · left; right
      rw [if_pos (by omega)]
      simp only [List.mem_singleton, Vertex.mk.injEq]; omega
    · left; left; left
      rw [if_pos (by omega)]
      simp only [List.mem_singleton, Vertex.mk.injEq]; omega
    · left; left; right
      rw [if_pos (by omega)]
      simp only [List.mem_singleton, Vertex.mk.injEq]; omega
    · right
      rw [if_pos (by omega)]
      simp only [List.mem_singleton, Vertex.mk.injEq]; omega


/-- Claim C10: for vertices `v0`, `v1` of a `W` by `H` grid with `W, H ≤ 80`, where `v1` is
4-adjacent to `v0` (in particular when `v1` is one of `v0.adjacents(W, H)`), the call
`v0.direction(v1)` does not throw, `v0.move(v0.direction(v1)) == v1`, and the direction
returned is the only one whose `move`, computed in 8-bit arithmetic, gives `v1`. -/
theorem C10_direction_is_unique_move (W H : Nat) (hW : W ≤ 80) (hH : H ≤ 80) (v0 v1 : Vertex)
    (h0 : v0.inExtent W H)
    (h1 : (v1.inExtent W H ∧ v0.adjacent4 v1) ∨ v1 ∈ v0.adjacents W H) :
    ∃ d, v0.direction v1 = .ok d ∧ v0.move d = v1 ∧ ∀ d1, v0.move d1 = v1 → d1 = d := by
  have h2 : v1.inExtent W H ∧ v0.adjacent4 v1 := by
    rcases h1 with h1 | h1
    · exact h1
    · exact (mem_adjacents_iff v0 v1 W H (by omega) (by omega) h0).1 h1
  obtain ⟨⟨a, b⟩, c⟩ := h2
  obtain ⟨p, q⟩ := h0
  exact direction_move_of_adjacent4 v0 v1 (by omega) (by omega) (by omega) (by omega) c

theorem C10_direction_is_unique_move_witness :
    (Vertex.mk 3 0).inExtent 80 80 ∧ (Vertex.mk 2 0) ∈ (Vertex.mk 3 0).adjacents 80 80 ∧
    ∃ d, (Vertex.mk 3 0).direction ⟨2, 0⟩ = .ok d ∧ (Vertex.mk 3 0).move d = ⟨2, 0⟩ ∧
      ∀ d1, (Vertex.mk 3 0).move d1 = ⟨2, 0⟩ → d1 = d :=
  ⟨by decide, by decide,
    C10_direction_is_unique_move 80 80 (by decide) (by decide) ⟨3, 0⟩ ⟨2, 0⟩ (by decide)
      (Or.inr (by decide))⟩

/-! ## The monad of results -/

theorem bind_eq_ok {α β : Type} (x : Except Err α) (f : α → Except Err β) (b : β) :
    (x >>= f) = .ok b ↔ ∃ a, x = .ok a ∧ f a = .ok b := by
  cases x with
  | error e => simp [bind, Except.bind]
  | ok a => simp [bind, Except.bind]

theorem pure_eq_ok {α : Type} (a b : α) : (pure a : Except Err α) = .ok b ↔ a = b := by
  simp [pure, Except.pure]

/-! ## The grid iterator -/

theorem end_eq (w h : Nat) : GridIterator.end_ w h = ⟨w, h, ⟨80, 80⟩⟩ := by
  simp only [GridIterator.end_, GridIterator.mk.injEq, true_and]
  decide

theorem succ_div_mod (k w : Nat) (hw : 0 < w) :
    k / w + (k % w + 1) / w = (k + 1) / w ∧ (k % w + 1) % w = (k + 1) % w := by
  have hk := Nat.div_add_mod k w
  have e : k + 1 = (k % w + 1) + w * (k / w) := by omega
  constructor
  · conv_rhs => rw [e, Nat.add_mul_div_left _ _ hw]
    omega
  · conv_rhs => rw [e, Nat.add_mul_mod_self_left]

theorem collect_end (n w h : Nat) :
    GridIterator.collect n (GridIterator.end_ w h) = .ok [] := by
  cases n <;> simp [GridIterator.collect, end_eq]

theorem collect_rowMajor (w h : Nat) (hw : w ≤ 80) (hh : h ≤ 80) :
    ∀ n k, k < w * h → w * h - k ≤ n →
      GridIterator.collect n ⟨w, h, ⟨k % w, k / w⟩⟩ =
        .ok ((List.range' k (w * h - k)).map (fun i => Vertex.mk (i % w) (i / w))) := by
  intro n
  induction n with
  | zero => intro k h1 h2; omega
  | succ n ih =>
    intro k h1 h2
    have hw0 : 0 < w := by
      rcases Nat.eq_zero_or_pos w with h0 | h0
      · subst h0; simp at h1
      · exact h0
    have hmod := Nat.mod_lt k hw0
    have hdiv : k / w < h := by
      rw [Nat.div_lt_iff_lt_mul hw0]; rw [Nat.mul_comm]; exact h1
    obtain ⟨e1, e2⟩ := succ_div_mod k w hw0
    have hne : (⟨w, h, ⟨k % w, k / w⟩⟩ : GridIterator) ≠ GridIterator.end_ w h := by
      rw [end_eq]; intro hc
      simp only [GridIterator.mk.injEq, Vertex.mk.injEq, true_and] at hc
      omega
    have hlen : w * h - k = (w * h - (k + 1)) + 1 := by omega
    rw [GridIterator.collect, if_neg hne, hlen, List.range'_succ, List.map_cons]
    have hx1 : (k % w + 1) % 256 = k % w + 1 := Nat.mod_eq_of_lt (by omega)
    have hsd : (k + 1) / w ≤ h := by
      rw [← e1]
      have : (k % w + 1) / w ≤ 1 := by
        rw [Nat.div_le_iff_le_mul_add_pred hw0]; omega
      omega
    have hnext : GridIterator.next ⟨w, h, ⟨k % w, k / w⟩⟩ =
        .ok (if (k + 1) / w ≥ h then GridIterator.end_ w h
          else ⟨w, h, ⟨(k + 1) % w, (k + 1) / w⟩⟩) := by
      simp only [GridIterator.next, hx1, e1, e2]
      rw [if_neg (by omega), Nat.mod_eq_of_lt (a := (k + 1) / w) (by omega)]
      split_ifs <;> rfl
    rw [hnext]
    simp only [bind, Except.bind]
    by_cases hlast : (k + 1) / w ≥ h
    · have : w * h ≤ k + 1 := by
        have := (Nat.le_div_iff_mul_le hw0).1 hlast
        rw [Nat.mul_comm]; exact this
      have hz : w * h - (k + 1) = 0 := by omega
      rw [if_pos hlast, collect_end, hz]
      rfl
    · have hk1 : k + 1 < w * h := by
        have := (Nat.div_lt_iff_lt_mul hw0).1 (Nat.lt_of_not_ge hlast)
        rw [Nat.mul_comm]; exact this
      rw [if_neg hlast, ih (k + 1) hk1 (by omega)]
      rfl

theorem gridVertices_eq (w h : Nat) (hw1 : 1 ≤ w) (hw : w ≤ 80) (hh1 : 1 ≤ h) (hh : h ≤ 80) :
    gridVertices w h = .ok (rowMajor w h) := by
  have hpos : 0 < w * h := Nat.mul_pos hw1 hh1
  have hle : w * h ≤ 80 * 80 := Nat.mul_le_mul hw hh
  have := collect_rowMajor w h hw hh (255 * 255) 0 hpos (by omega)
  simp only [Nat.zero_mod, Nat.zero_div, Nat.sub_zero] at this
  rw [gridVertices, rowMajor, List.range_eq_range', ← this]
  rfl

theorem rowMajor_mem (w h : Nat) (v : Vertex) : v ∈ rowMajor w h ↔ v.inExtent w h := by
  obtain ⟨x, y⟩ := v
  simp only [rowMajor, List.mem_map, List.mem_range, Vertex.mk.injEq, Vertex.inExtent]
  constructor
  · rintro ⟨i, hi, rfl, rfl⟩
    have hw0 : 0 < w := by
      rcases Nat.eq_zero_or_pos w with h0 | h0
      · subst h0; simp at hi
      · exact h0
    refine ⟨Nat.mod_lt i hw0, ?_⟩
    rw [Nat.div_lt_iff_lt_mul hw0, Nat.mul_comm]; exact hi
  · rintro ⟨hx, hy⟩
    refine ⟨x + w * y, ?_, ?_, ?_⟩
    · calc x + w * y < w + w * y := by omega
        _ = w * (y + 1) := by ring
        _ ≤ w * h := Nat.mul_le_mul_left w hy
    · rw [Nat.add_mul_mod_self_left]; exact Nat.mod_eq_of_lt hx
    · rw [Nat.add_mul_div_left _ _ (by omega : 0 < w), Nat.div_eq_of_lt hx]; omega

theorem rowMajor_pairwise (w h : Nat) : (rowMajor w h).Pairwise Vertex.rowMajorLt := by
  rw [rowMajor, List.pairwise_map]
  refine List.Pairwise.imp ?_ (List.pairwise_lt_range (w * h))
  intro i j hij
  simp only [Vertex.rowMajorLt]
  have hi := Nat.div_add_mod i w
  have hj := Nat.div_add_mod j w
  rcases Nat.lt_or_ge (i / w) (j / w) with hlt | hge
  · left; exact hlt
  · right
    have hle : i / w ≤ j / w := Nat.div_le_div_right (Nat.le_of_lt hij)
    have heq : i / w = j / w := Nat.le_antisymm hle hge
    refine ⟨heq, ?_⟩
    rw [heq] at hi
    omega

theorem pack_lt_of_inExtent (v : Vertex) (w h : Nat) (hw : w ≤ 80) (hh : h ≤ 80)
    (hv : v.inExtent w h) : v.pack < kGridSize := by
  obtain ⟨hx, hy⟩ := hv
  simp only [Vertex.pack, kGridSize, kMaxCoordinate]
  rw [Nat.mod_eq_of_lt (by omega)]
  omega

theorem pack_inj_of_lt (u v : Vertex) (hu : u.x < 80) (hv : v.x < 80) (huy : u.y < 256)
    (hvy : v.y < 256) (h : u.pack = v.pack) : u = v := by
  obtain ⟨a, b⟩ := u
  obtain ⟨c, d⟩ := v
  simp only at hu hv huy hvy
  simp only [Vertex.pack, kMaxCoordinate] at h
  rw [Nat.mod_eq_of_lt (by omega), Nat.mod_eq_of_lt (by omega)] at h
  simp only [Vertex.mk.injEq]
  omega

theorem at_eq_ok {T : Type} (g : Grid T) (v : Vertex) (hv : v.pack < kGridSize) :
    g.at v = .ok (g.grid v.pack) := by
  simp [Grid.at, Grid.get, hv]

theorem at_eq_ok_iff {T : Type} (g : Grid T) (v : Vertex) (c : T) :
    g.at v = .ok c ↔ v.pack < kGridSize ∧ g.grid v.pack = c := by
  simp only [Grid.at, Grid.get]
  split_ifs with h <;> simp [h]

/-! ## Fixes and their number -/

theorem fixesLoop_eq (s : State) (original : Maze) (vs : List Vertex)
    (hvs : ∀ v ∈ vs, v.pack < kGridSize) :
    s.fixesLoop original vs =
      .ok ((vs.filter (fun v => s.maze_.grid v.pack ≠ original.grid v.pack)).map
        (fun v => (v, s.maze_.grid v.pack))) := by
  induction vs with
  | nil => rfl
  | cons v rest ih =>
    have hv := hvs v (List.mem_cons_self _ _)
    have hrest := ih (fun u hu => hvs u (List.mem_cons_of_mem _ hu))
    rw [State.fixesLoop, at_eq_ok _ _ hv, at_eq_ok _ _ hv, hrest]
    simp only [bind, Except.bind, List.filter_cons]
    by_cases hc : s.maze_.grid v.pack = original.grid v.pack
    · simp [hc, pure, Except.pure]
    · simp [hc, pure, Except.pure]

theorem countLoop_eq (s : State) (original : Maze) (vs : List Vertex) :
    ∀ count, count + vs.length < 65536 →
      s.countLoop original vs count =
        (s.fixesLoop original vs).map (fun fs => count + fs.length) := by
  induction vs with
  | nil => intro count _; rfl
  | cons v rest ih =>
    intro count hlen
    simp only [List.length_cons] at hlen
    rw [State.countLoop, State.fixesLoop]
    cases h1 : s.maze_.at v with
    | error e => rfl
    | ok c =>
      cases h2 : original.at v with
      | error e => rfl
      | ok c0 =>
        simp only [bind, Except.bind]
        by_cases hc : c = c0
        · simp only [hc, ne_eq, not_true_eq_false, if_false]
          rw [ih count (by omega)]
          cases s.fixesLoop original rest <;> rfl
        · simp only [hc, ne_eq, not_false_eq_true, if_true]
          rw [Nat.mod_eq_of_lt (by omega), ih (count + 1) (by omega)]
          cases s.fixesLoop original rest with
          | error e => rfl
          | ok fs =>
            simp only [Except.map, pure, Except.pure, List.length_cons]
            congr 1; omega

theorem collect_length (n : Nat) : ∀ it l, GridIterator.collect n it = .ok l → l.length ≤ n := by
  induction n with
  | zero =>
    intro it l h
    simp only [GridIterator.collect] at h
    split_ifs at h
    cases h; simp
  | succ n ih =>
    intro it l h
    simp only [GridIterator.collect] at h
    split_ifs at h
    · cases h; simp
    · rw [bind_eq_ok] at h
      obtain ⟨it1, _, h⟩ := h
      rw [bind_eq_ok] at h
      obtain ⟨rest, hrest, h⟩ := h
      rw [pure_eq_ok] at h
      subst h
      have := ih it1 rest hrest
      simp only [List.length_cons]; omega

theorem vertices_length {T : Type} (g : Grid T) (vs : List Vertex) (h : g.vertices = .ok vs) :
    vs.length < 65536 := by
  have := collect_length _ _ _ h
  omega

theorem count_eq_of_fixes (s : State) (original : Maze) (fs : List (Vertex × Cell))
    (h : s.fixes original = .ok fs) : s.countNumberOfFixing original = .ok fs.length := by
  simp only [State.fixes, bind_eq_ok] at h
  obtain ⟨vs, hvs, hfs⟩ := h
  have hlen := vertices_length original vs hvs
  simp only [State.countNumberOfFixing, hvs, bind, Except.bind]
  rw [countLoop_eq s original vs 0 (by omega), hfs]
  simp [Except.map]

theorem fixes_of_count (s : State) (original : Maze) (n : Nat)
    (h : s.countNumberOfFixing original = .ok n) :
    ∃ fs, s.fixes original = .ok fs ∧ fs.length = n := by
  simp only [State.countNumberOfFixing, bind_eq_ok] at h
  obtain ⟨vs, hvs, hn⟩ := h
  have hlen := vertices_length original vs hvs
  rw [countLoop_eq s original vs 0 (by omega)] at hn
  simp only [State.fixes, hvs, bind, Except.bind]
  cases hf : s.fixesLoop original vs with
  | error e => rw [hf] at hn; simp [Except.map] at hn
  | ok fs =>
    rw [hf] at hn
    simp only [Except.map, Except.ok.injEq, Nat.zero_add] at hn
    exact ⟨fs, rfl, hn⟩

theorem fixes_of_extent (s : State) (original : Maze)
    (hw1 : 1 ≤ original.width) (hw : original.width ≤ 80)
    (hh1 : 1 ≤ original.height) (hh : original.height ≤ 80) :
    ∃ fs, s.fixes original = .ok fs ∧
      fs = ((rowMajor original.width original.height).filter
        (fun v => s.maze_.grid v.pack ≠ original.grid v.pack)).map
        (fun v => (v, s.maze_.grid v.pack)) := by
  have hvs : original.vertices = .ok (rowMajor original.width original.height) :=
    gridVertices_eq _ _ hw1 hw hh1 hh
  have hpack : ∀ v ∈ rowMajor original.width original.height, v.pack < kGridSize :=
    fun v hv => pack_lt_of_inExtent v _ _ hw hh ((rowMajor_mem _ _ v).1 hv)
  refine ⟨_, ?_, rfl⟩
  simp only [State.fixes, hvs, bind, Except.bind]
  exact fixesLoop_eq s original _ hpack

/-- Claim C3: for a reference maze of dimensions `1 ≤ W, H ≤ 80`, `State::fixes` returns the
pairs `(v, s.maze(v))` of exactly the vertices `v` of the `W` by `H` extent whose rule differs
from the reference, in strict row-major order (so each vertex at most once), and
`State::countNumberOfFixing` returns the length of that list. -/
theorem C3_fixes_lists_differences_row_major (s : State) (original : Maze)
    (hw1 : 1 ≤ original.width) (hw : original.width ≤ 80)
    (hh1 : 1 ≤ original.height) (hh : original.height ≤ 80) :
    ∃ fs, s.fixes original = .ok fs ∧
      (fs.map Prod.fst).Pairwise Vertex.rowMajorLt ∧
      (∀ v c, (v, c) ∈ fs ↔
        v.inExtent original.width original.height ∧ s.maze_.at v = .ok c ∧
          original.at v ≠ .ok c) ∧
      s.countNumberOfFixing original = .ok fs.length := by
  have hvs : original.vertices = .ok (rowMajor original.width original.height) :=
    gridVertices_eq _ _ hw1 hw hh1 hh
  have hpack : ∀ v ∈ rowMajor original.width original.height, v.pack < kGridSize :=
    fun v hv => pack_lt_of_inExtent v _ _ hw hh ((rowMajor_mem _ _ v).1 hv)
  have hfix : s.fixes original = .ok
      (((rowMajor original.width original.height).filter
        (fun v => s.maze_.grid v.pack ≠ original.grid v.pack)).map
        (fun v => (v, s.maze_.grid v.pack))) := by
    simp only [State.fixes, hvs, bind, Except.bind]
    exact fixesLoop_eq s original _ hpack
  refine ⟨_, hfix, ?_, ?_, count_eq_of_fixes s original _ hfix⟩
  · rw [List.map_map]
    have : (Prod.fst ∘ fun v => (v, s.maze_.grid v.pack)) = (id : Vertex → Vertex) := rfl
    rw [this, List.map_id]
    exact List.Pairwise.sublist (List.filter_sublist _) (rowMajor_pairwise _ _)
  · intro v c
    simp only [List.mem_map, List.mem_filter, rowMajor_mem, Prod.mk.injEq, ne_eq,
      decide_eq_true_eq, decide_not, Bool.not_eq_true', decide_eq_false_iff_not]
    constructor
    · rintro ⟨u, ⟨hu, hne⟩, rfl, rfl⟩
      have hp := pack_lt_of_inExtent u _ _ hw hh hu
      refine ⟨hu, at_eq_ok _ _ hp, ?_⟩
      rw [at_eq_ok _ _ hp]
      intro hc
      exact hne (Except.ok.inj hc).symm
    · rintro ⟨hv, hc, hne⟩
      have hp := pack_lt_of_inExtent v _ _ hw hh hv
      rw [at_eq_ok _ _ hp] at hc hne
      have hc1 := Except.ok.inj hc
      refine ⟨v, ⟨hv, ?_⟩, rfl, hc1⟩
      intro heq
      apply hne
      rw [← heq, hc1]

theorem C3_fixes_lists_differences_row_major_witness :
    ∃ fs, (State.mk sampleColumnFixed).fixes sampleColumn = .ok fs ∧
      (fs.map Prod.fst).Pairwise Vertex.rowMajorLt ∧
      (∀ v c, (v, c) ∈ fs ↔
        v.inExtent sampleColumn.width sampleColumn.height ∧
          (State.mk sampleColumnFixed).maze_.at v = .ok c ∧ sampleColumn.at v ≠ .ok c) ∧
      (State.mk sampleColumnFixed).countNumberOfFixing sampleColumn = .ok fs.length :=
  C3_fixes_lists_differences_row_major ⟨sampleColumnFixed⟩ sampleColumn
    (by decide) (by decide) (by decide) (by decide)

/-! ## Traces and searches -/

theorem u8_lt (i : Int) : u8 i < 256 := by
  unfold u8; omega

theorem make_valid (x y : Int) : (Vertex.make x y).valid :=
  ⟨u8_lt x, u8_lt y⟩

theorem move_valid (v : Vertex) (d : Direction) : (v.move d).valid := by
  cases d <;> exact make_valid _ _

theorem adjacents_valid (v u : Vertex) (w h : Nat) (hu : u ∈ v.adjacents w h) : u.valid := by
  simp only [Vertex.adjacents, List.mem_append] at hu
  rcases hu with ((hu | hu) | hu) | hu <;> split_ifs at hu <;>
    simp only [List.mem_singleton, List.not_mem_nil] at hu <;> subst hu <;> exact make_valid _ _

theorem forward_valid (m : Maze) (v0 v1 v2 : Vertex) (h : m.forward v0 v1 = .ok v2) :
    v2.valid := by
  simp only [Maze.forward, bind_eq_ok] at h
  obtain ⟨c, _, h⟩ := h
  split_ifs at h
  rw [bind_eq_ok] at h
  obtain ⟨d, _, h⟩ := h
  rw [pure_eq_ok] at h
  subst h
  exact move_valid _ _

theorem backward_valid (m : Maze) (v0 v1 v2 : Vertex) (h : m.backward v0 v1 = .ok v2) :
    v2.valid := by
  simp only [Maze.backward, bind_eq_ok] at h
  obtain ⟨c, _, h⟩ := h
  split_ifs at h
  rw [bind_eq_ok] at h
  obtain ⟨d, _, h⟩ := h
  rw [pure_eq_ok] at h
  subst h
  exact move_valid _ _

theorem trace_spec (m : Maze) (next : Maze → Vertex → Vertex → Except Err Vertex)
    (complete : Bool)
    (hnext : ∀ a b c, next m a b = .ok c → c.valid) :
    ∀ n v0 v1 visited sub p, (∀ v, v ∈ visited ↔ v ∈ sub) → sub.Nodup →
      Maze.trace m next complete n v0 v1 visited sub = .ok (some p) →
      ∃ ext, p = sub ++ ext ∧ p.Nodup ∧ (∀ v ∈ ext, v.valid) ∧
        (∀ v ∈ ext.dropLast, m.fixedAt v) ∧
        (complete = true → ∃ e, ext.getLast? = some e ∧ m.unresolvedAt e) ∧
        (complete = false → ∀ v ∈ ext, m.fixedAt v) := by
  intro n
  induction n with
  | zero => intro v0 v1 visited sub p _ _ h; simp [Maze.trace] at h
  | succ n ih =>
    intro v0 v1 visited sub p hvis hnd h
    rw [Maze.trace, bind_eq_ok] at h
    obtain ⟨v2, hv2, h⟩ := h
    have hval := hnext _ _ _ hv2
    by_cases hmem : v2 ∈ visited
    · rw [if_pos hmem, pure_eq_ok] at h
      cases complete with
      | true => simp at h
      | false =>
        simp only [Bool.not_false, if_true, Option.some.injEq] at h
        subst h
        exact ⟨[], by simp, hnd, by simp, by simp, by simp, by simp⟩
    · rw [if_neg hmem, bind_eq_ok] at h
      obtain ⟨c, hc, h⟩ := h
      have hnot : v2 ∉ sub := fun hh => hmem ((hvis v2).2 hh)
      have hnd2 : (sub ++ [v2]).Nodup := by
        rw [List.nodup_append]
        refine ⟨hnd, List.nodup_singleton _, ?_⟩
        intro a ha hb
        rw [List.mem_singleton] at hb
        subst hb
        exact hnot ha
      by_cases hun : c = Cell.every ∨ c = Cell.outside
      · rw [if_pos hun, pure_eq_ok] at h
        cases complete with
        | false => simp at h
        | true =>
          simp only [if_true, Option.some.injEq] at h
          subst h
          refine ⟨[v2], rfl, hnd2, ?_, by simp, ?_, by simp⟩
          · intro v hv; rw [List.mem_singleton] at hv; subst hv; exact hval
          · intro _; exact ⟨v2, rfl, c, hc, hun⟩
      · rw [if_neg hun] at h
        have hvis2 : ∀ v, v ∈ v2 :: visited ↔ v ∈ sub ++ [v2] := by
          intro v
          simp only [List.mem_cons, List.mem_append, List.mem_singleton, List.not_mem_nil,
            or_false, hvis v]
          exact Or.comm
        obtain ⟨ext, hp, hpn, hv, hfix, hcomp, hinc⟩ := ih v1 v2 (v2 :: visited) (sub ++ [v2]) p
          hvis2 hnd2 h
        have hfx : m.fixedAt v2 := by
          refine ⟨c, hc, ?_, ?_⟩
          · intro hh; exact hun (Or.inl hh)
          · intro hh; exact hun (Or.inr hh)
        refine ⟨v2 :: ext, by rw [hp]; simp, hpn, ?_, ?_, ?_, ?_⟩
        · intro v hvm
          rcases List.mem_cons.1 hvm with hh | hh
          · subst hh; exact hval
          · exact hv v hh
        · intro v hvm
          cases ext with
          | nil => simp at hvm
          | cons a ext =>
            rw [List.dropLast_cons₂] at hvm
            rcases List.mem_cons.1 hvm with hh | hh
            · subst hh; exact hfx
            · exact hfix v hh
        · intro hct
          obtain ⟨e, he, hue⟩ := hcomp hct
          refine ⟨e, ?_, hue⟩
          cases ext with
          | nil => simp at he
          | cons a ext => rw [List.getLast?_cons_cons]; exact he
        · intro hcf v hvm
          rcases List.mem_cons.1 hvm with hh | hh
          · subst hh; exact hfx
          · exact hinc hcf v hh

theorem searchAdjacents_spec (m : Maze) (next : Maze → Vertex → Vertex → Except Err Vertex)
    (complete : Bool) (hnext : ∀ a b c, next m a b = .ok c → c.valid) (fuel : Nat)
    (end_ : Vertex) (hend : m.unresolvedAt end_) :
    ∀ adj paths, Maze.searchAdjacents m next complete fuel end_ adj = .ok paths →
      ∀ p ∈ paths, m.searchShape complete end_ adj p := by
  intro adj
  induction adj with
  | nil =>
    intro paths h p hp
    simp only [Maze.searchAdjacents, Except.ok.injEq] at h
    subst h
    simp at hp
  | cons v1 rest ih =>
    intro paths h p hp
    have hweak : ∀ q, m.searchShape complete end_ rest q →
        m.searchShape complete end_ (v1 :: rest) q := by
      rintro q ⟨a, ext, h1, h2, h3⟩
      exact ⟨a, ext, h1, List.mem_cons_of_mem _ h2, h3⟩
    rw [Maze.searchAdjacents, bind_eq_ok] at h
    obtain ⟨c, hc, h⟩ := h
    by_cases hun : c = Cell.every ∨ c = Cell.outside
    · rw [if_pos hun] at h
      exact hweak p (ih paths h p hp)
    · rw [if_neg hun, bind_eq_ok] at h
      obtain ⟨r, hr, h⟩ := h
      rw [bind_eq_ok] at h
      obtain ⟨more, hmore, h⟩ := h
      rw [pure_eq_ok] at h
      subst h
      rcases List.mem_append.1 hp with hp1 | hp1
      · cases r with
        | none => simp at hp1
        | some q =>
          simp only [Option.toList, List.mem_singleton] at hp1
          subst hp1
          have hne : end_ ≠ v1 := by
            intro heq
            obtain ⟨c0, hc0, hun0⟩ := hend
            rw [heq, hc] at hc0
            cases hc0
            exact hun hun0
          have hnd : [end_, v1].Nodup := by simp [hne]
          obtain ⟨ext, hq, hqn, hv, hfix, hcomp, hinc⟩ :=
            trace_spec m next complete hnext fuel end_ v1 [end_, v1] [end_, v1] p
              (fun _ => Iff.rfl) hnd hr
          refine ⟨v1, ext, by rw [hq]; rfl, List.mem_cons_self _ _, hend, ?_, hqn, hv, hfix,
            hcomp, hinc⟩
          refine ⟨c, hc, ?_, ?_⟩
          · intro hh; exact hun (Or.inl hh)
          · intro hh; exact hun (Or.inr hh)
      · exact hweak p (ih more hmore p hp1)

theorem searchVertices_spec (m : Maze) (next : Maze → Vertex → Vertex → Except Err Vertex)
    (complete : Bool) (hnext : ∀ a b c, next m a b = .ok c → c.valid) (fuel : Nat) :
    ∀ vs paths, Maze.searchVertices m next complete fuel vs = .ok paths →
      ∀ p ∈ paths, ∃ end_ ∈ vs,
        m.searchShape complete end_ (end_.adjacents m.width m.height) p := by
  intro vs
  induction vs with
  | nil =>
    intro paths h p hp
    simp only [Maze.searchVertices, Except.ok.injEq] at h
    subst h
    simp at hp
  | cons e rest ih =>
    intro paths h p hp
    rw [Maze.searchVertices, bind_eq_ok] at h
    obtain ⟨c, hc, h⟩ := h
    by_cases hfx : c ≠ Cell.every ∧ c ≠ Cell.outside
    · rw [if_pos hfx] at h
      obtain ⟨e1, he1, hs⟩ := ih paths h p hp
      exact ⟨e1, List.mem_cons_of_mem _ he1, hs⟩
    · rw [if_neg hfx, bind_eq_ok] at h
      obtain ⟨here, hhere, h⟩ := h
      rw [bind_eq_ok] at h
      obtain ⟨more, hmore, h⟩ := h
      rw [pure_eq_ok] at h
      subst h
      rcases List.mem_append.1 hp with hp1 | hp1
      · have hend : m.unresolvedAt e := by
          refine ⟨c, hc, ?_⟩
          by_cases h1 : c = Cell.every
          · exact Or.inl h1
          · by_cases h2 : c = Cell.outside
            · exact Or.inr h2
            · exact absurd ⟨h1, h2⟩ hfx
        exact ⟨e, List.mem_cons_self _ _,
          searchAdjacents_spec m next complete hnext fuel e hend _ here hhere p hp1⟩
      · obtain ⟨e1, he1, hs⟩ := ih more hmore p hp1
        exact ⟨e1, List.mem_cons_of_mem _ he1, hs⟩

theorem search_spec (m : Maze) (next : Maze → Vertex → Vertex → Except Err Vertex)
    (complete : Bool) (hnext : ∀ a b c, next m a b = .ok c → c.valid) (fuel : Nat)
    (paths : List Path) (h : m.search next complete fuel = .ok paths) :
    ∃ vs, m.vertices = .ok vs ∧ ∀ p ∈ paths, ∃ end_ ∈ vs,
      m.searchShape complete end_ (end_.adjacents m.width m.height) p := by
  rw [Maze.search, bind_eq_ok] at h
  obtain ⟨vs, hvs, h⟩ := h
  exact ⟨vs, hvs, searchVertices_spec m next complete hnext fuel vs paths h⟩

theorem searchComplete_spec (m : Maze) (fuel : Nat) (paths : List Path)
    (h : m.searchComplete fuel = .ok paths) :
    ∃ vs, m.vertices = .ok vs ∧ ∀ p ∈ paths, ∃ end_ ∈ vs,
      m.searchShape true end_ (end_.adjacents m.width m.height) p :=
  search_spec m Maze.forward true (forward_valid m) fuel paths h

theorem sampleColumn_searchComplete :
    sampleColumn.searchComplete 10 =
      .ok [[⟨0, 0⟩, ⟨0, 1⟩, ⟨0, 2⟩], [⟨0, 2⟩, ⟨0, 1⟩, ⟨0, 0⟩]] := by
  decide

/-- Claim C6: every path reported by `searchComplete` has at least three elements, its first
and its last element are wildcard or absorbing cells, and every interior element carries one
of the fixed rules straight, right, turn, left. -/
theorem C6_complete_path_interior_fixed (m : Maze) (fuel : Nat) (paths : List Path)
    (h : m.searchComplete fuel = .ok paths) (p : Path) (hp : p ∈ paths) :
    3 ≤ p.length ∧ (∃ a, p.head? = some a ∧ m.unresolvedAt a) ∧
      (∃ b, p.getLast? = some b ∧ m.unresolvedAt b) ∧
      ∀ v ∈ p.tail.dropLast, m.fixedAt v := by
  obtain ⟨vs, _, hall⟩ := searchComplete_spec m fuel paths h
  obtain ⟨end_, _, v1, ext, hpe, _, hend, hv1, _, _, hfix, hcomp, _⟩ := hall p hp
  obtain ⟨e, he, hue⟩ := hcomp rfl
  subst hpe
  cases ext with
  | nil => simp at he
  | cons a ext =>
    refine ⟨by simp, ⟨end_, rfl, hend⟩, ⟨e, ?_, hue⟩, ?_⟩
    · rw [List.getLast?_cons_cons, List.getLast?_cons_cons]; exact he
    · intro v hv
      rw [List.tail_cons, List.dropLast_cons₂] at hv
      rcases List.mem_cons.1 hv with hh | hh
      · subst hh; exact hv1
      · exact hfix v hh

theorem C6_complete_path_interior_fixed_witness :
    3 ≤ ([⟨0, 0⟩, ⟨0, 1⟩, ⟨0, 2⟩] : Path).length ∧
      (∃ a, ([⟨0, 0⟩, ⟨0, 1⟩, ⟨0, 2⟩] : Path).head? = some a ∧ sampleColumn.unresolvedAt a) ∧
      (∃ b, ([⟨0, 0⟩, ⟨0, 1⟩, ⟨0, 2⟩] : Path).getLast? = some b ∧
        sampleColumn.unresolvedAt b) ∧
      ∀ v ∈ ([⟨0, 0⟩, ⟨0, 1⟩, ⟨0, 2⟩] : Path).tail.dropLast, sampleColumn.fixedAt v :=
  C6_complete_path_interior_fixed sampleColumn 10 _ sampleColumn_searchComplete
    [⟨0, 0⟩, ⟨0, 1⟩, ⟨0, 2⟩] (by decide)

/-- Claim C7, refuted as stated: in the maze `sampleColumn` the search reports the path
`(0,0), (0,1), (0,2)`, whose last element is not its first element. -/
theorem C7_complete_path_not_closed_counterexample :
    ∃ paths p, sampleColumn.searchComplete 10 = .ok paths ∧ p ∈ paths ∧
      p.getLast? ≠ p.head? :=
  ⟨_, [⟨0, 0⟩, ⟨0, 1⟩, ⟨0, 2⟩], sampleColumn_searchComplete, by decide, by decide⟩

/-- Claim C7, amended: every path reported by `searchComplete` starts at an unresolved (wildcard
or absorbing) vertex and ends at an unresolved vertex, no vertex occurs twice on it, and its
last element is therefore different from its first element: the path runs between two distinct
boundary vertices. -/
theorem C7_complete_path_ends_distinct (m : Maze) (fuel : Nat) (paths : List Path)
    (h : m.searchComplete fuel = .ok paths) (p : Path) (hp : p ∈ paths) :
    p.Nodup ∧ ∃ a b, p.head? = some a ∧ p.getLast? = some b ∧ a ≠ b ∧
      m.unresolvedAt a ∧ m.unresolvedAt b := by
  obtain ⟨vs, _, hall⟩ := searchComplete_spec m fuel paths h
  obtain ⟨end_, _, v1, ext, hpe, _, hend, _, hnd, _, _, hcomp, _⟩ := hall p hp
  obtain ⟨e, he, hue⟩ := hcomp rfl
  refine ⟨hnd, end_, e, ?_, ?_, ?_, hend, hue⟩
  · rw [hpe]; rfl
  · rw [hpe]
    cases ext with
    | nil => simp at he
    | cons a ext => rw [List.getLast?_cons_cons, List.getLast?_cons_cons]; exact he
  · intro heq
    subst hpe
    have hmem : e ∈ ext := List.mem_of_getLast?_eq_some he
    rw [List.nodup_cons] at hnd
    apply hnd.1
    rw [heq]
    exact List.mem_cons_of_mem _ hmem

theorem C7_complete_path_ends_distinct_witness :
    ([⟨0, 0⟩, ⟨0, 1⟩, ⟨0, 2⟩] : Path).Nodup ∧
      ∃ a b, ([⟨0, 0⟩, ⟨0, 1⟩, ⟨0, 2⟩] : Path).head? = some a ∧
        ([⟨0, 0⟩, ⟨0, 1⟩, ⟨0, 2⟩] : Path).getLast? = some b ∧ a ≠ b ∧
        sampleColumn.unresolvedAt a ∧ sampleColumn.unresolvedAt b :=
  C7_complete_path_ends_distinct sampleColumn 10 _ sampleColumn_searchComplete
    [⟨0, 0⟩, ⟨0, 1⟩, ⟨0, 2⟩] (by decide)

/-! ## Energy -/

theorem setAt_spec {T : Type} (g g1 : Grid T) (v : Vertex) (b : T)
    (h : g.setAt v b = .ok g1) :
    v.pack < kGridSize ∧ g1.width = g.width ∧ g1.height = g.height ∧
      ∀ i, g1.grid i = if i = v.pack then b else g.grid i := by
  simp only [Grid.setAt, Grid.set] at h
  split_ifs at h with hlt
  cases h
  exact ⟨hlt, rfl, rfl, fun _ => rfl⟩

theorem markContributing_spec (m : Maze) :
    ∀ p contr contr1, State.markContributing m p contr = .ok contr1 →
      contr1.width = contr.width ∧ contr1.height = contr.height ∧
      ∀ i, contr1.grid i = true ↔
        (contr.grid i = true ∨ ∃ u ∈ p, u.pack = i ∧ m.at u ≠ .ok Cell.outside) := by
  intro p
  induction p with
  | nil =>
    intro contr contr1 h
    simp only [State.markContributing, Except.ok.injEq] at h
    subst h
    simp
  | cons v rest ih =>
    intro contr contr1 h
    rw [State.markContributing, bind_eq_ok] at h
    obtain ⟨c, hc, h⟩ := h
    by_cases hout : c ≠ Cell.outside
    · rw [if_pos hout, bind_eq_ok] at h
      obtain ⟨contr2, h2, h⟩ := h
      obtain ⟨_, hw, hh, hg⟩ := setAt_spec _ _ _ _ h2
      obtain ⟨hw1, hh1, hg1⟩ := ih contr2 contr1 h
      refine ⟨hw1.trans hw, hh1.trans hh, ?_⟩
      intro i
      rw [hg1 i, hg i]
      constructor
      · rintro (h3 | ⟨u, hu, h3⟩)
        · by_cases hi : i = v.pack
          · right
            refine ⟨v, List.mem_cons_self _ _, hi.symm, ?_⟩
            rw [hc]; intro hh2; exact hout (Except.ok.inj hh2)
          · rw [if_neg hi] at h3; exact Or.inl h3
        · exact Or.inr ⟨u, List.mem_cons_of_mem _ hu, h3⟩
      · rintro (h3 | ⟨u, hu, h3, h4⟩)
        · left; split_ifs
          · rfl
          · exact h3
        · rcases List.mem_cons.1 hu with hh2 | hh2
          · subst hh2; left; rw [if_pos h3.symm]
          · exact Or.inr ⟨u, hh2, h3, h4⟩
    · rw [if_neg hout] at h
      obtain ⟨hw1, hh1, hg1⟩ := ih contr contr1 h
      refine ⟨hw1, hh1, ?_⟩
      intro i
      rw [hg1 i]
      constructor
      · rintro (h3 | ⟨u, hu, h3⟩)
        · exact Or.inl h3
        · exact Or.inr ⟨u, List.mem_cons_of_mem _ hu, h3⟩
      · rintro (h3 | ⟨u, hu, h3, h4⟩)
        · exact Or.inl h3
        · rcases List.mem_cons.1 hu with hh2 | hh2
          · subst hh2
            rw [hc] at h4
            exact absurd (by rw [not_not.1 hout]) h4
          · exact Or.inr ⟨u, hh2, h3, h4⟩

theorem markContributingAll_spec (m : Maze) :
    ∀ paths contr contr1, State.markContributingAll m paths contr = .ok contr1 →
      contr1.width = contr.width ∧ contr1.height = contr.height ∧
      ∀ i, contr1.grid i = true ↔ (contr.grid i = true ∨ m.coveredIndex paths i) := by
  intro paths
  induction paths with
  | nil =>
    intro contr contr1 h
    simp only [State.markContributingAll, Except.ok.injEq] at h
    subst h
    simp [Maze.coveredIndex]
  | cons p rest ih =>
    intro contr contr1 h
    rw [State.markContributingAll, bind_eq_ok] at h
    obtain ⟨contr2, h2, h⟩ := h
    obtain ⟨hw, hh, hg⟩ := markContributing_spec m p contr contr2 h2
    obtain ⟨hw1, hh1, hg1⟩ := ih contr2 contr1 h
    refine ⟨hw1.trans hw, hh1.trans hh, ?_⟩
    intro i
    rw [hg1 i, hg i]
    simp only [Maze.coveredIndex, List.mem_cons, exists_eq_or_imp, or_assoc]

theorem sumEnergy_spec (contr : Grid Bool) :
    ∀ vs e0 e, State.sumEnergy contr vs e0 = .ok e →
      e = e0 - ((vs.filter (fun v => contr.grid v.pack)).length : Int) := by
  intro vs
  induction vs with
  | nil =>
    intro e0 e h
    simp only [State.sumEnergy, Except.ok.injEq] at h
    subst h
    simp
  | cons v rest ih =>
    intro e0 e h
    rw [State.sumEnergy, bind_eq_ok] at h
    obtain ⟨b, hb, h⟩ := h
    obtain ⟨_, hb1⟩ := (at_eq_ok_iff _ _ _).1 hb
    cases b with
    | true =>
      simp only [if_true] at h
      rw [ih _ _ h, List.filter_cons, hb1]
      simp only [if_true, List.length_cons]
      push_cast
      ring
    | false =>
      simp only [Bool.false_eq_true, if_false] at h
      rw [ih _ _ h, List.filter_cons, hb1]
      simp

theorem sumEnergy_ok (contr : Grid Bool) :
    ∀ vs e0, (∀ v ∈ vs, v.pack < kGridSize) →
      State.sumEnergy contr vs e0 =
        .ok (e0 - ((vs.filter (fun v => contr.grid v.pack)).length : Int)) := by
  intro vs
  induction vs with
  | nil => intro e0 _; simp [State.sumEnergy]
  | cons v rest ih =>
    intro e0 hvs
    have hv := hvs v (List.mem_cons_self _ _)
    have hrest : ∀ u ∈ rest, u.pack < kGridSize := fun u hu => hvs u (List.mem_cons_of_mem _ hu)
    rw [State.sumEnergy, at_eq_ok _ _ hv]
    simp only [bind, Except.bind, List.filter_cons]
    cases hb : contr.grid v.pack with
    | true =>
      simp only [if_true, List.length_cons]
      rw [ih _ hrest]
      congr 1
      push_cast
      ring
    | false =>
      simp only [Bool.false_eq_true, if_false]
      exact ih _ hrest

theorem calculateEnergy_spec (s : State) (fuel : Nat) (e : Int)
    (h : s.calculateEnergy fuel = .ok e) :
    ∃ paths vs, s.maze_.searchComplete fuel = .ok paths ∧ s.maze_.vertices = .ok vs ∧
      e = -((vs.filter (fun v => decide (s.maze_.coveredIndex paths v.pack))).length : Int) := by
  simp only [State.calculateEnergy, bind_eq_ok] at h
  obtain ⟨paths, hpaths, contr1, hc1, vs, hvs, h⟩ := h
  obtain ⟨hw, hh, hg⟩ := markContributingAll_spec _ _ _ _ hc1
  refine ⟨paths, vs, hpaths, ?_, ?_⟩
  · rw [← hvs]
    simp only [Grid.vertices, hw, hh, Grid.fill]
  · rw [sumEnergy_spec _ _ _ _ h, Int.zero_sub]
    congr 3
    congr 1
    funext v
    have := hg v.pack
    simp only [Grid.fill, Bool.false_eq_true, false_or] at this
    cases hb : contr1.grid v.pack with
    | true => exact (decide_eq_true (this.1 hb)).symm
    | false =>
      symm
      apply decide_eq_false
      intro hcov
      rw [this.2 hcov] at hb
      cases hb

theorem searchAdjacents_unresolved (m : Maze)
    (next : Maze → Vertex → Vertex → Except Err Vertex) (complete : Bool) (fuel : Nat)
    (end_ : Vertex) :
    ∀ adj, (∀ u ∈ adj, m.unresolvedAt u) →
      Maze.searchAdjacents m next complete fuel end_ adj = .ok [] := by
  intro adj
  induction adj with
  | nil => intro _; rfl
  | cons v1 rest ih =>
    intro hall
    obtain ⟨c, hc, hun⟩ := hall v1 (List.mem_cons_self _ _)
    rw [Maze.searchAdjacents, hc]
    simp only [bind, Except.bind]
    rw [if_pos hun]
    exact ih (fun u hu => hall u (List.mem_cons_of_mem _ hu))

theorem searchVertices_unresolved (m : Maze)
    (next : Maze → Vertex → Vertex → Except Err Vertex) (complete : Bool) (fuel : Nat) :
    ∀ vs, (∀ v ∈ vs, m.unresolvedAt v ∧ ∀ u ∈ v.adjacents m.width m.height, m.unresolvedAt u) →
      Maze.searchVertices m next complete fuel vs = .ok [] := by
  intro vs
  induction vs with
  | nil => intro _; rfl
  | cons e rest ih =>
    intro hall
    obtain ⟨⟨c, hc, hun⟩, hadj⟩ := hall e (List.mem_cons_self _ _)
    have hnot : ¬(c ≠ Cell.every ∧ c ≠ Cell.outside) := by
      rintro ⟨h1, h2⟩
      rcases hun with h | h
      · exact h1 h
      · exact h2 h
    rw [Maze.searchVertices, hc]
    simp only [bind, Except.bind]
    rw [if_neg hnot, searchAdjacents_unresolved m next complete fuel e _ hadj,
      ih (fun u hu => hall u (List.mem_cons_of_mem _ hu))]
    rfl

theorem search_unresolved (m : Maze) (next : Maze → Vertex → Vertex → Except Err Vertex)
    (complete : Bool) (fuel : Nat) (hw1 : 1 ≤ m.width) (hw : m.width ≤ 80)
    (hh1 : 1 ≤ m.height) (hh : m.height ≤ 80)
    (hall : ∀ v, v.inExtent m.width m.height → m.unresolvedAt v) :
    m.search next complete fuel = .ok [] := by
  have hvs : m.vertices = .ok (rowMajor m.width m.height) := gridVertices_eq _ _ hw1 hw hh1 hh
  rw [Maze.search, hvs]
  simp only [bind, Except.bind]
  apply searchVertices_unresolved
  intro v hv
  have hin := (rowMajor_mem _ _ v).1 hv
  refine ⟨hall v hin, ?_⟩
  intro u hu
  exact hall u ((mem_adjacents_iff v u _ _ (by omega) (by omega) hin).1 hu).1

theorem searchShape_valid (m : Maze) (complete : Bool) (end_ : Vertex) (p : Path)
    (hend : end_.valid)
    (hs : m.searchShape complete end_ (end_.adjacents m.width m.height) p) :
    ∀ u ∈ p, u.valid := by
  obtain ⟨v1, ext, hp, hv1, _, _, _, hv, _⟩ := hs
  subst hp
  intro u hu
  rcases List.mem_cons.1 hu with h | h
  · subst h; exact hend
  · rcases List.mem_cons.1 h with h | h
    · subst h; exact adjacents_valid _ _ _ _ hv1
    · exact hv u h

theorem covered_iff_onPath (m : Maze) (paths : List Path) (v : Vertex)
    (hpaths : ∀ p ∈ paths, ∀ u ∈ p, u.x < 80 ∧ u.valid) (hx : v.x < 80) (hv : v.valid) :
    m.coveredIndex paths v.pack ↔ m.onPathNotOutside paths v := by
  constructor
  · rintro ⟨p, hp, u, hu, hpk, hne⟩
    obtain ⟨hux, huv⟩ := hpaths p hp u hu
    have : u = v := pack_inj_of_lt u v hux hx huv.2 hv.2 hpk
    subst this
    exact ⟨⟨p, hp, hu⟩, hne⟩
  · rintro ⟨⟨p, hp, hu⟩, hne⟩
    exact ⟨p, hp, v, hu, rfl, hne⟩

set_option maxRecDepth 100000 in
theorem sampleAlias_searchComplete :
    sampleAlias.searchComplete 10 = .ok [[⟨78, 0⟩, ⟨79, 0⟩, ⟨80, 0⟩, ⟨80, 1⟩]] := by
  decide!

set_option maxRecDepth 100000 in
theorem sampleAlias_energy : (State.mk sampleAlias).calculateEnergy 10 = .ok (-2) := by
  decide!

set_option maxRecDepth 100000 in
/-- Claim C8, refuted as stated: in the maze `sampleAlias` (width 80, height 2) the only path
of `searchComplete` is `(78,0), (79,0), (80,0), (80,1)`, so exactly one vertex of the extent
lies on a path and is not `outside`, namely `(79,0)`; but `calculateEnergy` returns `-2`,
because marking the vertex `(80,0)` marks the packed index of the vertex `(0,1)`. -/
theorem C8_energy_counts_aliased_cell_counterexample :
    sampleAlias.searchComplete 10 = .ok [[⟨78, 0⟩, ⟨79, 0⟩, ⟨80, 0⟩, ⟨80, 1⟩]] ∧
      (State.mk sampleAlias).calculateEnergy 10 = .ok (-2) ∧
      ((rowMajor 80 2).filter (fun v => decide
        (sampleAlias.onPathNotOutside [[⟨78, 0⟩, ⟨79, 0⟩, ⟨80, 0⟩, ⟨80, 1⟩]] v))).length = 1 :=
  ⟨sampleAlias_searchComplete, sampleAlias_energy, by decide!⟩

/-- Claim C8, amended: whenever `calculateEnergy` returns, its result is `≤ 0` and is minus
the number of vertices of the extent whose packed index is that of a vertex lying on a
`searchComplete` path with a cell other than `outside`; when the dimensions are within
`1..80` and no path reaches column 80 or beyond, that is minus the number of vertices of the
`W` by `H` extent that lie on some path and are not `outside`. For a maze of such dimensions
whose extent holds no fixed-rule cell, `calculateEnergy` returns `0`. -/
theorem C8_energy_nonpositive (s : State) (fuel : Nat) :
    (∀ e, s.calculateEnergy fuel = .ok e →
      e ≤ 0 ∧ ∃ paths vs, s.maze_.searchComplete fuel = .ok paths ∧
        s.maze_.vertices = .ok vs ∧
        e = -((vs.filter
          (fun v => decide (s.maze_.coveredIndex paths v.pack))).length : Int) ∧
        ((1 ≤ s.maze_.width ∧ s.maze_.width ≤ 80 ∧ 1 ≤ s.maze_.height ∧
            s.maze_.height ≤ 80) →
          (∀ p ∈ paths, ∀ u ∈ p, u.x < 80) →
          e = -(((rowMajor s.maze_.width s.maze_.height).filter
            (fun v => decide (s.maze_.onPathNotOutside paths v))).length : Int))) ∧
    ((1 ≤ s.maze_.width ∧ s.maze_.width ≤ 80 ∧ 1 ≤ s.maze_.height ∧ s.maze_.height ≤ 80) →
      (∀ v, v.inExtent s.maze_.width s.maze_.height → s.maze_.unresolvedAt v) →
      s.calculateEnergy fuel = .ok 0) := by
  constructor
  · intro e he
    obtain ⟨paths, vs, hpaths, hvs, hval⟩ := calculateEnergy_spec s fuel e he
    refine ⟨by rw [hval]; omega, paths, vs, hpaths, hvs, hval, ?_⟩
    rintro ⟨hw1, hw, hh1, hh⟩ hcol
    have hrm : s.maze_.vertices = .ok (rowMajor s.maze_.width s.maze_.height) :=
      gridVertices_eq _ _ hw1 hw hh1 hh
    rw [hvs] at hrm
    cases hrm
    rw [hval]
    congr 3
    apply List.filter_congr
    intro v hv
    have hin := (rowMajor_mem _ _ v).1 hv
    have hvalid : v.valid := ⟨by have := hin.1; omega, by have := hin.2; omega⟩
    obtain ⟨vs1, hvs1, hshape⟩ := searchComplete_spec s.maze_ fuel paths hpaths
    rw [hvs] at hvs1
    cases hvs1
    have hpv : ∀ p ∈ paths, ∀ u ∈ p, u.x < 80 ∧ u.valid := by
      intro p hp u hu
      obtain ⟨end_, hend, hs⟩ := hshape p hp
      have hein := (rowMajor_mem _ _ end_).1 hend
      have hev : end_.valid := ⟨by have := hein.1; omega, by have := hein.2; omega⟩
      exact ⟨hcol p hp u hu, searchShape_valid _ _ _ _ hev hs u hu⟩
    have := covered_iff_onPath s.maze_ paths v hpv (by have := hin.1; omega) hvalid
    exact decide_eq_decide.2 this
  · rintro ⟨hw1, hw, hh1, hh⟩ hall
    have hsearch : s.maze_.searchComplete fuel = .ok [] :=
      search_unresolved s.maze_ Maze.forward true fuel hw1 hw hh1 hh hall
    have hvs : gridVertices s.maze_.width s.maze_.height =
        .ok (rowMajor s.maze_.width s.maze_.height) := gridVertices_eq _ _ hw1 hw hh1 hh
    simp only [State.calculateEnergy, hsearch, bind, Except.bind, State.markContributingAll,
      Grid.vertices, Grid.fill, hvs]
    rw [sumEnergy_ok]
    · simp
    · intro v hv
      exact pack_lt_of_inExtent v _ _ hw hh ((rowMajor_mem _ _ v).1 hv)

theorem sampleColumn_energy : (State.mk sampleColumn).calculateEnergy 10 = .ok (-1) := by
  decide

theorem sampleUnresolved_extent (v : Vertex)
    (hv : v.inExtent sampleUnresolved.width sampleUnresolved.height) :
    sampleUnresolved.unresolvedAt v := by
  obtain ⟨x, y⟩ := v
  obtain ⟨hx, hy⟩ := hv
  have hx2 : x < 2 := hx
  have hy2 : y < 2 := hy
  interval_cases x <;> interval_cases y
  · exact ⟨Cell.every, by decide, by decide⟩
  · exact ⟨Cell.outside, by decide, by decide⟩
  · exact ⟨Cell.outside, by decide, by decide⟩
  · exact ⟨Cell.outside, by decide, by decide⟩

theorem C8_energy_nonpositive_witness :
    ((-1 : Int) ≤ 0 ∧ ∃ paths vs, sampleColumn.searchComplete 10 = .ok paths ∧
        sampleColumn.vertices = .ok vs ∧
        (-1 : Int) = -((vs.filter
          (fun v => decide (sampleColumn.coveredIndex paths v.pack))).length : Int) ∧
        ((1 ≤ sampleColumn.width ∧ sampleColumn.width ≤ 80 ∧ 1 ≤ sampleColumn.height ∧
            sampleColumn.height ≤ 80) →
          (∀ p ∈ paths, ∀ u ∈ p, u.x < 80) →
          (-1 : Int) = -(((rowMajor sampleColumn.width sampleColumn.height).filter
            (fun v => decide (sampleColumn.onPathNotOutside paths v))).length : Int))) ∧
      (State.mk sampleUnresolved).calculateEnergy 10 = .ok 0 :=
  ⟨(C8_energy_nonpositive ⟨sampleColumn⟩ 10).1 (-1) sampleColumn_energy,
    (C8_energy_nonpositive ⟨sampleUnresolved⟩ 10).2 (by decide) sampleUnresolved_extent⟩

/-! ## The main loop of `improve` -/

theorem improveLoop_add (maze : Maze) (max_fixing fuel : Nat) (j : Nat) :
    ∀ k s e r, improveLoop maze max_fixing fuel (k + j) s e r =
      (improveLoop maze max_fixing fuel k s e r >>= fun x =>
        improveLoop maze max_fixing fuel j x.1 x.2.1 x.2.2) := by
  intro k
  induction k with
  | zero =>
    intro s e r
    simp [improveLoop, bind, Except.bind]
  | succ k ih =>
    intro s e r
    rw [Nat.succ_add]
    simp only [improveLoop]
    cases s.propose maze fuel r with
    | error err => rfl
    | ok x =>
      obtain ⟨ns, r1⟩ := x
      simp only [bind, Except.bind]
      cases ns.calculateEnergy fuel with
      | error err => rfl
      | ok ne =>
        simp only
        by_cases hgt : ne > e
        · simp only [hgt, if_true]
          exact ih s e r1
        · simp only [hgt, if_false]
          cases ns.countNumberOfFixing maze with
          | error err => rfl
          | ok nf =>
            simp only
            by_cases hnf : nf > max_fixing
            · simp only [hnf, if_true]
              exact ih s e r1
            · simp only [hnf, if_false]
              exact ih ns ne r1

theorem improveLoop_invariant (maze : Maze) (max_fixing fuel : Nat) (P : State → Int → Prop)
    (hstep : ∀ s e r ns r1 ne nf, P s e → s.propose maze fuel r = .ok (ns, r1) →
      ns.calculateEnergy fuel = .ok ne → ¬ ne > e → ns.countNumberOfFixing maze = .ok nf →
      ¬ nf > max_fixing → P ns ne) :
    ∀ n s e r s1 e1 r1, P s e →
      improveLoop maze max_fixing fuel n s e r = .ok (s1, e1, r1) → P s1 e1 := by
  intro n
  induction n with
  | zero =>
    intro s e r s1 e1 r1 hP h
    simp only [improveLoop, Except.ok.injEq, Prod.mk.injEq] at h
    obtain ⟨rfl, rfl, _⟩ := h
    exact hP
  | succ n ih =>
    intro s e r s1 e1 r1 hP h
    rw [improveLoop, bind_eq_ok] at h
    obtain ⟨⟨ns, r2⟩, hprop, h⟩ := h
    rw [bind_eq_ok] at h
    obtain ⟨ne, hne, h⟩ := h
    by_cases hgt : ne > e
    · rw [if_pos hgt] at h
      exact ih _ _ _ _ _ _ hP h
    · rw [if_neg hgt, bind_eq_ok] at h
      obtain ⟨nf, hnf, h⟩ := h
      by_cases hover : nf > max_fixing
      · rw [if_pos hover] at h
        exact ih _ _ _ _ _ _ hP h
      · rw [if_neg hover] at h
        exact ih _ _ _ _ _ _ (hstep s e r ns r2 ne nf hP hprop hne hgt hnf hover) h

theorem improveLoop_energy (maze : Maze) (max_fixing fuel : Nat) (e0 : Int) :
    ∀ n s e r s1 e1 r1, (s.calculateEnergy fuel = .ok e ∧ e ≤ e0) →
      improveLoop maze max_fixing fuel n s e r = .ok (s1, e1, r1) →
      (s1.calculateEnergy fuel = .ok e1 ∧ e1 ≤ e0) := by
  apply improveLoop_invariant maze max_fixing fuel
    (fun s e => s.calculateEnergy fuel = .ok e ∧ e ≤ e0)
  intro s e r ns r1 ne nf hP _ hne hgt _ _
  exact ⟨hne, by have := hP.2; omega⟩

theorem improveLoop_budget (maze : Maze) (max_fixing fuel : Nat) :
    ∀ n s e r s1 e1 r1, (∃ c, s.countNumberOfFixing maze = .ok c ∧ c ≤ max_fixing) →
      improveLoop maze max_fixing fuel n s e r = .ok (s1, e1, r1) →
      ∃ c, s1.countNumberOfFixing maze = .ok c ∧ c ≤ max_fixing := by
  apply improveLoop_invariant maze max_fixing fuel
    (fun s _ => ∃ c, s.countNumberOfFixing maze = .ok c ∧ c ≤ max_fixing)
  intro s e r ns r1 ne nf _ _ _ _ hnf hover
  exact ⟨nf, hnf, by omega⟩

theorem improveLoop_prefix (maze : Maze) (max_fixing fuel : Nat) (n k : Nat) (hk : k ≤ n)
    (s : State) (e : Int) (r : Rng) (x : State × Int × Rng)
    (h : improveLoop maze max_fixing fuel n s e r = .ok x) :
    ∃ y, improveLoop maze max_fixing fuel k s e r = .ok y ∧
      improveLoop maze max_fixing fuel (n - k) y.1 y.2.1 y.2.2 = .ok x := by
  have hn : n = k + (n - k) := by omega
  rw [hn, improveLoop_add, bind_eq_ok] at h
  obtain ⟨y, hy, h⟩ := h
  exact ⟨y, hy, h⟩

theorem fixesLoop_at_ok (s : State) (original : Maze) :
    ∀ vs fs, s.fixesLoop original vs = .ok fs → ∀ v ∈ vs, v.pack < kGridSize := by
  intro vs
  induction vs with
  | nil => intro fs _ v hv; simp at hv
  | cons a rest ih =>
    intro fs h v hv
    rw [State.fixesLoop, bind_eq_ok] at h
    obtain ⟨c, hc, h⟩ := h
    rw [bind_eq_ok] at h
    obtain ⟨c0, _, h⟩ := h
    rw [bind_eq_ok] at h
    obtain ⟨fs1, hfs1, _⟩ := h
    rcases List.mem_cons.1 hv with hh | hh
    · subst hh; exact ((at_eq_ok_iff _ _ _).1 hc).1
    · exact ih fs1 hfs1 v hh

theorem count_self (maze : Maze) (s : State) (fs : List (Vertex × Cell))
    (h : s.fixes maze = .ok fs) : (State.mk maze).countNumberOfFixing maze = .ok 0 := by
  simp only [State.fixes, bind_eq_ok] at h
  obtain ⟨vs, hvs, hfs⟩ := h
  have hpk := fixesLoop_at_ok s maze vs fs hfs
  have hfix : (State.mk maze).fixes maze = .ok [] := by
    simp only [State.fixes, hvs, bind, Except.bind]
    rw [fixesLoop_eq _ _ _ hpk]
    simp
  exact count_eq_of_fixes _ _ _ hfix

theorem formatFixes_length :
    ∀ fs out, formatFixes fs = .ok out → out.length = fs.length := by
  intro fs
  induction fs with
  | nil =>
    intro out h
    simp only [formatFixes, Except.ok.injEq] at h
    subst h; rfl
  | cons f rest ih =>
    intro out h
    rw [formatFixes, bind_eq_ok] at h
    obtain ⟨s, _, h⟩ := h
    rw [bind_eq_ok] at h
    obtain ⟨more, hmore, h⟩ := h
    rw [pure_eq_ok] at h
    subst h
    simp [ih more hmore]

theorem improve_unfold (cells : List String) (max_fixing fuel : Nat) (r : Rng)
    (out : List String) (h : improve cells max_fixing fuel r = .ok out) :
    ∃ maze e0 final ef rf fs, buildMaze cells = .ok maze ∧
      (State.mk maze).calculateEnergy fuel = .ok e0 ∧
      improveLoop maze max_fixing fuel 500 ⟨maze⟩ e0 r = .ok (final, ef, rf) ∧
      final.fixes maze = .ok fs ∧ formatFixes fs = .ok out := by
  simp only [improve, improveFixes, improveState, bind_eq_ok, pure_eq_ok] at h
  obtain ⟨fs, ⟨⟨maze1, final1⟩, ⟨maze, hmaze, e0, he0, ⟨final, ef, rf⟩, hloop, heq⟩, hfs⟩, hfmt⟩ := h
  simp only [Prod.mk.injEq] at heq
  obtain ⟨rfl, rfl⟩ := heq
  exact ⟨maze, e0, final, ef, rf, fs, hmaze, he0, hloop, hfs, hfmt⟩

set_option maxRecDepth 100000 in
theorem sampleRows_improveFixes : improveFixes sampleRows 0 4 sampleRng = .ok [] := by
  decide!

theorem sampleRows_improve : improve sampleRows 0 4 sampleRng = .ok [] := by
  rw [improve, sampleRows_improveFixes]
  rfl

/-- Claim C1: if `improve` returns, the list it returns has at most `max_fixing` entries (none
for the budget 0). The state the loop starts from has 0 fixes, the state held after every
number `k ≤ 500` of rounds has at most `max_fixing` fixes, and the length of the returned list
is the number of fixes of the final state. -/
theorem C1_improve_within_budget (cells : List String) (max_fixing fuel : Nat) (r : Rng)
    (out : List String) (h : improve cells max_fixing fuel r = .ok out) :
    out.length ≤ max_fixing ∧ (max_fixing = 0 → out = []) ∧
      ∃ maze e0, buildMaze cells = .ok maze ∧
        (State.mk maze).calculateEnergy fuel = .ok e0 ∧
        (State.mk maze).countNumberOfFixing maze = .ok 0 ∧
        (∀ k, k ≤ 500 → ∃ sk ek rk c,
          improveLoop maze max_fixing fuel k ⟨maze⟩ e0 r = .ok (sk, ek, rk) ∧
            sk.countNumberOfFixing maze = .ok c ∧ c ≤ max_fixing) ∧
        ∃ final ef rf, improveLoop maze max_fixing fuel 500 ⟨maze⟩ e0 r = .ok (final, ef, rf) ∧
          final.countNumberOfFixing maze = .ok out.length := by
  obtain ⟨maze, e0, final, ef, rf, fs, hmaze, he0, hloop, hfs, hfmt⟩ :=
    improve_unfold cells max_fixing fuel r out h
  have hlen : out.length = fs.length := formatFixes_length fs out hfmt
  have hinit : (State.mk maze).countNumberOfFixing maze = .ok 0 := count_self maze final fs hfs
  have hfinal : final.countNumberOfFixing maze = .ok out.length := by
    rw [hlen]; exact count_eq_of_fixes final maze fs hfs
  have hbudget : ∀ k, k ≤ 500 → ∃ sk ek rk c,
      improveLoop maze max_fixing fuel k ⟨maze⟩ e0 r = .ok (sk, ek, rk) ∧
        sk.countNumberOfFixing maze = .ok c ∧ c ≤ max_fixing := by
    intro k hk
    obtain ⟨⟨sk, ek, rk⟩, hy, _⟩ :=
      improveLoop_prefix maze max_fixing fuel 500 k hk ⟨maze⟩ e0 r _ hloop
    obtain ⟨c, hc, hcle⟩ := improveLoop_budget maze max_fixing fuel k ⟨maze⟩ e0 r sk ek rk
      ⟨0, hinit, Nat.zero_le _⟩ hy
    exact ⟨sk, ek, rk, c, hy, hc, hcle⟩
  have hle : out.length ≤ max_fixing := by
    obtain ⟨sk, ek, rk, c, hy, hc, hcle⟩ := hbudget 500 (Nat.le_refl _)
    rw [hloop] at hy
    simp only [Except.ok.injEq, Prod.mk.injEq] at hy
    obtain ⟨rfl, _, _⟩ := hy
    rw [hfinal] at hc
    cases hc
    exact hcle
  refine ⟨hle, ?_, maze, e0, hmaze, he0, hinit, hbudget, final, ef, rf, hloop, hfinal⟩
  intro h0
  apply List.eq_nil_of_length_eq_zero
  omega

theorem C1_improve_within_budget_witness :
    ([] : List String).length ≤ 0 ∧ (0 = 0 → ([] : List String) = []) ∧
      ∃ maze e0, buildMaze sampleRows = .ok maze ∧
        (State.mk maze).calculateEnergy 4 = .ok e0 ∧
        (State.mk maze).countNumberOfFixing maze = .ok 0 ∧
        (∀ k, k ≤ 500 → ∃ sk ek rk c,
          improveLoop maze 0 4 k ⟨maze⟩ e0 sampleRng = .ok (sk, ek, rk) ∧
            sk.countNumberOfFixing maze = .ok c ∧ c ≤ 0) ∧
        ∃ final ef rf, improveLoop maze 0 4 500 ⟨maze⟩ e0 sampleRng = .ok (final, ef, rf) ∧
          final.countNumberOfFixing maze = .ok ([] : List String).length :=
  C1_improve_within_budget sampleRows 0 4 sampleRng [] sampleRows_improve

theorem improveLoop_one (maze : Maze) (max_fixing fuel : Nat) (s s1 : State) (e e1 : Int)
    (r r1 : Rng) (h : improveLoop maze max_fixing fuel 1 s e r = .ok (s1, e1, r1)) :
    ∃ ns ne, s.propose maze fuel r = .ok (ns, r1) ∧ ns.calculateEnergy fuel = .ok ne ∧
      ((s1 = s ∧ e1 = e) ∨ (s1 = ns ∧ e1 = ne ∧ ne ≤ e)) := by
  rw [improveLoop, bind_eq_ok] at h
  obtain ⟨⟨ns, r2⟩, hprop, h⟩ := h
  rw [bind_eq_ok] at h
  obtain ⟨ne, hne, h⟩ := h
  by_cases hgt : ne > e
  · rw [if_pos hgt] at h
    simp only [improveLoop, Except.ok.injEq, Prod.mk.injEq] at h
    obtain ⟨rfl, rfl, rfl⟩ := h
    exact ⟨ns, ne, hprop, hne, Or.inl ⟨rfl, rfl⟩⟩
  · rw [if_neg hgt, bind_eq_ok] at h
    obtain ⟨nf, _, h⟩ := h
    by_cases hover : nf > max_fixing
    · rw [if_pos hover] at h
      simp only [improveLoop, Except.ok.injEq, Prod.mk.injEq] at h
      obtain ⟨rfl, rfl, rfl⟩ := h
      exact ⟨ns, ne, hprop, hne, Or.inl ⟨rfl, rfl⟩⟩
    · rw [if_neg hover] at h
      simp only [improveLoop, Except.ok.injEq, Prod.mk.injEq] at h
      obtain ⟨rfl, rfl, rfl⟩ := h
      exact ⟨ns, ne, hprop, hne, Or.inr ⟨rfl, rfl, by omega⟩⟩

set_option maxRecDepth 100000 in
/-- Three rounds of the main loop on the row `".UU.U."` with budget 2, from the energy of the
initial state: the two turn cells next to each other are changed to straight cells, which
opens a path between the outside cells and lowers the energy from 0 to -2. -/
theorem sampleCorridor_run :
    (buildMaze sampleCorridorRows >>= fun m =>
      (State.mk m).calculateEnergy 10 >>= fun e0 =>
      improveLoop m 2 10 3 ⟨m⟩ e0 sampleEven >>= fun x =>
      x.1.fixes m >>= fun fs => pure (e0, x.2.1, fs)) =
      .ok (0, -2, [(⟨1, 0⟩, Cell.straight), (⟨2, 0⟩, Cell.straight)]) := by
  decide!

/-- Claim C2: for every input, budget and generator, and for every number `n` of rounds that
the main loop of `improve` completes (the rounds after them may throw): the variable `energy`
equals `calculateEnergy` of the retained state and is at most the energy of
`State(original)`; in every round `k < n` the retained state is either kept or replaced by
the proposal, the latter only when the energy of the proposal is at most the current energy,
so the energy after round `k + 1` is at most the energy after round `k`. In particular, when
`improve` returns, the energy of the final state is at most that of `State(original)`. -/
theorem C2_improve_energy_never_increases (cells : List String) (max_fixing fuel : Nat)
    (r : Rng) (maze : Maze) (e0 : Int) (n : Nat) (sn : State) (en : Int) (rn : Rng)
    (hmaze : buildMaze cells = .ok maze)
    (he0 : (State.mk maze).calculateEnergy fuel = .ok e0)
    (hrun : improveLoop maze max_fixing fuel n ⟨maze⟩ e0 r = .ok (sn, en, rn)) :
    sn.calculateEnergy fuel = .ok en ∧ en ≤ e0 ∧
      (∀ k, k < n → ∃ sk ek rk sk1 ek1 rk1 ns ne,
        improveLoop maze max_fixing fuel k ⟨maze⟩ e0 r = .ok (sk, ek, rk) ∧
          improveLoop maze max_fixing fuel (k + 1) ⟨maze⟩ e0 r = .ok (sk1, ek1, rk1) ∧
          sk.calculateEnergy fuel = .ok ek ∧ sk1.calculateEnergy fuel = .ok ek1 ∧
          ek1 ≤ ek ∧ sk.propose maze fuel rk = .ok (ns, rk1) ∧
          ns.calculateEnergy fuel = .ok ne ∧
          ((sk1 = sk ∧ ek1 = ek) ∨ (sk1 = ns ∧ ek1 = ne ∧ ne ≤ ek))) ∧
      (∀ out, improve cells max_fixing fuel r = .ok out →
        ∃ final ef rf, improveLoop maze max_fixing fuel 500 ⟨maze⟩ e0 r = .ok (final, ef, rf) ∧
          final.calculateEnergy fuel = .ok ef ∧ ef ≤ e0) := by
  refine ⟨(improveLoop_energy maze max_fixing fuel e0 n ⟨maze⟩ e0 r sn en rn
      ⟨he0, Int.le_refl _⟩ hrun).1,
    (improveLoop_energy maze max_fixing fuel e0 n ⟨maze⟩ e0 r sn en rn
      ⟨he0, Int.le_refl _⟩ hrun).2, ?_, ?_⟩
  · intro k hk
    obtain ⟨⟨sk1, ek1, rk1⟩, hy1, _⟩ :=
      improveLoop_prefix maze max_fixing fuel n (k + 1) (by omega) ⟨maze⟩ e0 r _ hrun
    obtain ⟨⟨sk, ek, rk⟩, hy, hrest⟩ :=
      improveLoop_prefix maze max_fixing fuel (k + 1) k (by omega) ⟨maze⟩ e0 r _ hy1
    have hk0 := improveLoop_energy maze max_fixing fuel e0 k ⟨maze⟩ e0 r sk ek rk
      ⟨he0, Int.le_refl _⟩ hy
    have hk1 := improveLoop_energy maze max_fixing fuel ek (k + 1 - k) sk ek rk sk1 ek1 rk1
      ⟨hk0.1, Int.le_refl _⟩ hrest
    have hone : k + 1 - k = 1 := by omega
    rw [hone] at hrest
    obtain ⟨ns, ne, hprop, hne, hcase⟩ :=
      improveLoop_one maze max_fixing fuel sk sk1 ek ek1 rk rk1 hrest
    exact ⟨sk, ek, rk, sk1, ek1, rk1, ns, ne, hy, hy1, hk0.1, hk1.1, hk1.2, hprop, hne, hcase⟩
  · intro out hout
    obtain ⟨maze1, e1, final, ef, rf, fs, hmaze1, he1, hloop, _, _⟩ :=
      improve_unfold cells max_fixing fuel r out hout
    rw [hmaze] at hmaze1
    cases hmaze1
    rw [he0] at he1
    cases he1
    exact ⟨final, ef, rf, hloop, improveLoop_energy maze max_fixing fuel e0 500 ⟨maze⟩ e0 r
      final ef rf ⟨he0, Int.le_refl _⟩ hloop⟩

theorem C2_improve_energy_never_increases_witness :
    ∃ maze sn rn, buildMaze sampleCorridorRows = .ok maze ∧
      (State.mk maze).calculateEnergy 10 = .ok 0 ∧
      improveLoop maze 2 10 3 ⟨maze⟩ 0 sampleEven = .ok (sn, -2, rn) ∧
      sn.calculateEnergy 10 = .ok (-2) ∧ (-2 : Int) ≤ 0 ∧
      (∀ k, k < 3 → ∃ sk ek rk sk1 ek1 rk1 ns ne,
        improveLoop maze 2 10 k ⟨maze⟩ 0 sampleEven = .ok (sk, ek, rk) ∧
          improveLoop maze 2 10 (k + 1) ⟨maze⟩ 0 sampleEven = .ok (sk1, ek1, rk1) ∧
          sk.calculateEnergy 10 = .ok ek ∧ sk1.calculateEnergy 10 = .ok ek1 ∧
          ek1 ≤ ek ∧ sk.propose maze 10 rk = .ok (ns, rk1) ∧
          ns.calculateEnergy 10 = .ok ne ∧
          ((sk1 = sk ∧ ek1 = ek) ∨ (sk1 = ns ∧ ek1 = ne ∧ ne ≤ ek))) := by
  have h := sampleCorridor_run
  rw [bind_eq_ok] at h
  obtain ⟨maze, hmaze, h⟩ := h
  rw [bind_eq_ok] at h
  obtain ⟨e0, he0, h⟩ := h
  rw [bind_eq_ok] at h
  obtain ⟨⟨sn, en, rn⟩, hrun, h⟩ := h
  rw [bind_eq_ok] at h
  obtain ⟨fs, _, h⟩ := h
  simp only [pure_eq_ok, Prod.mk.injEq] at h
  obtain ⟨rfl, rfl, _⟩ := h
  obtain ⟨h1, h2, h3, _⟩ := C2_improve_energy_never_increases sampleCorridorRows 2 10
    sampleEven maze 0 3 sn (-2) rn hmaze he0 hrun
  exact ⟨maze, sn, rn, hmaze, he0, hrun, h1, h2, h3⟩

/-! ## Proposals keep the unresolved cells -/

theorem keepsShape_refl (m : Maze) : m.keepsShape m := by
  refine ⟨rfl, rfl, ?_⟩
  intro i
  split_ifs with h
  · exact h
  · rfl

theorem keepsShape_trans (m m1 m2 : Maze) (h1 : m.keepsShape m1) (h2 : m1.keepsShape m2) :
    m.keepsShape m2 := by
  obtain ⟨hw1, hh1, hg1⟩ := h1
  obtain ⟨hw2, hh2, hg2⟩ := h2
  refine ⟨hw2.trans hw1, hh2.trans hh1, ?_⟩
  intro i
  have a := hg1 i
  have b := hg2 i
  split_ifs with h
  · rw [if_pos h] at a
    rw [if_pos a] at b
    exact b
  · rw [if_neg h] at a
    rw [a, if_neg h] at b
    exact b

theorem cast_isFixed (n : Nat) : (Cell.cast n).isFixed = true := by
  unfold Cell.cast
  split <;> rfl

theorem fixedAt_iff (m : Maze) (v : Vertex) :
    m.fixedAt v ↔ v.pack < kGridSize ∧ (m.grid v.pack).isFixed = true := by
  constructor
  · rintro ⟨c, hc, h1, h2⟩
    obtain ⟨hlt, hg⟩ := (at_eq_ok_iff _ _ _).1 hc
    refine ⟨hlt, ?_⟩
    rw [hg]
    cases c <;> simp_all [Cell.isFixed]
  · rintro ⟨hlt, hf⟩
    refine ⟨m.grid v.pack, at_eq_ok _ _ hlt, ?_, ?_⟩
    · intro h; rw [h] at hf; simp [Cell.isFixed] at hf
    · intro h; rw [h] at hf; simp [Cell.isFixed] at hf

theorem keepsShape_fixedAt (m m1 : Maze) (h : m.keepsShape m1) (v : Vertex)
    (hv : m.fixedAt v) : m1.fixedAt v := by
  rw [fixedAt_iff] at hv ⊢
  refine ⟨hv.1, ?_⟩
  have := h.2.2 v.pack
  rw [if_pos hv.2] at this
  exact this

theorem setAt_keepsShape (m m1 : Maze) (v : Vertex) (c : Cell) (hc : c.isFixed = true)
    (hv : m.fixedAt v) (h : m.setAt v c = .ok m1) : m.keepsShape m1 := by
  obtain ⟨_, hw, hh, hg⟩ := setAt_spec _ _ _ _ h
  rw [fixedAt_iff] at hv
  refine ⟨hw, hh, ?_⟩
  intro i
  rw [hg i]
  by_cases hi : i = v.pack
  · subst hi
    rw [if_pos hv.2, if_pos rfl]
    exact hc
  · rw [if_neg hi]
    split_ifs with hf
    · exact hf
    · rfl

theorem assignRules_keepsShape :
    ∀ path m m1, (∀ u ∈ path.tail.dropLast, m.fixedAt u) →
      State.assignRules m path = .ok m1 → m.keepsShape m1 := by
  intro path
  induction path with
  | nil =>
    intro m m1 _ h
    simp only [State.assignRules, Except.ok.injEq] at h
    subst h
    exact keepsShape_refl m
  | cons u0 rest ih =>
    intro m m1 hfix h
    match rest, ih, hfix, h with
    | [], _, _, h =>
      simp only [State.assignRules, Except.ok.injEq] at h
      subst h
      exact keepsShape_refl m
    | [u1], _, _, h =>
      simp only [State.assignRules, Except.ok.injEq] at h
      subst h
      exact keepsShape_refl m
    | u1 :: u2 :: rest1, ih, hfix, h =>
      rw [State.assignRules, bind_eq_ok] at h
      obtain ⟨d01, _, h⟩ := h
      rw [bind_eq_ok] at h
      obtain ⟨d12, _, h⟩ := h
      rw [bind_eq_ok] at h
      obtain ⟨m2, hm2, h⟩ := h
      have hu1 : m.fixedAt u1 := by
        apply hfix
        simp [List.dropLast]
      have hk : m.keepsShape m2 := setAt_keepsShape m m2 u1 _ (cast_isFixed _) hu1 hm2
      have hfix2 : ∀ u ∈ (u1 :: u2 :: rest1).tail.dropLast, Maze.fixedAt m2 u := by
        intro u hu
        apply keepsShape_fixedAt m m2 hk
        apply hfix
        rw [List.tail_cons] at hu ⊢
        rw [List.dropLast_cons₂]
        exact List.mem_cons_of_mem _ hu
      exact keepsShape_trans m m2 m1 hk (ih m2 m1 hfix2 h)

theorem connectAdjacents_spec (m : Maze) (trailing subpath : Path)
    (hsub : m.queued subpath)
    (htb : ∀ tb, Path.fromBack trailing 0 = .ok tb → m.fixedAt tb) :
    ∀ adj visited queue res, (∀ q ∈ queue, m.queued q) →
      State.connectAdjacents m trailing subpath adj visited queue = .ok res →
      match res with
      | Sum.inl m1 => m.keepsShape m1
      | Sum.inr (_, queue1) => ∀ q ∈ queue1, m.queued q := by
  intro adj
  induction adj with
  | nil =>
    intro visited queue res hq h
    simp only [State.connectAdjacents, Except.ok.injEq] at h
    subst h
    exact hq
  | cons v1 rest ih =>
    intro visited queue res hq h
    rw [State.connectAdjacents, bind_eq_ok] at h
    obtain ⟨tb, htb1, h⟩ := h
    by_cases heq : v1 = tb
    · rw [if_pos heq, bind_eq_ok] at h
      obtain ⟨tb1, _, h⟩ := h
      rw [bind_eq_ok] at h
      obtain ⟨m1, hm1, h⟩ := h
      rw [pure_eq_ok] at h
      subst h
      apply assignRules_keepsShape _ m m1 _ hm1
      intro u hu
      obtain ⟨hlen, hfix⟩ := hsub
      cases subpath with
      | nil => simp at hlen
      | cons a sub =>
        have : ((a :: sub) ++ [v1] ++ [tb1]).tail.dropLast = sub ++ [v1] := by
          simp [List.dropLast_concat]
        rw [this] at hu
        rcases List.mem_append.1 hu with hh | hh
        · exact hfix u hh
        · rw [List.mem_singleton] at hh
          subst hh
          rw [heq]
          exact htb tb htb1
    · rw [if_neg heq, bind_eq_ok] at h
      obtain ⟨cell, hcell, h⟩ := h
      by_cases hpush : v1 ∉ visited ∧ cell ≠ Cell.every ∧ cell ≠ Cell.outside
      · rw [if_pos hpush] at h
        apply ih _ _ res _ h
        intro q hqm
        rcases List.mem_append.1 hqm with hh | hh
        · exact hq q hh
        · rw [List.mem_singleton] at hh
          subst hh
          obtain ⟨hlen, hfix⟩ := hsub
          refine ⟨by simp; omega, ?_⟩
          intro u hu
          cases subpath with
          | nil => simp at hlen
          | cons a sub =>
            simp only [List.cons_append, List.tail_cons, List.mem_append,
              List.mem_singleton] at hu
            rcases hu with hh | hh
            · exact hfix u hh
            · subst hh
              exact ⟨cell, hcell, hpush.2.1, hpush.2.2⟩
      · rw [if_neg hpush] at h
        exact ih _ _ res hq h

theorem connectLoop_keepsShape (m : Maze) (trailing : Path)
    (htb : ∀ tb, Path.fromBack trailing 0 = .ok tb → m.fixedAt tb) :
    ∀ n visited queue r m1 r1, (∀ q ∈ queue, m.queued q) →
      State.connectLoop m trailing n visited queue r = .ok (m1, r1) → m.keepsShape m1 := by
  intro n
  induction n with
  | zero =>
    intro visited queue r m1 r1 hq h
    cases queue with
    | nil =>
      simp only [State.connectLoop, Except.ok.injEq, Prod.mk.injEq] at h
      obtain ⟨rfl, _⟩ := h
      exact keepsShape_refl m
    | cons a rest => simp [State.connectLoop] at h
  | succ n ih =>
    intro visited queue r m1 r1 hq h
    cases queue with
    | nil =>
      simp only [State.connectLoop, Except.ok.injEq, Prod.mk.injEq] at h
      obtain ⟨rfl, _⟩ := h
      exact keepsShape_refl m
    | cons subpath rest =>
      rw [State.connectLoop, bind_eq_ok] at h
      obtain ⟨v0, _, h⟩ := h
      simp only [bind_eq_ok] at h
      obtain ⟨res, hres, h⟩ := h
      have hsub := hq subpath (List.mem_cons_self _ _)
      have hrest : ∀ q ∈ rest, m.queued q := fun q hh => hq q (List.mem_cons_of_mem _ hh)
      have hspec := connectAdjacents_spec m trailing subpath hsub htb _ _ _ res hrest hres
      cases res with
      | inl m2 =>
        simp only [pure_eq_ok, Prod.mk.injEq] at h
        obtain ⟨rfl, _⟩ := h
        exact hspec
      | inr vq =>
        obtain ⟨visited1, queue1⟩ := vq
        exact ih _ _ _ _ _ hspec h

theorem fromBack_zero_mem_tail (p : Path) (b : Vertex) (hlen : 2 ≤ p.length)
    (h : Path.fromBack p 0 = .ok b) : b ∈ p.tail := by
  unfold Path.fromBack at h
  cases hrev : p.reverse with
  | nil =>
    rw [List.reverse_eq_nil_iff] at hrev
    subst hrev
    simp at hlen
  | cons c rest =>
    rw [hrev] at h
    simp only [List.get?_cons_zero, Except.ok.injEq] at h
    subst h
    have hp : p = rest.reverse ++ [c] := by
      rw [← List.reverse_reverse p, hrev, List.reverse_cons]
    cases hr : rest.reverse with
    | nil =>
      rw [hr] at hp
      subst hp
      simp at hlen
    | cons a t =>
      rw [hr] at hp
      subst hp
      simp

theorem search_queued (m : Maze) (next : Maze → Vertex → Vertex → Except Err Vertex)
    (hnext : ∀ a b c, next m a b = .ok c → c.valid) (fuel : Nat) (paths : List Path)
    (h : m.search next false fuel = .ok paths) : ∀ p ∈ paths, m.queued p := by
  obtain ⟨vs, _, hall⟩ := search_spec m next false hnext fuel paths h
  intro p hp
  obtain ⟨end_, _, v1, ext, hpe, _, _, hv1, _, _, _, _, hinc⟩ := hall p hp
  subst hpe
  refine ⟨by simp, ?_⟩
  intro u hu
  rcases List.mem_cons.1 hu with hh | hh
  · subst hh; exact hv1
  · exact hinc rfl u hh

theorem uniform_lt (r r1 : Rng) (n i : Nat) (h : r.uniform n = .ok (i, r1)) : i < n := by
  unfold Rng.uniform at h
  split_ifs at h with h0
  simp only [Except.ok.injEq, Prod.mk.injEq] at h
  obtain ⟨rfl, _⟩ := h
  exact Nat.mod_lt _ (Nat.pos_of_ne_zero h0)

theorem getD_mem (l : List Path) (i : Nat) (hi : i < l.length) : l.getD i [] ∈ l := by
  rw [List.getD_eq_getElem l [] hi]
  exact List.getElem_mem hi

theorem sampleLoop_mem (leadings trailings : List Path) :
    ∀ n r leading trailing r1,
      State.sampleLoop leadings trailings n r = .ok ((leading, trailing), r1) →
      leading ∈ leadings ∧ trailing ∈ trailings := by
  intro n
  induction n with
  | zero => intro r leading trailing r1 h; simp [State.sampleLoop] at h
  | succ n ih =>
    intro r leading trailing r1 h
    rw [State.sampleLoop, bind_eq_ok] at h
    obtain ⟨⟨i, r2⟩, hi, h⟩ := h
    simp only [bind_eq_ok] at h
    obtain ⟨⟨j, r3⟩, hj, lb, _, tb, _, h⟩ := h
    simp only at h
    split_ifs at h with hd
    · exact ih _ _ _ _ h
    · simp only [pure_eq_ok, Prod.mk.injEq] at h
      obtain ⟨⟨rfl, rfl⟩, _⟩ := h
      exact ⟨getD_mem _ _ (uniform_lt _ _ _ _ hi), getD_mem _ _ (uniform_lt _ _ _ _ hj)⟩

theorem sampleSubpathPair_queued (s : State) (fuel : Nat) (r r1 : Rng)
    (leading trailing : Path)
    (h : s.sampleSubpathPair fuel r = .ok ((leading, trailing), r1)) :
    s.maze_.queued leading ∧ s.maze_.queued trailing := by
  simp only [State.sampleSubpathPair, bind_eq_ok] at h
  obtain ⟨leadings, hl, trailings, ht, h⟩ := h
  obtain ⟨h1, h2⟩ := sampleLoop_mem _ _ _ _ _ _ _ h
  exact ⟨search_queued s.maze_ Maze.forward (forward_valid _) fuel leadings hl leading h1,
    search_queued s.maze_ Maze.backward (backward_valid _) fuel trailings ht trailing h2⟩

theorem connectSubpathPair_keepsShape (s s1 : State) (leading trailing : Path) (fuel : Nat)
    (r r1 : Rng) (hl : s.maze_.queued leading) (ht : s.maze_.queued trailing)
    (h : s.connectSubpathPair leading trailing fuel r = .ok (s1, r1)) :
    s.maze_.keepsShape s1.maze_ := by
  simp only [State.connectSubpathPair, bind_eq_ok] at h
  obtain ⟨a, _, b, hb, ⟨m1, r2⟩, hloop, h⟩ := h
  simp only [pure_eq_ok, Prod.mk.injEq] at h
  obtain ⟨rfl, _⟩ := h
  apply connectLoop_keepsShape s.maze_ trailing _ fuel _ _ r m1 r2 _ hloop
  · intro tb htb
    exact ht.2 tb (fromBack_zero_mem_tail trailing tb ht.1 htb)
  · intro q hq
    rw [List.mem_singleton] at hq
    subst hq
    refine ⟨by simp, ?_⟩
    intro u hu
    simp only [List.tail_cons, List.mem_singleton] at hu
    subst hu
    exact hl.2 u (fromBack_zero_mem_tail leading u hl.1 hb)

theorem resetLoop_spec (contr : Grid Bool) (original : Maze) :
    ∀ vs m m1, State.resetLoop contr original vs m = .ok m1 →
      m1.width = m.width ∧ m1.height = m.height ∧
        ∀ i, m1.grid i = m.grid i ∨ m1.grid i = original.grid i := by
  intro vs
  induction vs with
  | nil =>
    intro m m1 h
    simp only [State.resetLoop, Except.ok.injEq] at h
    subst h
    exact ⟨rfl, rfl, fun _ => Or.inl rfl⟩
  | cons v rest ih =>
    intro m m1 h
    rw [State.resetLoop, bind_eq_ok] at h
    obtain ⟨b, _, h⟩ := h
    cases b with
    | true =>
      simp only [Bool.not_true, Bool.false_eq_true, if_false] at h
      exact ih m m1 h
    | false =>
      simp only [Bool.not_false, if_true, bind_eq_ok] at h
      obtain ⟨c0, hc0, m2, hm2, h⟩ := h
      obtain ⟨_, hw, hh, hg⟩ := setAt_spec _ _ _ _ hm2
      obtain ⟨hw1, hh1, hg1⟩ := ih m2 m1 h
      refine ⟨hw1.trans hw, hh1.trans hh, ?_⟩
      intro i
      rcases hg1 i with h3 | h3
      · rw [h3, hg i]
        by_cases hi : i = v.pack
        · right
          rw [if_pos hi, hi]
          exact ((at_eq_ok_iff _ _ _).1 hc0).2.symm
        · left
          rw [if_neg hi]
      · exact Or.inr h3

theorem clean_keepsShape (s s1 : State) (original : Maze) (fuel : Nat)
    (hinv : original.keepsShape s.maze_) (h : s.clean original fuel = .ok s1) :
    original.keepsShape s1.maze_ := by
  simp only [State.clean, bind_eq_ok, pure_eq_ok] at h
  obtain ⟨paths, _, contr1, _, vs, _, m1, hm1, rfl⟩ := h
  obtain ⟨hw, hh, hg⟩ := resetLoop_spec _ _ _ _ _ hm1
  obtain ⟨hw0, hh0, hg0⟩ := hinv
  refine ⟨hw.trans hw0, hh.trans hh0, ?_⟩
  intro i
  have a := hg0 i
  rcases hg i with h3 | h3
  · simp only [h3]; exact a
  · simp only [h3]
    split_ifs with hf
    exact hf

theorem propose_keepsShape (s s1 : State) (original : Maze) (fuel : Nat) (r r1 : Rng)
    (hinv : original.keepsShape s.maze_) (h : s.propose original fuel r = .ok (s1, r1)) :
    original.keepsShape s1.maze_ := by
  simp only [State.propose, bind_eq_ok] at h
  obtain ⟨⟨⟨leading, trailing⟩, r2⟩, hsample, ⟨s2, r3⟩, hconn, s3, hclean, h⟩ := h
  simp only [pure_eq_ok, Prod.mk.injEq] at h
  obtain ⟨rfl, _⟩ := h
  obtain ⟨hl, ht⟩ := sampleSubpathPair_queued s fuel r r2 leading trailing hsample
  have hk := connectSubpathPair_keepsShape s s2 leading trailing fuel r2 r3 hl ht hconn
  exact clean_keepsShape s2 s3 original fuel (keepsShape_trans _ _ _ hinv hk) hclean

theorem reachable_keepsShape (original : Maze) (s : State) (h : s.reachable original) :
    original.keepsShape s.maze_ := by
  induction h with
  | init => exact keepsShape_refl original
  | step s s1 fuel r r1 _ hprop ih => exact propose_keepsShape s s1 original fuel r r1 ih hprop

theorem keepsShape_differs (original m : Maze) (h : original.keepsShape m) (i : Nat)
    (hne : m.grid i ≠ original.grid i) :
    (original.grid i).isFixed = true ∧ (m.grid i).isFixed = true := by
  have := h.2.2 i
  split_ifs at this with hf
  · exact ⟨hf, this⟩
  · exact absurd this hne

theorem isFixed_ne_outside (c : Cell) (h : c.isFixed = true) : c ≠ Cell.outside := by
  intro hc; subst hc; simp [Cell.isFixed] at h

set_option maxRecDepth 100000 in
theorem samplePair_propose :
    ((State.mk samplePair).propose samplePair 10 sampleCounter >>= fun x =>
      x.1.fixes samplePair) =
      .ok [(⟨1, 0⟩, Cell.straight), (⟨2, 0⟩, Cell.straight)] := by
  decide!

/-- Claim C9: for every reference maze and every state obtained from `State(original)` by any
number of `propose` steps, the number returned by `countNumberOfFixing` does not exceed the
number of vertices of the extent whose cell in the reference maze is not `outside`; for
dimensions in `1..80` the function returns, and the bound is the number of non-absorbing cells
of the `W` by `H` extent. -/
theorem C9_fix_count_at_most_non_absorbing (original : Maze) (s : State)
    (hr : s.reachable original) :
    (∀ vs n, original.vertices = .ok vs → s.countNumberOfFixing original = .ok n →
      n ≤ (vs.filter (fun v => decide (original.at v ≠ .ok Cell.outside))).length) ∧
    ((1 ≤ original.width ∧ original.width ≤ 80 ∧ 1 ≤ original.height ∧
        original.height ≤ 80) →
      ∃ n, s.countNumberOfFixing original = .ok n ∧ n ≤ original.nonAbsorbingCount) := by
  have hinv := reachable_keepsShape original s hr
  have hgen : ∀ vs n, original.vertices = .ok vs → s.countNumberOfFixing original = .ok n →
      n ≤ (vs.filter (fun v => decide (original.at v ≠ .ok Cell.outside))).length := by
    intro vs n hvs hn
    obtain ⟨fs, hfs, hlen⟩ := fixes_of_count s original n hn
    simp only [State.fixes, hvs, bind, Except.bind] at hfs
    have hpack := fixesLoop_at_ok s original vs fs hfs
    rw [fixesLoop_eq s original vs hpack] at hfs
    cases hfs
    rw [← hlen, List.length_map, ← List.countP_eq_length_filter,
      ← List.countP_eq_length_filter]
    apply List.countP_mono_left
    intro v hv hne
    simp only [ne_eq, decide_not, Bool.not_eq_true', decide_eq_false_iff_not,
      decide_eq_true_eq] at hne ⊢
    rw [at_eq_ok _ _ (hpack v hv)]
    intro hc
    have hfx := (keepsShape_differs original s.maze_ hinv v.pack hne).1
    exact isFixed_ne_outside _ hfx (Except.ok.inj hc)
  refine ⟨hgen, ?_⟩
  rintro ⟨hw1, hw, hh1, hh⟩
  have hvs : original.vertices = .ok (rowMajor original.width original.height) :=
    gridVertices_eq _ _ hw1 hw hh1 hh
  obtain ⟨fs, hfix, _⟩ := fixes_of_extent s original hw1 hw hh1 hh
  have hcount := count_eq_of_fixes s original fs hfix
  exact ⟨fs.length, hcount, hgen _ _ hvs hcount⟩

theorem C9_fix_count_at_most_non_absorbing_witness :
    ∃ s1 : State, s1.reachable samplePair ∧ s1.countNumberOfFixing samplePair = .ok 2 ∧
      ∃ n, s1.countNumberOfFixing samplePair = .ok n ∧ n ≤ samplePair.nonAbsorbingCount := by
  have h := samplePair_propose
  rw [bind_eq_ok] at h
  obtain ⟨⟨s1, r1⟩, hp, hf⟩ := h
  have hr : s1.reachable samplePair :=
    State.reachable.step _ _ _ _ _ State.reachable.init hp
  exact ⟨s1, hr, count_eq_of_fixes _ _ _ hf,
    (C9_fix_count_at_most_non_absorbing samplePair s1 hr).2 (by decide)⟩

theorem fixes_mem (s : State) (original : Maze) (fs : List (Vertex × Cell))
    (h : s.fixes original = .ok fs) (f : Vertex × Cell) (hf : f ∈ fs) :
    s.maze_.at f.1 = .ok f.2 ∧ original.at f.1 ≠ .ok f.2 ∧
      s.maze_.grid f.1.pack ≠ original.grid f.1.pack := by
  simp only [State.fixes, bind_eq_ok] at h
  obtain ⟨vs, _, hfs⟩ := h
  have hpk := fixesLoop_at_ok s original vs fs hfs
  rw [fixesLoop_eq _ _ _ hpk] at hfs
  cases hfs
  simp only [List.mem_map, List.mem_filter, ne_eq, decide_not, Bool.not_eq_true',
    decide_eq_false_iff_not] at hf
  obtain ⟨v, ⟨hv, hne⟩, rfl⟩ := hf
  have hp := hpk v hv
  refine ⟨at_eq_ok _ _ hp, ?_, hne⟩
  rw [at_eq_ok _ _ hp]
  intro hc
  exact hne (Except.ok.inj hc).symm

theorem formatFix_isFixed (f : Vertex × Cell) (hf : f.2.isFixed = true) :
    formatFix f = .ok (fixText f) := by
  obtain ⟨v, c⟩ := f
  cases c <;> first | rfl | simp [Cell.isFixed] at hf

theorem formatFixes_isFixed :
    ∀ fs : List (Vertex × Cell), (∀ f ∈ fs, f.2.isFixed = true) →
      formatFixes fs = .ok (fs.map fixText) := by
  intro fs
  induction fs with
  | nil => intro _; rfl
  | cons f rest ih =>
    intro hall
    rw [formatFixes, formatFix_isFixed f (hall f (List.mem_cons_self _ _)),
      ih (fun g hg => hall g (List.mem_cons_of_mem _ hg))]
    rfl

theorem isFixed_cases (c : Cell) (h : c.isFixed = true) :
    c = Cell.straight ∨ c = Cell.right ∨ c = Cell.turn ∨ c = Cell.left := by
  cases c <;> simp [Cell.isFixed] at h ⊢

theorem improveLoop_fixes_isFixed (maze : Maze) (max_fixing fuel n : Nat) (e0 : Int)
    (r : Rng) (final : State) (ef : Int) (rf : Rng) (fs : List (Vertex × Cell))
    (hloop : improveLoop maze max_fixing fuel n ⟨maze⟩ e0 r = .ok (final, ef, rf))
    (hfs : final.fixes maze = .ok fs) : ∀ f ∈ fs, f.2.isFixed = true := by
  have hinv : maze.keepsShape final.maze_ := by
    apply improveLoop_invariant maze max_fixing fuel (fun s _ => maze.keepsShape s.maze_) _
      n ⟨maze⟩ e0 r final ef rf (keepsShape_refl maze) hloop
    intro s e r2 ns r1 ne nf hP hprop _ _ _ _
    exact propose_keepsShape s ns maze fuel r2 r1 hP hprop
  intro f hf
  obtain ⟨hat, _, hne⟩ := fixes_mem final maze fs hfs f hf
  have := (keepsShape_differs maze final.maze_ hinv f.1.pack hne).2
  rw [((at_eq_ok_iff _ _ _).1 hat).2] at this
  exact this

/-- Claim C4: for every input grid, budget and generator, and for the state that the main
loop of `improve` holds after any number `n` of rounds (`n = 500` in `improve`): when
`state.fixes(maze)` returns the list `fs`, the conversion to text does not throw and yields
the strings `"<row> <column> <symbol>"` of the fixes in order, with the decimal row `y`, the
decimal column `x` and the letter S, R, U or L of the rule that the state holds at that
vertex; no fix carries the rule `every` or `outside`. Hence `improve` returns exactly these
strings whenever its 500 rounds end and `fixes` returns. -/
theorem C4_improve_output_format (cells : List String) (max_fixing fuel : Nat) (r : Rng)
    (maze : Maze) (e0 : Int) (n : Nat) (final : State) (ef : Int) (rf : Rng)
    (fs : List (Vertex × Cell)) (hmaze : buildMaze cells = .ok maze)
    (hloop : improveLoop maze max_fixing fuel n ⟨maze⟩ e0 r = .ok (final, ef, rf))
    (hfs : final.fixes maze = .ok fs) :
    formatFixes fs = .ok (fs.map fixText) ∧
      (∀ f ∈ fs, formatFix f = .ok (Nat.repr f.1.y ++ " " ++ Nat.repr f.1.x ++ " " ++
        f.2.symbol)) ∧
      (∀ f ∈ fs, final.maze_.at f.1 = .ok f.2 ∧
        (f.2 = Cell.straight ∨ f.2 = Cell.right ∨ f.2 = Cell.turn ∨ f.2 = Cell.left)) ∧
      (n = 500 → (State.mk maze).calculateEnergy fuel = .ok e0 →
        improveState cells max_fixing fuel r = .ok (maze, final) ∧
        improveFixes cells max_fixing fuel r = .ok fs ∧
        improve cells max_fixing fuel r = .ok (fs.map fixText)) ∧
      (∀ fs1, improveFixes cells max_fixing fuel r = .ok fs1 →
        improve cells max_fixing fuel r = .ok (fs1.map fixText) ∧
        (∀ f ∈ fs1, formatFix f = .ok (Nat.repr f.1.y ++ " " ++ Nat.repr f.1.x ++ " " ++
          f.2.symbol)) ∧
        ∃ maze1 final1, improveState cells max_fixing fuel r = .ok (maze1, final1) ∧
          final1.fixes maze1 = .ok fs1 ∧
          ∀ f ∈ fs1, final1.maze_.at f.1 = .ok f.2 ∧
            (f.2 = Cell.straight ∨ f.2 = Cell.right ∨ f.2 = Cell.turn ∨ f.2 = Cell.left)) := by
  have hfixed := improveLoop_fixes_isFixed maze max_fixing fuel n e0 r final ef rf fs hloop hfs
  refine ⟨formatFixes_isFixed fs hfixed, fun f hf => formatFix_isFixed f (hfixed f hf),
    fun f hf => ⟨(fixes_mem final maze fs hfs f hf).1, isFixed_cases _ (hfixed f hf)⟩, ?_, ?_⟩
  · intro hn he0
    subst hn
    have hstate : improveState cells max_fixing fuel r = .ok (maze, final) := by
      simp only [improveState, hmaze, he0, hloop, bind, Except.bind, pure, Except.pure]
    have hfixes : improveFixes cells max_fixing fuel r = .ok fs := by
      simp only [improveFixes, hstate, bind, Except.bind]
      exact hfs
    refine ⟨hstate, hfixes, ?_⟩
    rw [improve, hfixes]
    exact formatFixes_isFixed fs hfixed
  · intro fs1 h
    have h0 := h
    simp only [improveFixes, improveState, bind_eq_ok, pure_eq_ok] at h
    obtain ⟨⟨maze1, final1⟩, ⟨maze2, hmaze2, e2, he2, ⟨final2, ef2, rf2⟩, hloop2, heq⟩, hfs1⟩ := h
    simp only [Prod.mk.injEq] at heq
    obtain ⟨rfl, rfl⟩ := heq
    have hfixed1 := improveLoop_fixes_isFixed maze2 max_fixing fuel 500 e2 r final2 ef2 rf2
      fs1 hloop2 hfs1
    refine ⟨?_, fun f hf => formatFix_isFixed f (hfixed1 f hf), maze2, final2, ?_, hfs1, ?_⟩
    · rw [improve, h0]
      exact formatFixes_isFixed fs1 hfixed1
    · simp only [improveState, hmaze2, he2, hloop2, bind, Except.bind, pure, Except.pure]
    · intro f hf
      exact ⟨(fixes_mem final2 maze2 fs1 hfs1 f hf).1, isFixed_cases _ (hfixed1 f hf)⟩

theorem C4_improve_output_format_witness :
    ∃ maze final ef rf, buildMaze sampleCorridorRows = .ok maze ∧
      improveLoop maze 2 10 3 ⟨maze⟩ 0 sampleEven = .ok (final, ef, rf) ∧
      final.fixes maze = .ok [(⟨1, 0⟩, Cell.straight), (⟨2, 0⟩, Cell.straight)] ∧
      formatFixes [(⟨1, 0⟩, Cell.straight), (⟨2, 0⟩, Cell.straight)] =
        .ok ["0 1 S", "0 2 S"] ∧
      final.maze_.at ⟨1, 0⟩ = .ok Cell.straight ∧ final.maze_.at ⟨2, 0⟩ = .ok Cell.straight := by
  have h := sampleCorridor_run
  rw [bind_eq_ok] at h
  obtain ⟨maze, hmaze, h⟩ := h
  rw [bind_eq_ok] at h
  obtain ⟨e0, he0, h⟩ := h
  rw [bind_eq_ok] at h
  obtain ⟨⟨final, ef, rf⟩, hrun, h⟩ := h
  rw [bind_eq_ok] at h
  obtain ⟨fs, hfs, h⟩ := h
  simp only [pure_eq_ok, Prod.mk.injEq] at h
  obtain ⟨rfl, _, rfl⟩ := h
  obtain ⟨h1, _, h3, _⟩ := C4_improve_output_format sampleCorridorRows 2 10 sampleEven maze 0 3
    final ef rf [(⟨1, 0⟩, Cell.straight), (⟨2, 0⟩, Cell.straight)] hmaze hrun hfs
  refine ⟨maze, final, ef, rf, hmaze, hrun, hfs, ?_,
    (h3 (⟨1, 0⟩, Cell.straight) (by simp)).1, (h3 (⟨2, 0⟩, Cell.straight) (by simp)).1⟩
  rw [h1]
  decide

/-! ## The flood fill of `Maze::initialize` -/

theorem at_setAt_of_ne (m m1 : Maze) (v u : Vertex) (c : Cell) (h : m.setAt v c = .ok m1)
    (hne : u.pack ≠ v.pack) : m1.at u = m.at u := by
  obtain ⟨_, _, _, hg⟩ := setAt_spec _ _ _ _ h
  simp only [Grid.at, Grid.get, hg, if_neg hne]

theorem at_setAt_self (m m1 : Maze) (v : Vertex) (c : Cell) (h : m.setAt v c = .ok m1) :
    m1.at v = .ok c := by
  obtain ⟨hlt, _, _, hg⟩ := setAt_spec _ _ _ _ h
  simp only [Grid.at, Grid.get, hg, if_pos hlt, if_true]

theorem everyIndices_setAt (m m1 : Maze) (v : Vertex) (h : m.setAt v Cell.outside = .ok m1)
    (hev : m.at v = .ok Cell.every) :
    m1.everyIndices.card + 1 = m.everyIndices.card := by
  obtain ⟨hlt, _, _, hg⟩ := setAt_spec _ _ _ _ h
  have hgv := ((at_eq_ok_iff _ _ _).1 hev).2
  have hmem : v.pack ∈ m.everyIndices := by
    simp only [Maze.everyIndices, Finset.mem_filter, Finset.mem_range]
    exact ⟨hlt, hgv⟩
  have heq : m1.everyIndices = m.everyIndices.erase v.pack := by
    ext i
    simp only [Maze.everyIndices, Finset.mem_filter, Finset.mem_range, Finset.mem_erase, hg]
    by_cases hi : i = v.pack
    · simp [hi]
    · simp [hi]
  rw [heq, Finset.card_erase_of_mem hmem]
  have := Finset.card_pos.2 ⟨_, hmem⟩
  omega

theorem fillInv_setAt (g maze maze1 : Maze) (visited stack : List Vertex) (v0 v1 : Vertex)
    (hw : g.width ≤ 80) (hh : g.height ≤ 80)
    (hsrc : g.at v0 = .ok Cell.outside ∨ g.wildReach v0)
    (hv0 : v0.inExtent g.width g.height) (hv1 : v1.inExtent g.width g.height)
    (hadj : v0.adjacent4 v1) (hev : maze.at v1 = .ok Cell.every)
    (hset : maze.setAt v1 Cell.outside = .ok maze1) (hinv : g.fillInv maze visited stack) :
    g.fillInv maze1 (v1 :: visited) (v1 :: stack) := by
  obtain ⟨hdw, hdh, hframe, hsound, hstack, hvis⟩ := hinv
  obtain ⟨hlt, hw1, hh1, hg⟩ := setAt_spec _ _ _ _ hset
  have hself := at_setAt_self _ _ _ _ hset
  have hgv : maze.grid v1.pack = Cell.every := ((at_eq_ok_iff _ _ _).1 hev).2
  have hgev : g.grid v1.pack = Cell.every := by
    rcases hframe v1.pack with h | h
    · rw [← h]; exact hgv
    · exact h.1
  have hgat : g.at v1 = .ok Cell.every := by rw [at_eq_ok _ _ hlt, hgev]
  have hreach : g.wildReach v1 := by
    rcases hsrc with h | h
    · exact Maze.wildReach.base v0 v1 hv0 hv1 hadj h hgat
    · exact Maze.wildReach.step v0 v1 h hv1 hadj hgat
  have hmono : ∀ v, maze.at v = .ok Cell.outside → maze1.at v = .ok Cell.outside := by
    intro v hv
    by_cases hp : v.pack = v1.pack
    · simp only [Grid.at, Grid.get] at hself ⊢
      rw [hp]; exact hself
    · rw [at_setAt_of_ne _ _ _ _ _ hset hp]; exact hv
  refine ⟨hw1.trans hdw, hh1.trans hdh, ?_, ?_, ?_, ?_⟩
  · intro i
    rw [hg i]
    by_cases hi : i = v1.pack
    · right; rw [if_pos hi, hi]; exact ⟨hgev, rfl⟩
    · rw [if_neg hi]; exact hframe i
  · intro v hv hout
    by_cases hp : v.pack = v1.pack
    · have : v = v1 := pack_inj_of_lt v v1 (by have := hv.1; omega) (by have := hv1.1; omega)
        (by have := hv.2; omega) (by have := hv1.2; omega) hp
      rw [this]; exact Or.inr hreach
    · rw [at_setAt_of_ne _ _ _ _ _ hset hp] at hout
      exact hsound v hv hout
  · intro v hv
    rcases List.mem_cons.1 hv with h | h
    · rw [h]; exact ⟨hv1, hself⟩
    · exact ⟨(hstack v h).1, hmono v (hstack v h).2⟩
  · intro v hv
    rcases List.mem_cons.1 hv with h | h
    · rw [h]; exact hself
    · exact hmono v (hvis v h)

theorem fillAdjacents_spec (g : Maze) (hw : g.width ≤ 80) (hh : g.height ≤ 80) (v0 : Vertex)
    (hv0 : v0.inExtent g.width g.height)
    (hsrc : g.at v0 = .ok Cell.outside ∨ g.wildReach v0) :
    ∀ pending maze visited stack, (∀ v ∈ pending, v ∈ v0.adjacents g.width g.height) →
      g.fillInv maze visited stack → g.fillWork maze stack v0 pending →
      ∃ maze1 visited1 stack1,
        Maze.fillAdjacents pending maze visited stack = .ok (maze1, visited1, stack1) ∧
        g.fillInv maze1 visited1 stack1 ∧ g.fillWork maze1 stack1 v0 [] ∧
        stack1.length + maze1.everyIndices.card = stack.length + maze.everyIndices.card := by
  intro pending
  induction pending with
  | nil =>
    intro maze visited stack _ hinv hwork
    exact ⟨maze, visited, stack, rfl, hinv, hwork, rfl⟩
  | cons v1 rest ih =>
    intro maze visited stack hpend hinv hwork
    have hv1a := hpend v1 (List.mem_cons_self _ _)
    obtain ⟨hv1, hadj⟩ := (mem_adjacents_iff v0 v1 _ _ (by omega) (by omega) hv0).1 hv1a
    have hp1 : v1.pack < kGridSize := pack_lt_of_inExtent v1 _ _ hw hh hv1
    have hrest : ∀ v ∈ rest, v ∈ v0.adjacents g.width g.height :=
      fun v hv => hpend v (List.mem_cons_of_mem _ hv)
    rw [Maze.fillAdjacents, at_eq_ok _ _ hp1]
    simp only [bind, Except.bind]
    by_cases hconv : v1 ∉ visited ∧ maze.grid v1.pack = Cell.every
    · rw [if_pos hconv]
      have hev : maze.at v1 = .ok Cell.every := by rw [at_eq_ok _ _ hp1, hconv.2]
      have hset : ∃ maze1, maze.setAt v1 Cell.outside = .ok maze1 := by
        simp only [Grid.setAt, Grid.set, if_pos hp1]
        exact ⟨_, rfl⟩
      obtain ⟨maze1, hset⟩ := hset
      rw [hset]
      have hself := at_setAt_self _ _ _ _ hset
      have hinv1 := fillInv_setAt g maze maze1 visited stack v0 v1 hw hh hsrc hv0 hv1 hadj hev
        hset hinv
      have hwork1 : g.fillWork maze1 (v1 :: stack) v0 rest := by
        intro u hu hout
        by_cases hp : u.pack = v1.pack
        · have : u = v1 := pack_inj_of_lt u v1 (by have := hu.1; omega)
            (by have := hv1.1; omega) (by have := hu.2; omega) (by have := hv1.2; omega) hp
          left; rw [this]; exact List.mem_cons_self _ _
        · rw [at_setAt_of_ne _ _ _ _ _ hset hp] at hout
          rcases hwork u hu hout with h | h
          · left; exact List.mem_cons_of_mem _ h
          · right
            intro v hv
            by_cases hpv : v.pack = v1.pack
            · left
              simp only [Grid.at, Grid.get] at hself ⊢
              rw [hpv, hself]
              simp
            · rcases h v hv with h2 | ⟨h2, h3⟩
              · left; rw [at_setAt_of_ne _ _ _ _ _ hset hpv]; exact h2
              · rcases List.mem_cons.1 h3 with h4 | h4
                · exact absurd (by rw [h4]) hpv
                · exact Or.inr ⟨h2, h4⟩
      obtain ⟨maze2, visited2, stack2, heq, hinv2, hwork2, hcard⟩ :=
        ih maze1 (v1 :: visited) (v1 :: stack) hrest hinv1 hwork1
      refine ⟨maze2, visited2, stack2, heq, hinv2, hwork2, ?_⟩
      have := everyIndices_setAt maze maze1 v1 hset hev
      rw [hcard, List.length_cons]
      omega
    · rw [if_neg hconv]
      have hnev : maze.at v1 ≠ .ok Cell.every := by
        intro hev
        have hgv := ((at_eq_ok_iff _ _ _).1 hev).2
        by_cases hvis : v1 ∈ visited
        · have := hinv.2.2.2.2.2 v1 hvis
          rw [hev] at this
          cases this
        · exact hconv ⟨hvis, hgv⟩
      have hwork1 : g.fillWork maze stack v0 rest := by
        intro u hu hout
        rcases hwork u hu hout with h | h
        · exact Or.inl h
        · right
          intro v hv
          rcases h v hv with h2 | ⟨h2, h3⟩
          · exact Or.inl h2
          · rcases List.mem_cons.1 h3 with h4 | h4
            · left; rw [h4]; exact hnev
            · exact Or.inr ⟨h2, h4⟩
      exact ih maze visited stack hrest hinv hwork1

theorem fillLoop_nil (n : Nat) (maze : Maze) (visited : List Vertex) :
    Maze.fillLoop n maze visited [] = .ok maze := by
  cases n <;> rfl

theorem fillLoop_spec (g : Maze) (hw : g.width ≤ 80) (hh : g.height ≤ 80) (d : Vertex) :
    ∀ n maze visited stack, stack.length + maze.everyIndices.card ≤ n →
      g.fillInv maze visited stack → g.fillWork maze stack d [] →
      ∃ m vis, Maze.fillLoop n maze visited stack = .ok m ∧ g.fillInv m vis [] ∧
        g.fillWork m [] d [] := by
  intro n
  induction n with
  | zero =>
    intro maze visited stack hlen hinv hwork
    cases stack with
    | nil => exact ⟨maze, visited, fillLoop_nil _ _ _, hinv, hwork⟩
    | cons v0 rest => simp at hlen
  | succ n ih =>
    intro maze visited stack hlen hinv hwork
    cases stack with
    | nil => exact ⟨maze, visited, fillLoop_nil _ _ _, hinv, hwork⟩
    | cons v0 rest =>
      obtain ⟨hdw, hdh, hframe, hsound, hstack, hvis⟩ := hinv
      obtain ⟨hv0, hv0out⟩ := hstack v0 (List.mem_cons_self _ _)
      have hsrc := hsound v0 hv0 hv0out
      have hinv1 : g.fillInv maze visited rest :=
        ⟨hdw, hdh, hframe, hsound, fun v hv => hstack v (List.mem_cons_of_mem _ hv), hvis⟩
      have hwork1 : g.fillWork maze rest v0 (v0.adjacents g.width g.height) := by
        intro u hu hout
        rcases hwork u hu hout with h | h
        · rcases List.mem_cons.1 h with h2 | h2
          · right
            intro v hv
            right
            rw [h2] at hv
            exact ⟨h2, hv⟩
          · exact Or.inl h2
        · right
          intro v hv
          rcases h v hv with h2 | ⟨_, h3⟩
          · exact Or.inl h2
          · simp at h3
      obtain ⟨maze1, visited1, stack1, heq, hinv2, hwork2, hcard⟩ :=
        fillAdjacents_spec g hw hh v0 hv0 hsrc _ maze visited rest (fun _ hv => hv) hinv1 hwork1
      have hwork3 : g.fillWork maze1 stack1 d [] := by
        intro u hu hout
        rcases hwork2 u hu hout with h | h
        · exact Or.inl h
        · right
          intro v hv
          rcases h v hv with h2 | ⟨_, h3⟩
          · exact Or.inl h2
          · simp at h3
      simp only [List.length_cons] at hlen
      obtain ⟨m, vis, hm, hfin⟩ := ih maze1 visited1 stack1 (by omega) hinv2 hwork3
      refine ⟨m, vis, ?_, hfin⟩
      rw [Maze.fillLoop, hdw, hdh, heq]
      exact hm

theorem outsideStack_spec (g : Maze) :
    ∀ vs acc, (∀ v ∈ vs, v.pack < kGridSize) →
      ∃ st, Maze.outsideStack g vs acc = .ok st ∧
        (∀ v, v ∈ st ↔ v ∈ acc ∨ (v ∈ vs ∧ g.at v = .ok Cell.outside)) ∧
        st.length ≤ acc.length + vs.length := by
  intro vs
  induction vs with
  | nil =>
    intro acc _
    exact ⟨acc, rfl, by simp, by simp⟩
  | cons a rest ih =>
    intro acc hpk
    have ha := hpk a (List.mem_cons_self _ _)
    have hrest : ∀ v ∈ rest, v.pack < kGridSize := fun v hv => hpk v (List.mem_cons_of_mem _ hv)
    rw [Maze.outsideStack, at_eq_ok _ _ ha]
    simp only [bind, Except.bind]
    by_cases hout : g.grid a.pack = Cell.outside
    · rw [if_pos hout]
      obtain ⟨st, hst, hmem, hlen⟩ := ih (a :: acc) hrest
      refine ⟨st, hst, ?_, by simp only [List.length_cons] at hlen ⊢; omega⟩
      intro v
      rw [hmem v]
      simp only [List.mem_cons]
      constructor
      · rintro ((h | h) | h)
        · right; rw [h]; exact ⟨Or.inl rfl, by rw [at_eq_ok _ _ ha, hout]⟩
        · exact Or.inl h
        · exact Or.inr ⟨Or.inr h.1, h.2⟩
      · rintro (h | ⟨h | h, h2⟩)
        · exact Or.inl (Or.inr h)
        · exact Or.inl (Or.inl h)
        · exact Or.inr ⟨h, h2⟩
    · rw [if_neg hout]
      obtain ⟨st, hst, hmem, hlen⟩ := ih acc hrest
      refine ⟨st, hst, ?_, by simp only [List.length_cons]; omega⟩
      intro v
      rw [hmem v]
      simp only [List.mem_cons]
      constructor
      · rintro (h | h)
        · exact Or.inl h
        · exact Or.inr ⟨Or.inr h.1, h.2⟩
      · rintro (h | ⟨h | h, h2⟩)
        · exact Or.inl h
        · rw [h, at_eq_ok _ _ ha] at h2
          exact absurd (Except.ok.inj h2) hout
        · exact Or.inr ⟨h, h2⟩

theorem rowMajor_length (w h : Nat) : (rowMajor w h).length = w * h := by
  simp [rowMajor]

theorem everyIndices_card_le (m : Maze) : m.everyIndices.card ≤ kGridSize := by
  unfold Maze.everyIndices
  calc ((Finset.range kGridSize).filter _).card ≤ (Finset.range kGridSize).card :=
        Finset.card_filter_le _ _
    _ = kGridSize := Finset.card_range _

theorem initialize_spec (g : Grid Cell) (hw1 : 1 ≤ g.width) (hw : g.width ≤ 80)
    (hh1 : 1 ≤ g.height) (hh : g.height ≤ 80) :
    ∃ m vis, Maze.initialize g = .ok m ∧ Maze.fillInv g m vis [] ∧
      Maze.fillWork g m [] ⟨0, 0⟩ [] := by
  have hvs : g.vertices = .ok (rowMajor g.width g.height) := gridVertices_eq _ _ hw1 hw hh1 hh
  have hpack : ∀ v ∈ rowMajor g.width g.height, v.pack < kGridSize :=
    fun v hv => pack_lt_of_inExtent v _ _ hw hh ((rowMajor_mem _ _ v).1 hv)
  obtain ⟨st, hst, hmem, hlen⟩ := outsideStack_spec g _ [] hpack
  have hinv : Maze.fillInv g g [] st := by
    refine ⟨rfl, rfl, fun _ => Or.inl rfl, fun _ _ h => Or.inl h, ?_, by simp⟩
    intro v hv
    have := (hmem v).1 hv
    simp only [List.not_mem_nil, false_or] at this
    exact ⟨(rowMajor_mem _ _ v).1 this.1, this.2⟩
  have hwork : Maze.fillWork g g st ⟨0, 0⟩ [] := by
    intro u hu hout
    left
    exact (hmem u).2 (Or.inr ⟨(rowMajor_mem _ _ u).2 hu, hout⟩)
  have hsize : st.length + (Maze.everyIndices g).card ≤ 3 * kGridSize := by
    have h1 := everyIndices_card_le g
    have h2 : g.width * g.height ≤ 80 * 80 := Nat.mul_le_mul hw hh
    rw [rowMajor_length] at hlen
    simp only [List.length_nil, kGridSize, kMaxCoordinate] at hlen h1 ⊢
    omega
  obtain ⟨m, vis, hm, hfin⟩ := fillLoop_spec g hw hh ⟨0, 0⟩ _ g [] st hsize hinv hwork
  refine ⟨m, vis, ?_, hfin⟩
  simp only [ Maze.initialize, hvs, hst, bind, Except.bind]
  exact hm

/-- Claim C5: for a grid with dimensions `1 ≤ W, H ≤ 80`, `Maze::initialize` returns the
closure of the absorbing region. Within the extent a cell of the result is `outside` exactly
when it was `outside` in the grid or was a wildcard joined to an `outside` cell by a chain of
4-adjacent wildcards; every other cell keeps its rule. In the result, no wildcard is adjacent
to an `outside` cell, and none is reachable from one through wildcards. -/
theorem C5_initialize_closes_absorbing_region (g : Grid Cell)
    (hw1 : 1 ≤ g.width) (hw : g.width ≤ 80) (hh1 : 1 ≤ g.height) (hh : g.height ≤ 80) :
    ∃ m, Maze.initialize g = .ok m ∧ m.width = g.width ∧ m.height = g.height ∧
      (∀ v, v.inExtent g.width g.height →
        (m.at v = .ok Cell.outside ↔ (g.at v = .ok Cell.outside ∨ Maze.wildReach g v)) ∧
        (m.at v ≠ .ok Cell.outside → m.at v = g.at v)) ∧
      (∀ u v, u.inExtent g.width g.height → v.inExtent g.width g.height → u.adjacent4 v →
        m.at u = .ok Cell.outside → m.at v ≠ .ok Cell.every) ∧
      (∀ v, ¬ Maze.wildReach m v) := by
  obtain ⟨m, vis, hm, ⟨hdw, hdh, hframe, hsound, _, _⟩, hwork⟩ :=
    initialize_spec g hw1 hw hh1 hh
  have hclosed : ∀ u v, u.inExtent g.width g.height → v.inExtent g.width g.height →
      u.adjacent4 v → m.at u = .ok Cell.outside → m.at v ≠ .ok Cell.every := by
    intro u v hu hv hadj hout
    rcases hwork u hu hout with h | h
    · simp at h
    · rcases h v ((mem_adjacents_iff u v _ _ (by omega) (by omega) hu).2 ⟨hv, hadj⟩) with h2 | h2
      · exact h2
      · simp at h2
  have hkeepOut : ∀ v, g.at v = .ok Cell.outside → m.at v = .ok Cell.outside := by
    intro v hv
    obtain ⟨hlt, hgv⟩ := (at_eq_ok_iff _ _ _).1 hv
    rw [at_eq_ok _ _ hlt]
    rcases hframe v.pack with h | h
    · rw [h, hgv]
    · rw [h.2]
  have hwild : ∀ v, g.at v = .ok Cell.every →
      m.at v = .ok Cell.every ∨ m.at v = .ok Cell.outside := by
    intro v hv
    obtain ⟨hlt, hgv⟩ := (at_eq_ok_iff _ _ _).1 hv
    rw [at_eq_ok _ _ hlt]
    rcases hframe v.pack with h | h
    · left; rw [h, hgv]
    · right; rw [h.2]
  have hcomplete : ∀ v, Maze.wildReach g v →
      v.inExtent g.width g.height ∧ m.at v = .ok Cell.outside := by
    intro v hr
    induction hr with
    | base u v hu hv hadj hout hev =>
      refine ⟨hv, ?_⟩
      rcases hwild v hev with h | h
      · exact absurd h (hclosed u v hu hv hadj (hkeepOut u hout))
      · exact h
    | step u v _ hv hadj hev ih =>
      refine ⟨hv, ?_⟩
      rcases hwild v hev with h | h
      · exact absurd h (hclosed u v ih.1 hv hadj ih.2)
      · exact h
  refine ⟨m, hm, hdw, hdh, ?_, hclosed, ?_⟩
  · intro v hv
    refine ⟨⟨hsound v hv, ?_⟩, ?_⟩
    · rintro (h | h)
      · exact hkeepOut v h
      · exact (hcomplete v h).2
    · intro hne
      have hlt := pack_lt_of_inExtent v _ _ hw hh hv
      rw [at_eq_ok _ _ hlt] at hne ⊢
      rw [at_eq_ok _ _ hlt]
      rcases hframe v.pack with h | h
      · rw [h]
      · rw [h.2] at hne
        exact absurd rfl hne
  · intro v hr
    induction hr with
    | base u v hu hv hadj hout hev =>
      rw [hdw, hdh] at hu hv
      exact hclosed u v hu hv hadj hout hev
    | step u v _ _ _ _ ih => exact ih

theorem C5_initialize_closes_absorbing_region_witness :
    ∃ m, Maze.initialize sampleFill = .ok m ∧ m.width = sampleFill.width ∧
      m.height = sampleFill.height ∧
      (∀ v, v.inExtent sampleFill.width sampleFill.height →
        (m.at v = .ok Cell.outside ↔
          (sampleFill.at v = .ok Cell.outside ∨ Maze.wildReach sampleFill v)) ∧
        (m.at v ≠ .ok Cell.outside → m.at v = sampleFill.at v)) ∧
      (∀ u v, u.inExtent sampleFill.width sampleFill.height →
        v.inExtent sampleFill.width sampleFill.height → u.adjacent4 v →
        m.at u = .ok Cell.outside → m.at v ≠ .ok Cell.every) ∧
      (∀ v, ¬ Maze.wildReach m v) :=
  C5_initialize_closes_absorbing_region sampleFill (by decide) (by decide) (by decide)
    (by decide)

/-! ## The bound of the grid iterator is never reached -/

theorem collect_total (w h : Nat) (hw1 : 1 ≤ w) (hw : w < 256) (hh : h < 256) :
    ∀ n x y, x < w → y < h → w * (h - y) - x ≤ n →
      ∃ l, GridIterator.collect n ⟨w, h, ⟨x, y⟩⟩ = .ok l := by
  intro n
  induction n with
  | zero =>
    intro x y hx hy hm
    have h1 : w * 1 ≤ w * (h - y) := Nat.mul_le_mul_left w (by omega)
    omega
  | succ n ih =>
    intro x y hx hy hm
    rw [GridIterator.collect]
    split_ifs with hend
    · exact ⟨[], rfl⟩
    · have hx1 : (x + 1) % 256 = x + 1 := Nat.mod_eq_of_lt (by omega)
      have hmul : w * (h - y) = w * (h - (y + 1)) + w := by
        have : h - y = (h - (y + 1)) + 1 := by omega
        rw [this, Nat.mul_add, Nat.mul_one]
      rcases Nat.lt_or_ge (x + 1) w with hlt | hge
      · have hnext : GridIterator.next ⟨w, h, ⟨x, y⟩⟩ = .ok ⟨w, h, ⟨x + 1, y⟩⟩ := by
          simp only [GridIterator.next, hx1, Nat.div_eq_of_lt hlt, Nat.mod_eq_of_lt hlt,
            Nat.add_zero]
          rw [if_neg (by omega), Nat.mod_eq_of_lt (by omega : y < 256), if_neg (by omega)]
        obtain ⟨l, hl⟩ := ih (x + 1) y hlt hy (by omega)
        rw [hnext]
        simp only [bind, Except.bind, hl]
        exact ⟨_, rfl⟩
      · have hxw : x + 1 = w := by omega
        have hdiv : (x + 1) / w = 1 := by rw [hxw]; exact Nat.div_self (by omega)
        have hmod : (x + 1) % w = 0 := by rw [hxw]; exact Nat.mod_self w
        have hnext : GridIterator.next ⟨w, h, ⟨x, y⟩⟩ =
            .ok (if y + 1 ≥ h then GridIterator.end_ w h else ⟨w, h, ⟨0, y + 1⟩⟩) := by
          simp only [GridIterator.next, hx1, hdiv, hmod]
          rw [if_neg (by omega), Nat.mod_eq_of_lt (by omega : y + 1 < 256)]
          split_ifs <;> rfl
        rw [hnext]
        by_cases hlast : y + 1 ≥ h
        · rw [if_pos hlast]
          simp only [bind, Except.bind, collect_end]
          exact ⟨_, rfl⟩
        · rw [if_neg hlast]
          obtain ⟨l, hl⟩ := ih 0 (y + 1) (by omega) (by omega) (by omega)
          simp only [bind, Except.bind, hl]
          exact ⟨_, rfl⟩

theorem gridVertices_total (w h : Nat) (hw1 : 1 ≤ w) (hw : w < 256) (hh : h < 256) :
    ∃ l, gridVertices w h = .ok l := by
  rcases Nat.eq_zero_or_pos h with h0 | hpos
  · subst h0
    refine ⟨[⟨0, 0⟩], ?_⟩
    have hne : GridIterator.begin w 0 ≠ GridIterator.end_ w 0 := by
      rw [end_eq]; intro hc
      simp only [GridIterator.begin, GridIterator.mk.injEq, true_and] at hc
      revert hc; decide
    have hnext : (GridIterator.begin w 0).next = .ok (GridIterator.end_ w 0) := by
      simp only [GridIterator.next, GridIterator.begin]
      rw [if_neg (by omega), if_pos (by omega)]
    have : (255 * 255 : Nat) = 65024 + 1 := by norm_num
    rw [gridVertices, this, GridIterator.collect]
    simp only [GridIterator.begin] at hne hnext ⊢
    rw [if_neg hne, hnext]
    simp only [bind, Except.bind, collect_end]
    rfl
  · have hle : w * h ≤ 255 * 255 := Nat.mul_le_mul (by omega) (by omega)
    have := collect_total w h hw1 hw hh (255 * 255) 0 0 (by omega) hpos (by simpa using hle)
    exact this

/-! ## Sample runs -/

set_option maxRecDepth 100000 in
/-- Three rounds of the main loop on the row `".UU.U."` with budget 2: the two turn cells next
to each other are changed to straight cells, which opens a path between the outside cells. -/
theorem sampleCorridor_three_rounds :
    (buildMaze sampleCorridorRows >>= fun m =>
      improveLoop m 2 10 3 ⟨m⟩ 0 sampleEven >>= fun x =>
        x.1.fixes m >>= formatFixes) = .ok ["0 1 S", "0 2 S"] := by
  decide!

set_option maxRecDepth 100000 in
/-- With budget 1 the same proposal is discarded. -/
theorem sampleCorridor_over_budget :
    (buildMaze sampleCorridorRows >>= fun m =>
      improveLoop m 1 10 3 ⟨m⟩ 0 sampleEven >>= fun x =>
        x.1.fixes m >>= formatFixes) = .ok [] := by
  decide!

/-- The flood fill on `sampleFill`: the two wildcards of the first row become `outside`, the
wildcard of the second row stays. -/
theorem sampleFill_cells :
    ( Maze.initialize sampleFill >>= fun m => (rowMajor 3 2).mapM m.at) =
      .ok [Cell.outside, Cell.outside, Cell.straight, Cell.outside, Cell.right, Cell.every] := by
  decide

/-! ## Moves and transitions -/

theorem moveRaw_toNat (v : Vertex) (d : Direction) : v.moveRaw d.toNat = .ok (v.move d) := by
  cases d <;> rfl

/-- Claim C16, refuted as stated: the vertex `(0,0)` moved up is the vertex `(0,255)` and moved
left is the vertex `(255,0)`; `Vertex::move` returns them and reports no error. -/
theorem C16_move_wraps_counterexample :
    (Vertex.mk 0 0).moveRaw Direction.up.toNat = .ok ⟨0, 255⟩ ∧
      (Vertex.mk 0 0).moveRaw Direction.left.toNat = .ok ⟨255, 0⟩ := by
  decide

/-- Claim C16, amended: `Vertex::move` never fails for the four directions, it returns a vertex
in every case; a coordinate that would become negative wraps around to 255 (`y = 0` moved up
gives `y = 255`, `x = 0` moved left gives `x = 255`). Only a value that is none of the four
directions reaches the `throw`. -/
theorem C16_move_never_fails (v : Vertex) (hv : v.valid) :
    (∀ d : Direction, v.moveRaw d.toNat = .ok (v.move d)) ∧
      (v.y = 0 → v.move Direction.up = ⟨v.x, 255⟩) ∧
      (v.x = 0 → v.move Direction.left = ⟨255, v.y⟩) ∧
      (∀ n, 4 ≤ n → v.moveRaw n = .error .logicError) := by
  obtain ⟨x, y⟩ := v
  obtain ⟨hx, hy⟩ := hv
  simp only at hx hy
  refine ⟨fun d => moveRaw_toNat _ d, ?_, ?_, ?_⟩
  · intro h0
    simp only at h0
    subst h0
    simp only [Vertex.move, Vertex.make, u8, Vertex.mk.injEq]
    omega
  · intro h0
    simp only at h0
    subst h0
    simp only [Vertex.move, Vertex.make, u8, Vertex.mk.injEq]
    omega
  · intro n hn
    simp only [Vertex.moveRaw]
    rw [if_neg (by omega), if_neg (by omega), if_neg (by omega), if_neg (by omega)]

theorem C16_move_never_fails_witness :
    (∀ d : Direction, (Vertex.mk 0 0).moveRaw d.toNat = .ok ((Vertex.mk 0 0).move d)) ∧
      ((Vertex.mk 0 0).y = 0 → (Vertex.mk 0 0).move Direction.up = ⟨(Vertex.mk 0 0).x, 255⟩) ∧
      ((Vertex.mk 0 0).x = 0 →
        (Vertex.mk 0 0).move Direction.left = ⟨255, (Vertex.mk 0 0).y⟩) ∧
      (∀ n, 4 ≤ n → (Vertex.mk 0 0).moveRaw n = .error .logicError) :=
  C16_move_never_fails ⟨0, 0⟩ (by decide)

theorem direction_reverse (v0 v1 : Vertex) (h0 : v0.valid) (h1 : v1.valid) (d : Direction)
    (h : v0.direction v1 = .ok d) :
    v1.direction v0 = .ok d.opposite ∧ v0.move d = v1 ∧ v1.move d.opposite = v0 := by
  obtain ⟨x0, y0⟩ := v0
  obtain ⟨x1, y1⟩ := v1
  obtain ⟨hx0, hy0⟩ := h0
  obtain ⟨hx1, hy1⟩ := h1
  simp only at hx0 hy0 hx1 hy1
  simp only [Vertex.direction] at h
  split_ifs at h with c1 c2 c3 c4 <;> cases h <;>
    simp only [Vertex.direction, Vertex.move, Vertex.make, u8, Direction.opposite,
      Vertex.mk.injEq] <;>
    refine ⟨?_, ?_, ?_⟩ <;> first | omega | (split_ifs <;> first | rfl | omega)

theorem direction_of_move (v1 : Vertex) (h1 : v1.valid) (d : Direction)
    (hadj : v1.adjacent4 (v1.move d)) : v1.direction (v1.move d) = .ok d := by
  obtain ⟨e, he, _, huniq⟩ := direction_move_of_adjacent4 v1 (v1.move d) h1.1 h1.2
    (move_valid v1 d).1 (move_valid v1 d).2 hadj
  rw [he, huniq d rfl]

theorem cast_forward_opposite (d0 : Direction) (c : Cell) (hc : c.isFixed = true) :
    Direction.cast ((4 + (Direction.cast ((d0.toNat + c.toNat) % 4)).opposite.toNat -
      c.toNat) % 4) = d0.opposite := by
  cases d0 <;> cases c <;> first | rfl | simp [Cell.isFixed] at hc

theorem cast_backward_opposite (d0 : Direction) (c : Cell) (hc : c.isFixed = true) :
    Direction.cast (((Direction.cast ((4 + d0.toNat - c.toNat) % 4)).opposite.toNat +
      c.toNat) % 4) = d0.opposite := by
  cases d0 <;> cases c <;> first | rfl | simp [Cell.isFixed] at hc

theorem fixedAt_isFixed (m : Maze) (v : Vertex) (c : Cell) (hc : m.at v = .ok c)
    (hfix : m.fixedAt v) : c.isFixed = true ∧ ¬(c = Cell.every ∨ c = Cell.outside) := by
  obtain ⟨c1, hc1, h1, h2⟩ := hfix
  rw [hc] at hc1
  cases hc1
  refine ⟨?_, ?_⟩
  · cases c <;> simp_all [Cell.isFixed]
  · rintro (h | h)
    · exact h1 h
    · exact h2 h

theorem forward_eq (m : Maze) (v0 v1 : Vertex) (d0 : Direction) (hfix : m.fixedAt v1)
    (hd : v0.direction v1 = .ok d0) :
    ∃ c, m.at v1 = .ok c ∧ c.isFixed = true ∧
      m.forward v0 v1 = .ok (v1.move (Direction.cast ((d0.toNat + c.toNat) % 4))) := by
  obtain ⟨c, hc, h1, h2⟩ := hfix
  have hf := fixedAt_isFixed m v1 c hc ⟨c, hc, h1, h2⟩
  refine ⟨c, hc, hf.1, ?_⟩
  simp only [Maze.forward, hc, hd, bind, Except.bind, if_neg hf.2]
  rfl

theorem backward_eq (m : Maze) (v0 v1 : Vertex) (d0 : Direction) (hfix : m.fixedAt v1)
    (hd : v0.direction v1 = .ok d0) :
    ∃ c, m.at v1 = .ok c ∧ c.isFixed = true ∧
      m.backward v0 v1 = .ok (v1.move (Direction.cast ((4 + d0.toNat - c.toNat) % 4))) := by
  obtain ⟨c, hc, h1, h2⟩ := hfix
  have hf := fixedAt_isFixed m v1 c hc ⟨c, hc, h1, h2⟩
  refine ⟨c, hc, hf.1, ?_⟩
  simp only [Maze.backward, hc, hd, bind, Except.bind, if_neg hf.2]
  rfl

theorem direction_of_adjacent4 (v0 v1 : Vertex) (h0 : v0.valid) (h1 : v1.valid)
    (hadj : v0.adjacent4 v1) : ∃ d, v0.direction v1 = .ok d := by
  obtain ⟨d, hd, _⟩ := direction_move_of_adjacent4 v0 v1 h0.1 h0.2 h1.1 h1.2 hadj
  exact ⟨d, hd⟩

theorem backward_of_forward (m : Maze) (v0 v1 : Vertex) (h0 : v0.valid) (h1 : v1.valid)
    (hadj : v0.adjacent4 v1) (hfix : m.fixedAt v1) :
    ∃ v2, m.forward v0 v1 = .ok v2 ∧ (v1.adjacent4 v2 → m.backward v2 v1 = .ok v0) := by
  obtain ⟨d0, hd0⟩ := direction_of_adjacent4 v0 v1 h0 h1 hadj
  obtain ⟨c, hc, hcf, hf⟩ := forward_eq m v0 v1 d0 hfix hd0
  refine ⟨_, hf, ?_⟩
  intro hnw
  have he := direction_of_move v1 h1 _ hnw
  have hrev := (direction_reverse v1 _ h1 (move_valid _ _) _ he).1
  obtain ⟨c1, hc1, _, hb⟩ := backward_eq m _ v1 _ hfix hrev
  rw [hc] at hc1
  cases hc1
  rw [hb, cast_forward_opposite d0 c hcf, (direction_reverse v0 v1 h0 h1 d0 hd0).2.2]

theorem forward_of_backward (m : Maze) (v0 v1 : Vertex) (h0 : v0.valid) (h1 : v1.valid)
    (hadj : v0.adjacent4 v1) (hfix : m.fixedAt v1) :
    ∃ v2, m.backward v0 v1 = .ok v2 ∧ (v1.adjacent4 v2 → m.forward v2 v1 = .ok v0) := by
  obtain ⟨d0, hd0⟩ := direction_of_adjacent4 v0 v1 h0 h1 hadj
  obtain ⟨c, hc, hcf, hf⟩ := backward_eq m v0 v1 d0 hfix hd0
  refine ⟨_, hf, ?_⟩
  intro hnw
  have he := direction_of_move v1 h1 _ hnw
  have hrev := (direction_reverse v1 _ h1 (move_valid _ _) _ he).1
  obtain ⟨c1, hc1, _, hb⟩ := forward_eq m _ v1 _ hfix hrev
  rw [hc] at hc1
  cases hc1
  rw [hb, cast_backward_opposite d0 c hcf, (direction_reverse v0 v1 h0 h1 d0 hd0).2.2]

theorem backward_ok_fixedAt (m : Maze) (a b c : Vertex) (h : m.backward a b = .ok c) :
    m.fixedAt b := by
  simp only [Maze.backward, bind_eq_ok] at h
  obtain ⟨cell, hcell, h⟩ := h
  split_ifs at h with hun
  refine ⟨cell, hcell, ?_, ?_⟩
  · intro hh; exact hun (Or.inl hh)
  · intro hh; exact hun (Or.inr hh)

theorem adjacent4_symm (a b : Vertex) (h : a.adjacent4 b) : b.adjacent4 a := by
  unfold Vertex.adjacent4 at h ⊢
  omega

theorem reverse_follows_forward (m : Maze) (p : Path) (hb : p.follows m.backward)
    (hs : p.stepwise) (hv : ∀ v ∈ p, v.valid) : Path.follows m.forward p.reverse := by
  intro i a b c ha hb1 hc
  have hlen : i + 2 < p.reverse.length := by
    by_contra hcon
    rw [List.getElem?_eq_none (by omega)] at hc
    cases hc
  rw [List.length_reverse] at hlen
  rw [List.getElem?_reverse (by omega)] at ha hb1 hc
  have e1 : p.length - 1 - (i + 1) = (p.length - 1 - (i + 2)) + 1 := by omega
  have e2 : p.length - 1 - i = (p.length - 1 - (i + 2)) + 2 := by omega
  rw [e1] at hb1
  rw [e2] at ha
  have hback := hb _ c b a hc hb1 ha
  have hcb := hs _ c b hc hb1
  have hba := hs _ b a hb1 (by rw [Nat.add_assoc]; exact ha)
  have hvc := hv c (List.getElem?_mem hc)
  have hvb := hv b (List.getElem?_mem hb1)
  obtain ⟨v2, hv2, himp⟩ := forward_of_backward m c b hvc hvb hcb
    (backward_ok_fixedAt m c b a hback)
  rw [hback] at hv2
  cases hv2
  exact himp hba

/-- Claim C11, refuted as stated: in the maze `sampleStraight` the vertex `(2,0)` carries a
fixed rule and is adjacent to `(1,0)`; `forward((1,0),(2,0))` is `(3,0)` and
`backward((2,0),(3,0))` is `(4,0)`, not `(1,0)`. -/
theorem C11_backward_argument_order_counterexample :
    (Vertex.mk 1 0).adjacent4 ⟨2, 0⟩ ∧ sampleStraight.at ⟨2, 0⟩ = .ok Cell.straight ∧
      sampleStraight.forward ⟨1, 0⟩ ⟨2, 0⟩ = .ok ⟨3, 0⟩ ∧
      sampleStraight.backward ⟨2, 0⟩ ⟨3, 0⟩ = .ok ⟨4, 0⟩ ∧
      sampleStraight.backward ⟨2, 0⟩ ⟨3, 0⟩ ≠ .ok ⟨1, 0⟩ := by
  decide

/-- Claim C11, amended: for every maze and all 4-adjacent vertices `v0`, `v1` such that the
rule of `v1` is fixed, `forward(v0, v1)` returns a vertex `v2`, and when `v2` is a 4-neighbour
of `v1` (the move did not wrap around) `backward(v2, v1) == v0`: backward applied to the pair
`(forward(v0, v1), v1)` recovers `v0`. -/
theorem C11_backward_inverts_forward (m : Maze) (v0 v1 : Vertex) (h0 : v0.valid)
    (h1 : v1.valid) (hadj : v0.adjacent4 v1) (hfix : m.fixedAt v1) :
    ∃ v2, m.forward v0 v1 = .ok v2 ∧ (v1.adjacent4 v2 → m.backward v2 v1 = .ok v0) :=
  backward_of_forward m v0 v1 h0 h1 hadj hfix

theorem C11_backward_inverts_forward_witness :
    ∃ v2, sampleStraight.forward ⟨1, 0⟩ ⟨2, 0⟩ = .ok v2 ∧
      ((Vertex.mk 2 0).adjacent4 v2 → sampleStraight.backward v2 ⟨2, 0⟩ = .ok ⟨1, 0⟩) :=
  C11_backward_inverts_forward sampleStraight ⟨1, 0⟩ ⟨2, 0⟩ (by decide) (by decide)
    (by decide) ⟨Cell.straight, by decide, by decide, by decide⟩

/-- Claim C17: for every maze and 4-adjacent vertices `v0`, `v1` with a fixed rule at `v1`:
if `v2 = forward(v0, v1)` is a 4-neighbour of `v1` (no wrap-around) then
`backward(v2, v1) == v0`, and if `v2 = backward(v0, v1)` is a 4-neighbour of `v1` then
`forward(v2, v1) == v0`. Hence the reverse of a path that backward steps follow, whose
consecutive vertices are 4-adjacent, is a path that forward steps follow. -/
theorem C17_forward_backward_inverse (m : Maze) (v0 v1 : Vertex) (h0 : v0.valid)
    (h1 : v1.valid) (hadj : v0.adjacent4 v1) (hfix : m.fixedAt v1) :
    (∃ v2, m.forward v0 v1 = .ok v2 ∧ (v1.adjacent4 v2 → m.backward v2 v1 = .ok v0)) ∧
      (∃ v2, m.backward v0 v1 = .ok v2 ∧ (v1.adjacent4 v2 → m.forward v2 v1 = .ok v0)) ∧
      (∀ p : Path, Path.follows m.backward p → p.stepwise → (∀ v ∈ p, v.valid) →
        Path.follows m.forward p.reverse) :=
  ⟨backward_of_forward m v0 v1 h0 h1 hadj hfix, forward_of_backward m v0 v1 h0 h1 hadj hfix,
    fun p hb hs hv => reverse_follows_forward m p hb hs hv⟩

theorem C17_forward_backward_inverse_witness :
    (∃ v2, sampleStraight.forward ⟨1, 0⟩ ⟨2, 0⟩ = .ok v2 ∧
        ((Vertex.mk 2 0).adjacent4 v2 → sampleStraight.backward v2 ⟨2, 0⟩ = .ok ⟨1, 0⟩)) ∧
      (∃ v2, sampleStraight.backward ⟨1, 0⟩ ⟨2, 0⟩ = .ok v2 ∧
        ((Vertex.mk 2 0).adjacent4 v2 → sampleStraight.forward v2 ⟨2, 0⟩ = .ok ⟨1, 0⟩)) ∧
      (∀ p : Path, Path.follows sampleStraight.backward p → p.stepwise →
        (∀ v ∈ p, v.valid) → Path.follows sampleStraight.forward p.reverse) :=
  C17_forward_backward_inverse sampleStraight ⟨1, 0⟩ ⟨2, 0⟩ (by decide) (by decide)
    (by decide) ⟨Cell.straight, by decide, by decide, by decide⟩

/-! ## A grid without unresolved cells -/

theorem searchVertices_fixed (m : Maze) (next : Maze → Vertex → Vertex → Except Err Vertex)
    (complete : Bool) (fuel : Nat) :
    ∀ vs, (∀ v ∈ vs, m.fixedAt v) → Maze.searchVertices m next complete fuel vs = .ok [] := by
  intro vs
  induction vs with
  | nil => intro _; rfl
  | cons e rest ih =>
    intro hall
    obtain ⟨c, hc, h1, h2⟩ := hall e (List.mem_cons_self _ _)
    rw [Maze.searchVertices, hc]
    simp only [bind, Except.bind]
    rw [if_pos ⟨h1, h2⟩]
    exact ih (fun u hu => hall u (List.mem_cons_of_mem _ hu))

theorem calculateEnergy_of_no_paths (s : State) (fuel : Nat)
    (hw1 : 1 ≤ s.maze_.width) (hw : s.maze_.width ≤ 80)
    (hh1 : 1 ≤ s.maze_.height) (hh : s.maze_.height ≤ 80)
    (hsearch : s.maze_.searchComplete fuel = .ok []) : s.calculateEnergy fuel = .ok 0 := by
  have hvs : gridVertices s.maze_.width s.maze_.height =
      .ok (rowMajor s.maze_.width s.maze_.height) := gridVertices_eq _ _ hw1 hw hh1 hh
  simp only [State.calculateEnergy, hsearch, bind, Except.bind, State.markContributingAll,
    Grid.vertices, Grid.fill, hvs]
  rw [sumEnergy_ok]
  · simp
  · intro v hv
    exact pack_lt_of_inExtent v _ _ hw hh ((rowMajor_mem _ _ v).1 hv)

theorem sampleLoop_nil (trailings : List Path) (fuel : Nat) (r : Rng) :
    State.sampleLoop [] trailings fuel r =
      .error (if fuel = 0 then Err.fuel else Err.emptyRange) := by
  cases fuel with
  | zero => rfl
  | succ n => rfl

theorem improveLoop_propose_error (maze : Maze) (max_fixing fuel : Nat) (e : Err)
    (s : State) (hprop : ∀ r, s.propose maze fuel r = .error e) :
    ∀ n energy r, improveLoop maze max_fixing fuel (n + 1) s energy r = .error e := by
  intro n energy r
  rw [improveLoop, hprop r]
  rfl

theorem sampleSquare_built :
    (buildMaze sampleSquareRows).map
      (fun m => (m.width, m.height, m.grid 0, m.grid 1, m.grid 80, m.grid 81)) =
      .ok (2, 2, Cell.right, Cell.right, Cell.right, Cell.right) := by
  decide

/-- Claim C12, the code at the failing input: on the rows `"RR"`, `"RR"` the searches find no
wildcard or outside cell to start from, `searchLeading` is empty, and the first round draws
from the empty range `uniform_int_distribution<>(0, -1)`, which is undefined behaviour;
`improve` does not return a list, for any budget and any generator. -/
theorem C12_closed_square_draws_from_empty_range (max_fixing fuel : Nat) (r : Rng) :
    improve sampleSquareRows max_fixing fuel r =
      .error (if fuel = 0 then Err.fuel else Err.emptyRange) := by
  have hb := sampleSquare_built
  cases hm : buildMaze sampleSquareRows with
  | error e => rw [hm] at hb; simp [Except.map] at hb
  | ok m =>
    rw [hm] at hb
    simp only [Except.map, Except.ok.injEq, Prod.mk.injEq] at hb
    obtain ⟨hw, hh, g0, g1, g80, g81⟩ := hb
    have hvs : m.vertices = .ok (rowMajor 2 2) := by
      rw [Grid.vertices, hw, hh]
      exact gridVertices_eq 2 2 (by omega) (by omega) (by omega) (by omega)
    have hfixed : ∀ v ∈ rowMajor 2 2, m.fixedAt v := by
      intro v hv
      have hv2 : v = ⟨0, 0⟩ ∨ v = ⟨1, 0⟩ ∨ v = ⟨0, 1⟩ ∨ v = ⟨1, 1⟩ := by
        have : rowMajor 2 2 = [⟨0, 0⟩, ⟨1, 0⟩, ⟨0, 1⟩, ⟨1, 1⟩] := by decide
        rw [this] at hv
        simpa using hv
      rw [fixedAt_iff]
      rcases hv2 with h | h | h | h <;> subst h
      · exact ⟨by decide, by rw [show (Vertex.mk 0 0).pack = 0 from rfl, g0]; rfl⟩
      · exact ⟨by decide, by rw [show (Vertex.mk 1 0).pack = 1 from rfl, g1]; rfl⟩
      · exact ⟨by decide, by rw [show (Vertex.mk 0 1).pack = 80 from rfl, g80]; rfl⟩
      · exact ⟨by decide, by rw [show (Vertex.mk 1 1).pack = 81 from rfl, g81]; rfl⟩
    have hsearch : ∀ next complete, m.search next complete fuel = .ok [] := by
      intro next complete
      rw [Maze.search, hvs]
      exact searchVertices_fixed m next complete fuel _ hfixed
    have henergy : (State.mk m).calculateEnergy fuel = .ok 0 :=
      calculateEnergy_of_no_paths ⟨m⟩ fuel (by simp [hw]) (by simp [hw]) (by simp [hh])
        (by simp [hh]) (hsearch _ _)
    have hprop : ∀ r1, (State.mk m).propose m fuel r1 =
        .error (if fuel = 0 then Err.fuel else Err.emptyRange) := by
      intro r1
      simp only [State.propose, State.sampleSubpathPair, Maze.searchLeading,
        Maze.searchTrailing, hsearch, bind, Except.bind, sampleLoop_nil]
    simp only [improve, improveFixes, improveState, hm, henergy, bind, Except.bind]
    rw [improveLoop_propose_error m max_fixing fuel _ ⟨m⟩ hprop 499 0 r]

/-! ## Proposals and the unresolved cells of the extent -/

theorem propose_steps (s s1 : State) (original : Maze) (fuel : Nat) (r r1 : Rng)
    (h : s.propose original fuel r = .ok (s1, r1)) :
    ∃ s2 : State, s.maze_.keepsShape s2.maze_ ∧
      ∀ i, s1.maze_.grid i = s2.maze_.grid i ∨ s1.maze_.grid i = original.grid i := by
  simp only [State.propose, bind_eq_ok] at h
  obtain ⟨⟨⟨leading, trailing⟩, r2⟩, hsample, ⟨s2, r3⟩, hconn, s3, hclean, h⟩ := h
  simp only [pure_eq_ok, Prod.mk.injEq] at h
  obtain ⟨rfl, _⟩ := h
  obtain ⟨hl, ht⟩ := sampleSubpathPair_queued s fuel r r2 leading trailing hsample
  have hk := connectSubpathPair_keepsShape s s2 leading trailing fuel r2 r3 hl ht hconn
  simp only [State.clean, bind_eq_ok, pure_eq_ok] at hclean
  obtain ⟨paths, _, contr1, _, vs, _, m1, hm1, rfl⟩ := hclean
  exact ⟨s2, hk, (resetLoop_spec _ _ _ _ _ hm1).2.2⟩

theorem unresolvedAt_iff (m : Maze) (v : Vertex) :
    m.unresolvedAt v ↔ v.pack < kGridSize ∧ (m.grid v.pack).isFixed = false := by
  constructor
  · rintro ⟨c, hc, hun⟩
    obtain ⟨hlt, hg⟩ := (at_eq_ok_iff _ _ _).1 hc
    refine ⟨hlt, ?_⟩
    rw [hg]
    rcases hun with h | h <;> subst h <;> rfl
  · rintro ⟨hlt, hf⟩
    refine ⟨m.grid v.pack, at_eq_ok _ _ hlt, ?_⟩
    cases hc : m.grid v.pack <;> rw [hc] at hf <;> simp [Cell.isFixed] at hf ⊢

theorem propose_agreesOnExtent (original : Maze) (s s1 : State) (fuel : Nat) (r r1 : Rng)
    (hP : original.agreesOnExtent s.maze_) (h : s.propose original fuel r = .ok (s1, r1)) :
    original.agreesOnExtent s1.maze_ := by
  obtain ⟨s2, hk, hreset⟩ := propose_steps s s1 original fuel r r1 h
  intro v hv
  obtain ⟨hu, hf⟩ := hP v hv
  constructor
  · intro hun
    have hlt := ((unresolvedAt_iff _ _).1 hun).1
    have hnf := ((unresolvedAt_iff _ _).1 hun).2
    have hs := hu hun
    rw [at_eq_ok _ _ hlt, at_eq_ok _ _ hlt] at hs
    have hsg : s.maze_.grid v.pack = original.grid v.pack := Except.ok.inj hs
    have h2 := hk.2.2 v.pack
    rw [hsg, if_neg (by rw [hnf]; simp)] at h2
    rw [at_eq_ok _ _ hlt, at_eq_ok _ _ hlt]
    rcases hreset v.pack with h3 | h3
    · rw [h3, h2]
    · rw [h3]
  · intro hfx
    have hsf := hf hfx
    have h2f := keepsShape_fixedAt _ _ hk v hsf
    rw [fixedAt_iff] at hfx h2f ⊢
    refine ⟨hfx.1, ?_⟩
    rcases hreset v.pack with h3 | h3
    · rw [h3]; exact h2f.2
    · rw [h3]; exact hfx.2

/-- Claim C19: for every reference maze and every state that agrees with it on every wildcard
and outside cell of the extent and has a fixed rule wherever the reference maze has one (in
particular `State(original)`), the state returned by `propose` has the same property, so
`propose` never assigns a rule to a wildcard or absorbing cell; and every fix that `improve`
reports lies at a vertex whose rule in the reference maze is straight, right, turn or left.
The border of the maze plays no part. -/
theorem C19_propose_keeps_unresolved_cells (original : Maze) (s s1 : State) (fuel : Nat)
    (r r1 : Rng) (hP : original.agreesOnExtent s.maze_)
    (h : s.propose original fuel r = .ok (s1, r1)) :
    original.agreesOnExtent s1.maze_ ∧ original.agreesOnExtent (State.mk original).maze_ ∧
      ∀ cells max_fixing fuel1 r2 fs, improveFixes cells max_fixing fuel1 r2 = .ok fs →
        ∃ maze, buildMaze cells = .ok maze ∧ ∀ f ∈ fs, maze.fixedAt f.1 := by
  refine ⟨propose_agreesOnExtent original s s1 fuel r r1 hP h, ?_, ?_⟩
  · intro v _
    exact ⟨fun _ => rfl, fun hf => hf⟩
  · intro cells max_fixing fuel1 r2 fs hfs
    simp only [improveFixes, improveState, bind_eq_ok, pure_eq_ok] at hfs
    obtain ⟨⟨maze1, final1⟩, ⟨maze, hmaze, e0, he0, ⟨final, ef, rf⟩, hloop, heq⟩, hfix⟩ := hfs
    simp only [Prod.mk.injEq] at heq
    obtain ⟨rfl, rfl⟩ := heq
    have hinv : maze.keepsShape final.maze_ := by
      apply improveLoop_invariant maze max_fixing fuel1 (fun s _ => maze.keepsShape s.maze_) _
        500 ⟨maze⟩ e0 r2 final ef rf (keepsShape_refl maze) hloop
      intro s e r3 ns r4 ne nf hQ hprop _ _ _ _
      exact propose_keepsShape s ns maze fuel1 r3 r4 hQ hprop
    refine ⟨maze, hmaze, ?_⟩
    intro f hf
    obtain ⟨hat, _, hne⟩ := fixes_mem final maze fs hfix f hf
    rw [fixedAt_iff]
    exact ⟨((at_eq_ok_iff _ _ _).1 hat).1, (keepsShape_differs maze final.maze_ hinv f.1.pack hne).1⟩

theorem C19_propose_keeps_unresolved_cells_witness :
    ∃ (s1 : State) (r1 : Rng),
      (State.mk samplePair).propose samplePair 10 sampleCounter = .ok (s1, r1) ∧
      samplePair.agreesOnExtent s1.maze_ := by
  have h := samplePair_propose
  rw [bind_eq_ok] at h
  obtain ⟨⟨s1, r1⟩, hp, _⟩ := h
  exact ⟨s1, r1, hp,
    (C19_propose_keeps_unresolved_cells samplePair ⟨samplePair⟩ s1 10 sampleCounter r1
      (fun _ _ => ⟨fun _ => rfl, fun hf => hf⟩) hp).1⟩

/-! ## The paths of a search and the traces they come from -/

theorem searchAdjacents_mem_iff (m : Maze)
    (next : Maze → Vertex → Vertex → Except Err Vertex) (complete : Bool) (fuel : Nat)
    (end_ : Vertex) :
    ∀ adj paths, Maze.searchAdjacents m next complete fuel end_ adj = .ok paths →
      ∀ p, p ∈ paths ↔ ∃ v1 ∈ adj, m.fixedAt v1 ∧
        m.traceFrom next complete fuel end_ v1 = .ok (some p) := by
  intro adj
  induction adj with
  | nil =>
    intro paths h p
    simp only [Maze.searchAdjacents, Except.ok.injEq] at h
    subst h
    simp
  | cons v1 rest ih =>
    intro paths h p
    rw [Maze.searchAdjacents, bind_eq_ok] at h
    obtain ⟨c, hc, h⟩ := h
    by_cases hun : c = Cell.every ∨ c = Cell.outside
    · rw [if_pos hun] at h
      rw [ih paths h p]
      constructor
      · rintro ⟨v, hv, hrest⟩
        exact ⟨v, List.mem_cons_of_mem _ hv, hrest⟩
      · rintro ⟨v, hv, hfx, htr⟩
        rcases List.mem_cons.1 hv with hh | hh
        · subst hh
          exact absurd hun (fixedAt_isFixed m v c hc hfx).2
        · exact ⟨v, hh, hfx, htr⟩
    · rw [if_neg hun, bind_eq_ok] at h
      obtain ⟨r, hr, h⟩ := h
      rw [bind_eq_ok] at h
      obtain ⟨more, hmore, h⟩ := h
      rw [pure_eq_ok] at h
      subst h
      have hfx1 : m.fixedAt v1 :=
        ⟨c, hc, fun hh => hun (Or.inl hh), fun hh => hun (Or.inr hh)⟩
      rw [List.mem_append, ih more hmore p]
      constructor
      · rintro (hp | ⟨v, hv, hrest⟩)
        · refine ⟨v1, List.mem_cons_self _ _, hfx1, ?_⟩
          cases r with
          | none => simp at hp
          | some q =>
            simp only [Option.toList, List.mem_singleton] at hp
            subst hp
            exact hr
        · exact ⟨v, List.mem_cons_of_mem _ hv, hrest⟩
      · rintro ⟨v, hv, hfx, htr⟩
        rcases List.mem_cons.1 hv with hh | hh
        · subst hh
          left
          unfold Maze.traceFrom at htr
          rw [hr] at htr
          cases htr
          simp
        · exact Or.inr ⟨v, hh, hfx, htr⟩

theorem searchVertices_mem_iff (m : Maze)
    (next : Maze → Vertex → Vertex → Except Err Vertex) (complete : Bool) (fuel : Nat) :
    ∀ vs paths, Maze.searchVertices m next complete fuel vs = .ok paths →
      ∀ p, p ∈ paths ↔ ∃ end_ ∈ vs, m.unresolvedAt end_ ∧
        ∃ v1 ∈ end_.adjacents m.width m.height, m.fixedAt v1 ∧
          m.traceFrom next complete fuel end_ v1 = .ok (some p) := by
  intro vs
  induction vs with
  | nil =>
    intro paths h p
    simp only [Maze.searchVertices, Except.ok.injEq] at h
    subst h
    simp
  | cons e rest ih =>
    intro paths h p
    rw [Maze.searchVertices, bind_eq_ok] at h
    obtain ⟨c, hc, h⟩ := h
    by_cases hfx : c ≠ Cell.every ∧ c ≠ Cell.outside
    · rw [if_pos hfx] at h
      rw [ih paths h p]
      constructor
      · rintro ⟨v, hv, hrest⟩
        exact ⟨v, List.mem_cons_of_mem _ hv, hrest⟩
      · rintro ⟨v, hv, ⟨c1, hc1, hun⟩, hrest⟩
        rcases List.mem_cons.1 hv with hh | hh
        · subst hh
          rw [hc] at hc1
          cases hc1
          rcases hun with h1 | h1
          · exact absurd h1 hfx.1
          · exact absurd h1 hfx.2
        · exact ⟨v, hh, ⟨c1, hc1, hun⟩, hrest⟩
    · rw [if_neg hfx, bind_eq_ok] at h
      obtain ⟨here, hhere, h⟩ := h
      rw [bind_eq_ok] at h
      obtain ⟨more, hmore, h⟩ := h
      rw [pure_eq_ok] at h
      subst h
      have hend : m.unresolvedAt e := by
        refine ⟨c, hc, ?_⟩
        by_cases h1 : c = Cell.every
        · exact Or.inl h1
        · by_cases h2 : c = Cell.outside
          · exact Or.inr h2
          · exact absurd ⟨h1, h2⟩ hfx
      rw [List.mem_append, ih more hmore p, searchAdjacents_mem_iff m next complete fuel e _ here
        hhere p]
      constructor
      · rintro (hp | ⟨v, hv, hrest⟩)
        · exact ⟨e, List.mem_cons_self _ _, hend, hp⟩
        · exact ⟨v, List.mem_cons_of_mem _ hv, hrest⟩
      · rintro ⟨v, hv, hunv, hrest⟩
        rcases List.mem_cons.1 hv with hh | hh
        · subst hh; exact Or.inl hrest
        · exact Or.inr ⟨v, hh, hunv, hrest⟩

theorem search_mem_iff (m : Maze) (next : Maze → Vertex → Vertex → Except Err Vertex)
    (complete : Bool) (fuel : Nat) (paths : List Path)
    (h : m.search next complete fuel = .ok paths) :
    ∃ vs, m.vertices = .ok vs ∧ ∀ p, p ∈ paths ↔ ∃ end_ ∈ vs, m.unresolvedAt end_ ∧
      ∃ v1 ∈ end_.adjacents m.width m.height, m.fixedAt v1 ∧
        m.traceFrom next complete fuel end_ v1 = .ok (some p) := by
  rw [Maze.search, bind_eq_ok] at h
  obtain ⟨vs, hvs, h⟩ := h
  exact ⟨vs, hvs, searchVertices_mem_iff m next complete fuel vs paths h⟩

theorem trace_extends (m : Maze) (next : Maze → Vertex → Vertex → Except Err Vertex)
    (complete : Bool) :
    ∀ n v0 v1 visited sub p, Maze.trace m next complete n v0 v1 visited sub = .ok (some p) →
      ∃ ext, p = sub ++ ext := by
  intro n
  induction n with
  | zero => intro v0 v1 visited sub p h; simp [Maze.trace] at h
  | succ n ih =>
    intro v0 v1 visited sub p h
    rw [Maze.trace, bind_eq_ok] at h
    obtain ⟨v2, _, h⟩ := h
    by_cases hmem : v2 ∈ visited
    · rw [if_pos hmem, pure_eq_ok] at h
      split_ifs at h
      cases h
      exact ⟨[], by simp⟩
    · rw [if_neg hmem, bind_eq_ok] at h
      obtain ⟨c, _, h⟩ := h
      by_cases hun : c = Cell.every ∨ c = Cell.outside
      · rw [if_pos hun, pure_eq_ok] at h
        split_ifs at h
        cases h
        exact ⟨[v2], rfl⟩
      · rw [if_neg hun] at h
        obtain ⟨ext, hext⟩ := ih _ _ _ _ _ h
        exact ⟨v2 :: ext, by rw [hext]; simp⟩

theorem trace_congr (m m1 : Maze) (next : Maze → Vertex → Vertex → Except Err Vertex)
    (hnext : ∀ a b, m1.at b = m.at b → next m1 a b = next m a b) :
    ∀ n v0 v1 visited sub p, Maze.trace m next true n v0 v1 visited sub = .ok (some p) →
      v1 ∈ sub → (∀ u ∈ p, m1.at u = m.at u) →
      Maze.trace m1 next true n v0 v1 visited sub = .ok (some p) := by
  intro n
  induction n with
  | zero => intro v0 v1 visited sub p h; simp [Maze.trace] at h
  | succ n ih =>
    intro v0 v1 visited sub p h hv1 hsame
    obtain ⟨ext0, hext0⟩ := trace_extends m next true _ _ _ _ _ _ h
    have hv1p : v1 ∈ p := by rw [hext0]; exact List.mem_append_left _ hv1
    rw [Maze.trace, bind_eq_ok] at h
    obtain ⟨v2, hv2, h⟩ := h
    rw [Maze.trace, hnext v0 v1 (hsame v1 hv1p), hv2]
    simp only [bind, Except.bind]
    by_cases hmem : v2 ∈ visited
    · rw [if_pos hmem, pure_eq_ok] at h
      simp at h
    · rw [if_neg hmem, bind_eq_ok] at h
      obtain ⟨c, hc, h⟩ := h
      rw [if_neg hmem]
      by_cases hun : c = Cell.every ∨ c = Cell.outside
      · rw [if_pos hun, pure_eq_ok] at h
        simp only [if_true, Option.some.injEq] at h
        subst h
        have : m1.at v2 = .ok c := by
          rw [hsame v2 (by simp)]; exact hc
        rw [this]
        simp only [if_pos hun]
        rfl
      · rw [if_neg hun] at h
        obtain ⟨ext, hext⟩ := trace_extends m next true _ _ _ _ _ _ h
        have hv2p : v2 ∈ p := by rw [hext]; simp
        have : m1.at v2 = .ok c := by rw [hsame v2 hv2p]; exact hc
        rw [this]
        simp only [if_neg hun]
        exact ih _ _ _ _ _ h (by simp) hsame

theorem forward_congr (m m1 : Maze) (a b : Vertex) (h : m1.at b = m.at b) :
    Maze.forward m1 a b = Maze.forward m a b := by
  simp only [Maze.forward, h]

/-! ## The effect of `clean` -/

theorem markCovered_spec :
    ∀ p contr contr1, State.markCovered p contr = .ok contr1 →
      contr1.width = contr.width ∧ contr1.height = contr.height ∧
      ∀ i, contr1.grid i = true ↔ (contr.grid i = true ∨ ∃ u ∈ p, u.pack = i) := by
  intro p
  induction p with
  | nil =>
    intro contr contr1 h
    simp only [State.markCovered, Except.ok.injEq] at h
    subst h
    simp
  | cons v rest ih =>
    intro contr contr1 h
    rw [State.markCovered, bind_eq_ok] at h
    obtain ⟨contr2, h2, h⟩ := h
    obtain ⟨_, hw, hh, hg⟩ := setAt_spec _ _ _ _ h2
    obtain ⟨hw1, hh1, hg1⟩ := ih contr2 contr1 h
    refine ⟨hw1.trans hw, hh1.trans hh, ?_⟩
    intro i
    rw [hg1 i, hg i]
    by_cases hi : i = v.pack
    · simp [hi]
    · simp only [if_neg hi, List.mem_cons, exists_eq_or_imp]
      constructor
      · rintro (h3 | h3)
        · exact Or.inl h3
        · exact Or.inr (Or.inr h3)
      · rintro (h3 | h3 | h3)
        · exact Or.inl h3
        · exact absurd h3.symm hi
        · exact Or.inr h3

theorem markCoveredAll_spec :
    ∀ paths contr contr1, State.markCoveredAll paths contr = .ok contr1 →
      contr1.width = contr.width ∧ contr1.height = contr.height ∧
      ∀ i, contr1.grid i = true ↔ (contr.grid i = true ∨ hitIndex paths i) := by
  intro paths
  induction paths with
  | nil =>
    intro contr contr1 h
    simp only [State.markCoveredAll, Except.ok.injEq] at h
    subst h
    simp [hitIndex]
  | cons p rest ih =>
    intro contr contr1 h
    rw [State.markCoveredAll, bind_eq_ok] at h
    obtain ⟨contr2, h2, h⟩ := h
    obtain ⟨hw, hh, hg⟩ := markCovered_spec p contr contr2 h2
    obtain ⟨hw1, hh1, hg1⟩ := ih contr2 contr1 h
    refine ⟨hw1.trans hw, hh1.trans hh, ?_⟩
    intro i
    rw [hg1 i, hg i]
    simp only [hitIndex, List.mem_cons, exists_eq_or_imp, or_assoc]

theorem markCovered_ok :
    ∀ p contr, (∀ u ∈ p, u.pack < kGridSize) →
      ∃ contr1, State.markCovered p contr = .ok contr1 := by
  intro p
  induction p with
  | nil => intro contr _; exact ⟨contr, rfl⟩
  | cons v rest ih =>
    intro contr hp
    have hv := hp v (List.mem_cons_self _ _)
    have hset : ∃ c2, contr.setAt v true = .ok c2 := by
      simp only [Grid.setAt, Grid.set, if_pos hv]
      exact ⟨_, rfl⟩
    obtain ⟨c2, hc2⟩ := hset
    obtain ⟨c3, hc3⟩ := ih c2 (fun u hu => hp u (List.mem_cons_of_mem _ hu))
    refine ⟨c3, ?_⟩
    rw [State.markCovered, hc2]
    exact hc3

theorem markCoveredAll_ok :
    ∀ paths contr, (∀ p ∈ paths, ∀ u ∈ p, u.pack < kGridSize) →
      ∃ contr1, State.markCoveredAll paths contr = .ok contr1 := by
  intro paths
  induction paths with
  | nil => intro contr _; exact ⟨contr, rfl⟩
  | cons p rest ih =>
    intro contr hp
    obtain ⟨c2, hc2⟩ := markCovered_ok p contr (hp p (List.mem_cons_self _ _))
    obtain ⟨c3, hc3⟩ := ih c2 (fun q hq => hp q (List.mem_cons_of_mem _ hq))
    refine ⟨c3, ?_⟩
    rw [State.markCoveredAll, hc2]
    exact hc3

theorem resetLoop_grid (contr : Grid Bool) (original : Maze) :
    ∀ vs m m1, State.resetLoop contr original vs m = .ok m1 →
      ∀ i, m1.grid i =
        if (∃ v ∈ vs, v.pack = i) ∧ contr.grid i = false then original.grid i
        else m.grid i := by
  intro vs
  induction vs with
  | nil =>
    intro m m1 h i
    simp only [State.resetLoop, Except.ok.injEq] at h
    subst h
    simp
  | cons v rest ih =>
    intro m m1 h i
    rw [State.resetLoop, bind_eq_ok] at h
    obtain ⟨b, hb, h⟩ := h
    have hbv := ((at_eq_ok_iff _ _ _).1 hb).2
    cases b with
    | true =>
      simp only [Bool.not_true, Bool.false_eq_true, if_false] at h
      rw [ih m m1 h i]
      by_cases hi : i = v.pack
      · subst hi
        rw [if_neg (by rw [hbv]; simp), if_neg (by rw [hbv]; simp)]
      · simp only [List.mem_cons, exists_eq_or_imp]
        have : ¬ v.pack = i := fun hh => hi hh.symm
        simp only [this, false_or]
    | false =>
      simp only [Bool.not_false, if_true, bind_eq_ok] at h
      obtain ⟨c0, hc0, m2, hm2, h⟩ := h
      obtain ⟨_, _, _, hg⟩ := setAt_spec _ _ _ _ hm2
      have hc0v := ((at_eq_ok_iff _ _ _).1 hc0).2
      rw [ih m2 m1 h i, hg i]
      by_cases hi : i = v.pack
      · subst hi
        have hR : (∃ u ∈ v :: rest, u.pack = v.pack) ∧ contr.grid v.pack = false :=
          ⟨⟨v, List.mem_cons_self _ _, rfl⟩, hbv⟩
        rw [if_pos hR, if_pos rfl]
        split_ifs
        · rfl
        · exact hc0v.symm
      · rw [if_neg hi]
        simp only [List.mem_cons, exists_eq_or_imp]
        have : ¬ v.pack = i := fun hh => hi hh.symm
        simp only [this, false_or]

theorem resetLoop_ok (contr : Grid Bool) (original : Maze) :
    ∀ vs m, (∀ v ∈ vs, v.pack < kGridSize) →
      ∃ m1, State.resetLoop contr original vs m = .ok m1 := by
  intro vs
  induction vs with
  | nil => intro m _; exact ⟨m, rfl⟩
  | cons v rest ih =>
    intro m hp
    have hv := hp v (List.mem_cons_self _ _)
    have hrest : ∀ u ∈ rest, u.pack < kGridSize := fun u hu => hp u (List.mem_cons_of_mem _ hu)
    rw [State.resetLoop, at_eq_ok _ _ hv]
    simp only [bind, Except.bind]
    cases contr.grid v.pack with
    | true => simpa using ih m hrest
    | false =>
      simp only [Bool.not_false, if_true, at_eq_ok _ _ hv]
      have hset : ∃ m2, m.setAt v (original.grid v.pack) = .ok m2 := by
        simp only [Grid.setAt, Grid.set, if_pos hv]
        exact ⟨_, rfl⟩
      obtain ⟨m2, hm2⟩ := hset
      rw [hm2]
      exact ih m2 hrest

theorem clean_spec (s s1 : State) (original : Maze) (fuel : Nat)
    (h : s.clean original fuel = .ok s1) :
    ∃ paths vs, s.maze_.searchComplete fuel = .ok paths ∧ s.maze_.vertices = .ok vs ∧
      s1.maze_.width = s.maze_.width ∧ s1.maze_.height = s.maze_.height ∧
      ∀ i, s1.maze_.grid i =
        if (∃ v ∈ vs, v.pack = i) ∧ ¬ hitIndex paths i then original.grid i
        else s.maze_.grid i := by
  simp only [State.clean, bind_eq_ok, pure_eq_ok] at h
  obtain ⟨paths, hpaths, contr1, hc1, vs, hvs, m1, hm1, rfl⟩ := h
  obtain ⟨hw, hh, hg⟩ := markCoveredAll_spec _ _ _ hc1
  have hvs1 : s.maze_.vertices = .ok vs := by
    rw [← hvs]
    simp only [Grid.vertices, hw, hh, Grid.fill]
  obtain ⟨hw1, hh1, _⟩ := resetLoop_spec _ _ _ _ _ hm1
  refine ⟨paths, vs, hpaths, hvs1, hw1, hh1, ?_⟩
  intro i
  rw [resetLoop_grid _ _ _ _ _ hm1 i]
  have hgi := hg i
  simp only [Grid.fill, Bool.false_eq_true, false_or] at hgi
  have hiff : contr1.grid i = false ↔ ¬ hitIndex paths i := by
    rw [← hgi]
    cases contr1.grid i <;> simp
  simp only [hiff]

theorem searchComplete_pack (m : Maze) (fuel : Nat) (paths : List Path)
    (h : m.searchComplete fuel = .ok paths) :
    ∀ p ∈ paths, ∀ u ∈ p, u.pack < kGridSize := by
  obtain ⟨vs, _, hall⟩ := searchComplete_spec m fuel paths h
  intro p hp u hu
  obtain ⟨end_, _, v1, ext, hpe, _, hend, hv1, _, _, hfix, hcomp, _⟩ := hall p hp
  obtain ⟨e, he, hue⟩ := hcomp rfl
  subst hpe
  rcases List.mem_cons.1 hu with hh | hh
  · subst hh; exact ((unresolvedAt_iff _ _).1 hend).1
  · rcases List.mem_cons.1 hh with h2 | h2
    · subst h2; exact ((fixedAt_iff _ _).1 hv1).1
    · have hsplit : ext = ext.dropLast ++ [e] := by
        have := List.dropLast_append_getLast? e he
        exact this.symm
      rw [hsplit] at h2
      rcases List.mem_append.1 h2 with h3 | h3
      · exact ((fixedAt_iff _ _).1 (hfix u h3)).1
      · rw [List.mem_singleton] at h3
        subst h3
        exact ((unresolvedAt_iff _ _).1 hue).1

theorem clean_ok (s : State) (original : Maze) (fuel : Nat) (paths : List Path)
    (vs : List Vertex) (hpaths : s.maze_.searchComplete fuel = .ok paths)
    (hvs : s.maze_.vertices = .ok vs) (hpk : ∀ v ∈ vs, v.pack < kGridSize) :
    ∃ s1, s.clean original fuel = .ok s1 := by
  obtain ⟨contr1, hc1⟩ := markCoveredAll_ok paths
    (Grid.fill s.maze_.width s.maze_.height false) (searchComplete_pack _ _ _ hpaths)
  obtain ⟨hw, hh, _⟩ := markCoveredAll_spec _ _ _ hc1
  have hvs1 : contr1.vertices = .ok vs := by
    rw [← hvs]
    simp only [Grid.vertices, hw, hh, Grid.fill]
  obtain ⟨m1, hm1⟩ := resetLoop_ok contr1 original vs s.maze_ hpk
  refine ⟨⟨m1⟩, ?_⟩
  simp only [State.clean, hpaths, hc1, hvs1, hm1, bind, Except.bind]
  rfl

set_option maxRecDepth 100000 in
/-- Claim C13, refuted as stated: the state with the maze `sampleAlias` is cleaned against the
reference maze `sampleAliasRef`, of the same dimensions. The vertex `(0,1)` lies on no path of
`searchComplete`, and the reference maze has a left turn there, but after `clean` the vertex
still holds its right turn: the path vertex `(80,0)` has the same packed index. -/
theorem C13_clean_keeps_aliased_cell_counterexample :
    sampleAlias.searchComplete 10 = .ok [[⟨78, 0⟩, ⟨79, 0⟩, ⟨80, 0⟩, ⟨80, 1⟩]] ∧
      (⟨0, 1⟩ : Vertex) ∉ ([⟨78, 0⟩, ⟨79, 0⟩, ⟨80, 0⟩, ⟨80, 1⟩] : Path) ∧
      ((State.mk sampleAlias).clean sampleAliasRef 10 >>= fun s1 => s1.maze_.at ⟨0, 1⟩) =
        .ok Cell.right ∧
      sampleAliasRef.at ⟨0, 1⟩ = .ok Cell.left :=
  ⟨sampleAlias_searchComplete, by decide, by decide!, by decide⟩

theorem searchComplete_valid (m : Maze) (fuel : Nat) (paths : List Path)
    (hw1 : 1 ≤ m.width) (hw : m.width ≤ 80) (hh1 : 1 ≤ m.height) (hh : m.height ≤ 80)
    (h : m.searchComplete fuel = .ok paths) : ∀ p ∈ paths, ∀ u ∈ p, u.valid := by
  obtain ⟨vs, hvs, hshape⟩ := searchComplete_spec m fuel paths h
  have hrm : m.vertices = .ok (rowMajor m.width m.height) := gridVertices_eq _ _ hw1 hw hh1 hh
  rw [hvs] at hrm
  cases hrm
  intro p hp u hu
  obtain ⟨end_, hend, hs⟩ := hshape p hp
  have hein := (rowMajor_mem _ _ end_).1 hend
  have hev : end_.valid := ⟨by have := hein.1; omega, by have := hein.2; omega⟩
  exact searchShape_valid _ _ _ _ hev hs u hu

/-- Claim C13, amended: for a state whose maze has dimensions in `1..80`, after
`clean(original)` every vertex `v` of the extent holds the rule of the reference maze when no
vertex on a `searchComplete` path of the maze before the call has the packed index of `v`, and
its unchanged rule otherwise; no cell outside the extent is written. When no path reaches
column 80 or beyond, the packed index of `v` is that of a path vertex exactly when `v` lies on
some path. -/
theorem C13_clean_resets_uncovered (s s1 : State) (original : Maze) (fuel : Nat)
    (hw1 : 1 ≤ s.maze_.width) (hw : s.maze_.width ≤ 80)
    (hh1 : 1 ≤ s.maze_.height) (hh : s.maze_.height ≤ 80)
    (h : s.clean original fuel = .ok s1) :
    ∃ paths, s.maze_.searchComplete fuel = .ok paths ∧
      s1.maze_.width = s.maze_.width ∧ s1.maze_.height = s.maze_.height ∧
      (∀ v, v.inExtent s.maze_.width s.maze_.height →
        (hitIndex paths v.pack → s1.maze_.at v = s.maze_.at v) ∧
        (¬ hitIndex paths v.pack → s1.maze_.at v = original.at v)) ∧
      (∀ i, (∀ v : Vertex, v.inExtent s.maze_.width s.maze_.height → v.pack ≠ i) →
        s1.maze_.grid i = s.maze_.grid i) ∧
      ((∀ p ∈ paths, ∀ u ∈ p, u.x < 80) →
        ∀ v, v.inExtent s.maze_.width s.maze_.height →
          (hitIndex paths v.pack ↔ ∃ p ∈ paths, v ∈ p)) := by
  obtain ⟨paths, vs, hpaths, hvs, hdw, hdh, hg⟩ := clean_spec s s1 original fuel h
  have hrm : s.maze_.vertices = .ok (rowMajor s.maze_.width s.maze_.height) :=
    gridVertices_eq _ _ hw1 hw hh1 hh
  rw [hvs] at hrm
  cases hrm
  refine ⟨paths, hpaths, hdw, hdh, ?_, ?_, ?_⟩
  · intro v hv
    have hlt := pack_lt_of_inExtent v _ _ hw hh hv
    have hmem : ∃ u ∈ rowMajor s.maze_.width s.maze_.height, u.pack = v.pack :=
      ⟨v, (rowMajor_mem _ _ v).2 hv, rfl⟩
    constructor
    · intro hhit
      rw [at_eq_ok _ _ hlt, at_eq_ok _ _ hlt, hg v.pack, if_neg (fun hc => hc.2 hhit)]
    · intro hno
      rw [at_eq_ok _ _ hlt, at_eq_ok _ _ hlt, hg v.pack, if_pos ⟨hmem, hno⟩]
  · intro i hi
    rw [hg i, if_neg]
    rintro ⟨⟨v, hv, hvi⟩, _⟩
    exact hi v ((rowMajor_mem _ _ v).1 hv) hvi
  · intro hcol v hv
    have hval := searchComplete_valid s.maze_ fuel paths hw1 hw hh1 hh hpaths
    constructor
    · rintro ⟨p, hp, u, hu, hpk⟩
      have : u = v := pack_inj_of_lt u v (hcol p hp u hu) (by have := hv.1; omega)
        (hval p hp u hu).2 (by have := hv.2; omega) hpk
      subst this
      exact ⟨p, hp, hu⟩
    · rintro ⟨p, hp, hu⟩
      exact ⟨p, hp, v, hu, rfl⟩

set_option maxRecDepth 100000 in
theorem sampleAlias_clean :
    ((State.mk sampleAlias).clean sampleAliasRef 10).toBool = true := by
  decide!

theorem C13_clean_resets_uncovered_witness :
    ∃ s1 : State, (State.mk sampleAlias).clean sampleAliasRef 10 = .ok s1 ∧
      ∃ paths, sampleAlias.searchComplete 10 = .ok paths ∧
        s1.maze_.width = sampleAlias.width ∧ s1.maze_.height = sampleAlias.height ∧
        (∀ v, v.inExtent sampleAlias.width sampleAlias.height →
          (hitIndex paths v.pack → s1.maze_.at v = sampleAlias.at v) ∧
          (¬ hitIndex paths v.pack → s1.maze_.at v = sampleAliasRef.at v)) ∧
        (∀ i, (∀ v : Vertex, v.inExtent sampleAlias.width sampleAlias.height → v.pack ≠ i) →
          s1.maze_.grid i = sampleAlias.grid i) ∧
        ((∀ p ∈ paths, ∀ u ∈ p, u.x < 80) →
          ∀ v, v.inExtent sampleAlias.width sampleAlias.height →
            (hitIndex paths v.pack ↔ ∃ p ∈ paths, v ∈ p)) := by
  have h := sampleAlias_clean
  cases hc : (State.mk sampleAlias).clean sampleAliasRef 10 with
  | error e => rw [hc] at h; cases h
  | ok s1 =>
    exact ⟨s1, rfl, C13_clean_resets_uncovered ⟨sampleAlias⟩ s1 sampleAliasRef 10
      (by decide) (by decide) (by decide) (by decide) hc⟩

/-! ## Searches in a maze with an outside border -/

theorem move_interior (v : Vertex) (d : Direction) (w h : Nat) (hw : w ≤ 256) (hh : h ≤ 256)
    (hx : 0 < v.x) (hy : 0 < v.y) (hxw : v.x + 1 < w) (hyh : v.y + 1 < h) :
    (v.move d).inExtent w h ∧ v.adjacent4 (v.move d) := by
  obtain ⟨x, y⟩ := v
  simp only at hx hy hxw hyh
  cases d <;>
    simp only [Vertex.move, Vertex.make, Vertex.inExtent, Vertex.adjacent4, u8] <;> omega

theorem fixed_interior (m : Maze) (hb : m.borderOutside) (v : Vertex)
    (hv : v.inExtent m.width m.height) (hfix : m.fixedAt v) :
    0 < v.x ∧ 0 < v.y ∧ v.x + 1 < m.width ∧ v.y + 1 < m.height := by
  by_contra hcon
  have hborder : v.x = 0 ∨ v.y = 0 ∨ v.x + 1 = m.width ∨ v.y + 1 = m.height := by
    have h1 := hv.1
    have h2 := hv.2
    omega
  obtain ⟨c, hc, _, hout⟩ := hfix
  rw [hb v hv hborder] at hc
  cases hc
  exact hout rfl

theorem inExtent_valid (v : Vertex) (w h : Nat) (hw : w ≤ 256) (hh : h ≤ 256)
    (hv : v.inExtent w h) : v.valid :=
  ⟨lt_of_lt_of_le hv.1 hw, lt_of_lt_of_le hv.2 hh⟩

theorem next_interior (m : Maze) (hw : m.width ≤ 80) (hh : m.height ≤ 80)
    (hb : m.borderOutside) (next : Maze → Vertex → Vertex → Except Err Vertex)
    (hnext : next = Maze.forward ∨ next = Maze.backward) (v0 v1 : Vertex)
    (h0 : v0.inExtent m.width m.height) (h1 : v1.inExtent m.width m.height)
    (hadj : v0.adjacent4 v1) (hfix : m.fixedAt v1) :
    ∃ v2, next m v0 v1 = .ok v2 ∧ v2.inExtent m.width m.height ∧ v1.adjacent4 v2 := by
  obtain ⟨d0, hd0⟩ := direction_of_adjacent4 v0 v1
    (inExtent_valid v0 _ _ (by omega) (by omega) h0)
    (inExtent_valid v1 _ _ (by omega) (by omega) h1) hadj
  obtain ⟨hx, hy, hxw, hyh⟩ := fixed_interior m hb v1 h1 hfix
  rcases hnext with hn | hn <;> subst hn
  · obtain ⟨c, _, _, hf⟩ := forward_eq m v0 v1 d0 hfix hd0
    exact ⟨_, hf, move_interior v1 _ _ _ (by omega) (by omega) hx hy hxw hyh⟩
  · obtain ⟨c, _, _, hf⟩ := backward_eq m v0 v1 d0 hfix hd0
    exact ⟨_, hf, move_interior v1 _ _ _ (by omega) (by omega) hx hy hxw hyh⟩

theorem length_le_of_nodup_inExtent (l : List Vertex) (w h : Nat) (hnd : l.Nodup)
    (hin : ∀ v ∈ l, v.inExtent w h) : l.length ≤ w * h := by
  have hsub : l ⊆ rowMajor w h := fun v hv => (rowMajor_mem w h v).2 (hin v hv)
  have := (List.subperm_of_subset hnd hsub).length_le
  rw [rowMajor_length] at this
  exact this

theorem stepwise_of_chain (p : Path) (h : List.Chain' Vertex.adjacent4 p) : Path.stepwise p := by
  induction p with
  | nil => intro i a b ha; simp at ha
  | cons x rest ih =>
    intro i a b ha hb
    cases i with
    | zero =>
      cases rest with
      | nil => simp at hb
      | cons y rest1 =>
        simp only [List.getElem?_cons_zero, List.getElem?_cons_succ, Option.some.injEq] at ha hb
        subst ha; subst hb
        exact (List.chain'_cons.1 h).1
    | succ j =>
      simp only [List.getElem?_cons_succ] at ha hb
      exact ih (List.Chain'.tail h) j a b ha hb

theorem adjacent4_ne (a b : Vertex) (h : a.adjacent4 b) : a ≠ b := by
  intro hab
  subst hab
  unfold Vertex.adjacent4 at h
  omega

theorem trace_total (m : Maze) (next : Maze → Vertex → Vertex → Except Err Vertex)
    (complete : Bool) (hw : m.width ≤ 80) (hh : m.height ≤ 80)
    (hstep : ∀ v0 v1 : Vertex, v0.inExtent m.width m.height → v1.inExtent m.width m.height →
      v0.adjacent4 v1 → m.fixedAt v1 →
      ∃ v2, next m v0 v1 = .ok v2 ∧ v2.inExtent m.width m.height ∧ v1.adjacent4 v2) :
    ∀ n v0 v1 visited sub pre, (∀ v, v ∈ visited ↔ v ∈ sub) → sub.Nodup →
      (∀ v ∈ sub, v.inExtent m.width m.height) → List.Chain' Vertex.adjacent4 sub →
      sub = pre ++ [v0, v1] → m.fixedAt v1 → m.width * m.height < n + sub.length →
      ∃ r, Maze.trace m next complete n v0 v1 visited sub = .ok r ∧
        ∀ p, r = some p → p.Nodup ∧ (∀ v ∈ p, v.inExtent m.width m.height) ∧
          List.Chain' Vertex.adjacent4 p := by
  intro n
  induction n with
  | zero =>
    intro v0 v1 visited sub pre hvis hnd hin hch hsub hfix hlen
    exfalso
    have := length_le_of_nodup_inExtent sub _ _ hnd hin
    omega
  | succ n ih =>
    intro v0 v1 visited sub pre hvis hnd hin hch hsub hfix hlen
    have h0 : v0.inExtent m.width m.height := hin v0 (by rw [hsub]; simp)
    have h1 : v1.inExtent m.width m.height := hin v1 (by rw [hsub]; simp)
    have hadj : v0.adjacent4 v1 := by
      rw [hsub] at hch
      exact List.chain'_pair.1 (List.chain'_append.1 hch).2.1
    obtain ⟨v2, hv2, h2in, hadj2⟩ := hstep v0 v1 h0 h1 hadj hfix
    have hlt2 := pack_lt_of_inExtent v2 _ _ hw hh h2in
    have hch2 : List.Chain' Vertex.adjacent4 (sub ++ [v2]) := by
      rw [List.chain'_append]
      refine ⟨hch, List.chain'_singleton _, ?_⟩
      intro x hx y hy
      rw [hsub] at hx
      simp only [List.getLast?_append, List.getLast?_cons_cons, List.getLast?_singleton,
        Option.mem_def, Option.some.injEq, List.head?_cons] at hx hy
      simp only [Option.or] at hx
      cases hx; subst hy
      exact hadj2
    have hin2 : ∀ v ∈ sub ++ [v2], v.inExtent m.width m.height := by
      intro v hv
      rcases List.mem_append.1 hv with hv | hv
      · exact hin v hv
      · rw [List.mem_singleton.1 hv]; exact h2in
    rw [Maze.trace, hv2]
    simp only [bind, Except.bind]
    by_cases hmem : v2 ∈ visited
    · rw [if_pos hmem]
      refine ⟨_, rfl, ?_⟩
      intro p hp
      cases complete
      · simp only [Bool.not_false, if_true, Option.some.injEq] at hp
        subst hp
        exact ⟨hnd, hin, hch⟩
      · simp at hp
    · have hnd2 : (sub ++ [v2]).Nodup := by
        rw [List.nodup_append]
        refine ⟨hnd, List.nodup_singleton _, ?_⟩
        intro a ha hb
        rw [List.mem_singleton.1 hb] at ha
        exact hmem ((hvis v2).2 ha)
      rw [if_neg hmem, at_eq_ok _ _ hlt2]
      by_cases hun : m.grid v2.pack = Cell.every ∨ m.grid v2.pack = Cell.outside
      · simp only [if_pos hun]
        refine ⟨_, rfl, ?_⟩
        intro p hp
        cases complete
        · simp at hp
        · simp only [if_true, Option.some.injEq] at hp
          subst hp
          exact ⟨hnd2, hin2, hch2⟩
      · simp only [if_neg hun]
        refine ih v1 v2 (v2 :: visited) (sub ++ [v2]) (pre ++ [v0]) ?_ hnd2 hin2 hch2 ?_ ?_ ?_
        · intro v
          simp only [List.mem_cons, List.mem_append, List.mem_singleton, hvis v]
          tauto
        · rw [hsub]; simp
        · exact ⟨_, at_eq_ok _ _ hlt2, fun hh => hun (Or.inl hh), fun hh => hun (Or.inr hh)⟩
        · rw [List.length_append, List.length_singleton]; omega

theorem searchAdjacents_total (m : Maze) (next : Maze → Vertex → Vertex → Except Err Vertex)
    (complete : Bool) (fuel : Nat) (hw : m.width ≤ 80) (hh : m.height ≤ 80)
    (hfuel : m.width * m.height ≤ fuel)
    (hstep : ∀ v0 v1 : Vertex, v0.inExtent m.width m.height → v1.inExtent m.width m.height →
      v0.adjacent4 v1 → m.fixedAt v1 →
      ∃ v2, next m v0 v1 = .ok v2 ∧ v2.inExtent m.width m.height ∧ v1.adjacent4 v2)
    (end_ : Vertex) (hend : end_.inExtent m.width m.height) :
    ∀ adj, (∀ v1 ∈ adj, v1.inExtent m.width m.height ∧ end_.adjacent4 v1) →
      ∃ paths, Maze.searchAdjacents m next complete fuel end_ adj = .ok paths ∧
        ∀ p ∈ paths, p.Nodup ∧ (∀ v ∈ p, v.inExtent m.width m.height) ∧
          List.Chain' Vertex.adjacent4 p := by
  intro adj
  induction adj with
  | nil => intro _; exact ⟨[], rfl, by simp⟩
  | cons v1 rest ih =>
    intro hadj
    obtain ⟨more, hmore, hgood⟩ := ih (fun v hv => hadj v (List.mem_cons_of_mem _ hv))
    obtain ⟨h1in, h1adj⟩ := hadj v1 (List.mem_cons_self _ _)
    have hlt1 := pack_lt_of_inExtent v1 _ _ hw hh h1in
    rw [Maze.searchAdjacents, at_eq_ok _ _ hlt1]
    simp only [bind, Except.bind]
    by_cases hun : m.grid v1.pack = Cell.every ∨ m.grid v1.pack = Cell.outside
    · simp only [if_pos hun]
      exact ⟨more, hmore, hgood⟩
    · simp only [if_neg hun]
      have hne := adjacent4_ne _ _ h1adj
      obtain ⟨r, hr, hrgood⟩ := trace_total m next complete hw hh hstep fuel end_ v1
        [end_, v1] [end_, v1] [] (fun _ => Iff.rfl) (by simp [hne])
        (by
          intro v hv
          simp only [List.mem_cons, List.mem_singleton, List.not_mem_nil, or_false] at hv
          rcases hv with hv | hv <;> subst hv
          · exact hend
          · exact h1in)
        (List.chain'_pair.2 h1adj) rfl
        ⟨_, at_eq_ok _ _ hlt1, fun hh => hun (Or.inl hh), fun hh => hun (Or.inr hh)⟩
        (by simp only [List.length_cons, List.length_nil]; omega)
      rw [hr, hmore]
      refine ⟨_, rfl, ?_⟩
      intro p hp
      rcases List.mem_append.1 hp with hp | hp
      · cases r with
        | none => simp at hp
        | some q =>
          simp only [Option.toList, List.mem_singleton] at hp
          subst hp
          exact hrgood p rfl
      · exact hgood p hp

theorem searchVertices_total (m : Maze) (next : Maze → Vertex → Vertex → Except Err Vertex)
    (complete : Bool) (fuel : Nat) (hw : m.width ≤ 80) (hh : m.height ≤ 80)
    (hfuel : m.width * m.height ≤ fuel)
    (hstep : ∀ v0 v1 : Vertex, v0.inExtent m.width m.height → v1.inExtent m.width m.height →
      v0.adjacent4 v1 → m.fixedAt v1 →
      ∃ v2, next m v0 v1 = .ok v2 ∧ v2.inExtent m.width m.height ∧ v1.adjacent4 v2) :
    ∀ vs, (∀ v ∈ vs, v.inExtent m.width m.height) →
      ∃ paths, Maze.searchVertices m next complete fuel vs = .ok paths ∧
        ∀ p ∈ paths, p.Nodup ∧ (∀ v ∈ p, v.inExtent m.width m.height) ∧
          List.Chain' Vertex.adjacent4 p := by
  intro vs
  induction vs with
  | nil => intro _; exact ⟨[], rfl, by simp⟩
  | cons end_ rest ih =>
    intro hvs
    obtain ⟨more, hmore, hgood⟩ := ih (fun v hv => hvs v (List.mem_cons_of_mem _ hv))
    have hend := hvs end_ (List.mem_cons_self _ _)
    have hlt := pack_lt_of_inExtent end_ _ _ hw hh hend
    rw [Maze.searchVertices, at_eq_ok _ _ hlt]
    simp only [bind, Except.bind]
    by_cases hfx : m.grid end_.pack ≠ Cell.every ∧ m.grid end_.pack ≠ Cell.outside
    · simp only [if_pos hfx]
      exact ⟨more, hmore, hgood⟩
    · simp only [if_neg hfx]
      obtain ⟨here, hhere, hhgood⟩ := searchAdjacents_total m next complete fuel hw hh hfuel
        hstep end_ hend (end_.adjacents m.width m.height)
        (fun v1 hv1 => (mem_adjacents_iff end_ v1 _ _ (by omega) (by omega) hend).1 hv1)
      rw [hhere, hmore]
      refine ⟨_, rfl, ?_⟩
      intro p hp
      rcases List.mem_append.1 hp with hp | hp
      · exact hhgood p hp
      · exact hgood p hp

theorem search_total (m : Maze) (next : Maze → Vertex → Vertex → Except Err Vertex)
    (complete : Bool) (fuel : Nat) (hw1 : 1 ≤ m.width) (hw : m.width ≤ 80)
    (hh1 : 1 ≤ m.height) (hh : m.height ≤ 80) (hb : m.borderOutside)
    (hfuel : m.width * m.height ≤ fuel)
    (hnext : next = Maze.forward ∨ next = Maze.backward) :
    ∃ paths, m.search next complete fuel = .ok paths ∧ m.safePaths paths := by
  have hvs : m.vertices = .ok (rowMajor m.width m.height) := gridVertices_eq _ _ hw1 hw hh1 hh
  obtain ⟨paths, hpaths, hgood⟩ := searchVertices_total m next complete fuel hw hh hfuel
    (next_interior m hw hh hb next hnext) (rowMajor m.width m.height)
    (fun v hv => (rowMajor_mem _ _ v).1 hv)
  refine ⟨paths, ?_, ?_⟩
  · rw [Maze.search, hvs]
    exact hpaths
  · intro p hp
    obtain ⟨h1, h2, h3⟩ := hgood p hp
    exact ⟨h1, h2, stepwise_of_chain p h3⟩

/-- Claim C18: in a maze with dimensions in `1..80` whose border cells are all `outside`,
`searchComplete`, `searchLeading` and `searchTrailing` return (no `logic_error`, no access out
of bounds) as soon as every trace may take `W * H` steps, and so does the complete search
along `backward`; every vertex of every reported path lies inside the extent, no path visits a
vertex twice, and consecutive vertices of a path are 4-adjacent. The traces that one search
drops are those that the search with the other value of `complete` reports. -/
theorem C18_searches_stay_in_extent (m : Maze) (fuel : Nat) (hw1 : 1 ≤ m.width)
    (hw : m.width ≤ 80) (hh1 : 1 ≤ m.height) (hh : m.height ≤ 80) (hb : m.borderOutside)
    (hfuel : m.width * m.height ≤ fuel) :
    (∃ paths, m.searchComplete fuel = .ok paths ∧ m.safePaths paths) ∧
      (∃ paths, m.searchLeading fuel = .ok paths ∧ m.safePaths paths) ∧
      (∃ paths, m.searchTrailing fuel = .ok paths ∧ m.safePaths paths) ∧
      (∃ paths, m.search Maze.backward true fuel = .ok paths ∧ m.safePaths paths) :=
  ⟨search_total m _ true fuel hw1 hw hh1 hh hb hfuel (Or.inl rfl),
    search_total m _ false fuel hw1 hw hh1 hh hb hfuel (Or.inl rfl),
    search_total m _ false fuel hw1 hw hh1 hh hb hfuel (Or.inr rfl),
    search_total m _ true fuel hw1 hw hh1 hh hb hfuel (Or.inr rfl)⟩

theorem sampleRing_border : sampleRing.borderOutside := by
  rintro ⟨x, y⟩ ⟨hx, hy⟩ hborder
  simp only [sampleRing] at hx hy hborder
  interval_cases x <;> interval_cases y <;> first | rfl | (exfalso; omega)

theorem C18_searches_stay_in_extent_witness :
    (∃ paths, sampleRing.searchComplete 12 = .ok paths ∧ sampleRing.safePaths paths) ∧
      (∃ paths, sampleRing.searchLeading 12 = .ok paths ∧ sampleRing.safePaths paths) ∧
      (∃ paths, sampleRing.searchTrailing 12 = .ok paths ∧ sampleRing.safePaths paths) ∧
      (∃ paths, sampleRing.search Maze.backward true 12 = .ok paths ∧
        sampleRing.safePaths paths) :=
  C18_searches_stay_in_extent sampleRing 12 (by decide) (by decide) (by decide) (by decide)
    sampleRing_border (by decide)

/-! ## Coverage after `clean` -/

theorem markContributing_ok (m : Maze) :
    ∀ p contr, (∀ u ∈ p, u.pack < kGridSize) →
      ∃ contr1, State.markContributing m p contr = .ok contr1 := by
  intro p
  induction p with
  | nil => intro contr _; exact ⟨contr, rfl⟩
  | cons v rest ih =>
    intro contr hp
    have hv := hp v (List.mem_cons_self _ _)
    have hset : ∃ c2, contr.setAt v true = .ok c2 := by
      simp only [Grid.setAt, Grid.set, if_pos hv]
      exact ⟨_, rfl⟩
    obtain ⟨c2, hc2⟩ := hset
    obtain ⟨c3, hc3⟩ := ih c2 (fun u hu => hp u (List.mem_cons_of_mem _ hu))
    obtain ⟨c4, hc4⟩ := ih contr (fun u hu => hp u (List.mem_cons_of_mem _ hu))
    rw [State.markContributing, at_eq_ok _ _ hv]
    simp only [bind, Except.bind]
    by_cases hout : m.grid v.pack ≠ Cell.outside
    · simp only [if_pos hout, hc2]
      exact ⟨c3, hc3⟩
    · simp only [if_neg hout]
      exact ⟨c4, hc4⟩

theorem markContributingAll_ok (m : Maze) :
    ∀ paths contr, (∀ p ∈ paths, ∀ u ∈ p, u.pack < kGridSize) →
      ∃ contr1, State.markContributingAll m paths contr = .ok contr1 := by
  intro paths
  induction paths with
  | nil => intro contr _; exact ⟨contr, rfl⟩
  | cons p rest ih =>
    intro contr hp
    obtain ⟨c2, hc2⟩ := markContributing_ok m p contr (hp p (List.mem_cons_self _ _))
    obtain ⟨c3, hc3⟩ := ih c2 (fun q hq => hp q (List.mem_cons_of_mem _ hq))
    refine ⟨c3, ?_⟩
    rw [State.markContributingAll, hc2]
    exact hc3

theorem calculateEnergy_ok (s : State) (fuel : Nat) (paths : List Path)
    (hw1 : 1 ≤ s.maze_.width) (hw : s.maze_.width ≤ 80)
    (hh1 : 1 ≤ s.maze_.height) (hh : s.maze_.height ≤ 80)
    (hpaths : s.maze_.searchComplete fuel = .ok paths) :
    ∃ e, s.calculateEnergy fuel = .ok e := by
  obtain ⟨contr1, hc1⟩ := markContributingAll_ok s.maze_ paths
    (Grid.fill s.maze_.width s.maze_.height false) (searchComplete_pack _ _ _ hpaths)
  obtain ⟨hcw, hch, _⟩ := markContributingAll_spec _ _ _ _ hc1
  have hvs1 : contr1.vertices = .ok (rowMajor s.maze_.width s.maze_.height) := by
    rw [← gridVertices_eq _ _ hw1 hw hh1 hh]
    simp only [Grid.vertices, hcw, hch, Grid.fill]
  have hsum := sumEnergy_ok contr1 (rowMajor s.maze_.width s.maze_.height) 0
    (fun v hv => pack_lt_of_inExtent v _ _ hw hh ((rowMajor_mem _ _ v).1 hv))
  have heq : s.calculateEnergy fuel =
      State.sumEnergy contr1 (rowMajor s.maze_.width s.maze_.height) 0 := by
    rw [State.calculateEnergy, hpaths]
    simp only [bind, Except.bind, hc1, hvs1]
  exact ⟨_, heq.trans hsum⟩

theorem clean_at_hit (s s1 : State) (original : Maze) (fuel : Nat) (paths : List Path)
    (h : s.clean original fuel = .ok s1) (hp : s.maze_.searchComplete fuel = .ok paths)
    (u : Vertex) (hu : hitIndex paths u.pack) : s1.maze_.at u = s.maze_.at u := by
  obtain ⟨paths0, vs, hpaths0, _, _, _, hg⟩ := clean_spec s s1 original fuel h
  rw [hp] at hpaths0
  cases hpaths0
  have hgu : s1.maze_.grid u.pack = s.maze_.grid u.pack := by
    rw [hg u.pack]
    exact if_neg (fun hc => hc.2 hu)
  simp only [Grid.at, Grid.get, hgu]

theorem clean_persist (s s1 : State) (original : Maze) (fuel : Nat) (paths paths1 : List Path)
    (h : s.clean original fuel = .ok s1) (hp : s.maze_.searchComplete fuel = .ok paths)
    (hp1 : s1.maze_.searchComplete fuel = .ok paths1) : ∀ p ∈ paths, p ∈ paths1 := by
  intro p hpm
  obtain ⟨_, _, _, _, hdw, hdh, _⟩ := clean_spec s s1 original fuel h
  have hsame : ∀ u ∈ p, s1.maze_.at u = s.maze_.at u := fun u hu =>
    clean_at_hit s s1 original fuel paths h hp u ⟨p, hpm, u, hu, rfl⟩
  obtain ⟨vs, hvs, hiff⟩ := search_mem_iff s.maze_ Maze.forward true fuel paths hp
  obtain ⟨vs1, hvs1, hiff1⟩ := search_mem_iff s1.maze_ Maze.forward true fuel paths1 hp1
  have hvv : vs1 = vs := by
    simp only [Grid.vertices, hdw, hdh] at hvs1
    simp only [Grid.vertices] at hvs
    rw [hvs1] at hvs
    cases hvs
    rfl
  subst hvv
  obtain ⟨end_, hend, hun, v1, hv1, hfx, htr⟩ := (hiff p).1 hpm
  obtain ⟨ext, hext⟩ := trace_extends _ _ _ _ _ _ _ _ _ htr
  have hendp : end_ ∈ p := by rw [hext]; simp
  have hv1p : v1 ∈ p := by rw [hext]; simp
  refine (hiff1 p).2 ⟨end_, hend, ?_, v1, ?_, ?_, ?_⟩
  · unfold Maze.unresolvedAt
    rw [hsame end_ hendp]
    exact hun
  · rw [hdw, hdh]
    exact hv1
  · unfold Maze.fixedAt
    rw [hsame v1 hv1p]
    exact hfx
  · exact trace_congr s.maze_ s1.maze_ Maze.forward
      (fun a b hb => forward_congr _ _ a b hb) _ _ _ _ _ _ htr (by simp) hsame

theorem clean_energy_le (s s1 : State) (original : Maze) (fuel : Nat) (e e1 : Int)
    (h : s.clean original fuel = .ok s1) (he : s.calculateEnergy fuel = .ok e)
    (he1 : s1.calculateEnergy fuel = .ok e1) : e1 ≤ e := by
  obtain ⟨paths, vs, hp, hvs, hE⟩ := calculateEnergy_spec s fuel e he
  obtain ⟨paths1, vs1, hp1, hvs1, hE1⟩ := calculateEnergy_spec s1 fuel e1 he1
  obtain ⟨_, _, _, _, hdw, hdh, _⟩ := clean_spec s s1 original fuel h
  have hvv : vs1 = vs := by
    simp only [Grid.vertices, hdw, hdh] at hvs1
    simp only [Grid.vertices] at hvs
    rw [hvs1] at hvs
    cases hvs
    rfl
  subst hvv
  have hsub := clean_persist s s1 original fuel paths paths1 h hp hp1
  have himp : ∀ v : Vertex, s.maze_.coveredIndex paths v.pack →
      s1.maze_.coveredIndex paths1 v.pack := by
    rintro v ⟨p, hpm, u, hu, hpk, hne⟩
    refine ⟨p, hsub p hpm, u, hu, hpk, ?_⟩
    rw [clean_at_hit s s1 original fuel paths h hp u ⟨p, hpm, u, hu, rfl⟩]
    exact hne
  have hlen : (vs1.filter (fun v => decide (s.maze_.coveredIndex paths v.pack))).length ≤
      (vs1.filter (fun v => decide (s1.maze_.coveredIndex paths1 v.pack))).length := by
    apply List.Sublist.length_le
    apply List.monotone_filter_right
    intro v hv
    simp only [decide_eq_true_eq] at hv ⊢
    exact himp v hv
  rw [hE, hE1]
  have : ((vs1.filter (fun v => decide (s.maze_.coveredIndex paths v.pack))).length : Int) ≤
      ((vs1.filter (fun v => decide (s1.maze_.coveredIndex paths1 v.pack))).length : Int) := by
    exact_mod_cast hlen
  omega

theorem clean_border (s s1 : State) (original : Maze) (fuel : Nat)
    (hw : s.maze_.width ≤ 80) (hh : s.maze_.height ≤ 80) (hb : s.maze_.borderOutside)
    (how : original.width = s.maze_.width) (ohh : original.height = s.maze_.height)
    (hob : original.borderOutside) (h : s.clean original fuel = .ok s1) :
    s1.maze_.borderOutside := by
  obtain ⟨_, _, _, _, hdw, hdh, hg⟩ := clean_spec s s1 original fuel h
  intro v hv hborder
  rw [hdw, hdh] at hv hborder
  have hlt := pack_lt_of_inExtent v _ _ hw hh hv
  have h1 := (at_eq_ok_iff _ _ _).1 (hb v hv hborder)
  have h2 := (at_eq_ok_iff _ _ _).1
    (hob v (by rw [how, ohh]; exact hv) (by rw [how, ohh]; exact hborder))
  rw [at_eq_ok _ _ hlt, hg v.pack]
  split_ifs
  · rw [h2.2]
  · rw [h1.2]

set_option maxRecDepth 100000 in
/-- Claim C20, refuted as stated: on the 16 by 4 grid `sampleWrapRows`, the first proposal with
the generator `sampleAhead` splices the leading subpath `[(1,1), (1,0)]` to the trailing
subpath `[(1,1), (0,1)]` through the corner `(0,0)`. The state that `connectSubpathPair`
leaves has five complete paths and the energy `-3`, none of them through `(0,0)`, so
`clean` resets that cell to its straight rule of the reference maze and returns. In the
cleaned maze the trace `(1,1), (1,0), (0,0)` runs on to `(255,0)`, whose packed index is that
of the straight cell `(15,3)`, and the next step throws `logic_error`: `searchComplete`
reports no path at all and `calculateEnergy` has no value. -/
theorem C20_clean_breaks_search_counterexample :
    (buildMaze sampleWrapRows >>= fun maze =>
      (State.mk maze).sampleSubpathPair 64 sampleAhead >>= fun x =>
      (State.mk maze).connectSubpathPair x.1.1 x.1.2 64 x.2 >>= fun y =>
        y.1.maze_.searchComplete 64) =
      .ok [[⟨2, 0⟩, ⟨1, 0⟩, ⟨1, 1⟩], [⟨1, 1⟩, ⟨0, 1⟩, ⟨0, 2⟩], [⟨0, 2⟩, ⟨0, 1⟩, ⟨255, 1⟩],
        [⟨15, 2⟩, ⟨15, 3⟩, ⟨15, 4⟩], [⟨14, 3⟩, ⟨15, 3⟩, ⟨16, 3⟩]] ∧
    (buildMaze sampleWrapRows >>= fun maze =>
      (State.mk maze).sampleSubpathPair 64 sampleAhead >>= fun x =>
      (State.mk maze).connectSubpathPair x.1.1 x.1.2 64 x.2 >>= fun y =>
        y.1.calculateEnergy 64) = .ok (-3) ∧
    (buildMaze sampleWrapRows >>= fun maze =>
      (State.mk maze).sampleSubpathPair 64 sampleAhead >>= fun x =>
      (State.mk maze).connectSubpathPair x.1.1 x.1.2 64 x.2 >>= fun y =>
      y.1.clean maze 64 >>= fun s1 => s1.maze_.at ⟨0, 0⟩) = .ok Cell.straight ∧
    (buildMaze sampleWrapRows >>= fun maze =>
      (State.mk maze).sampleSubpathPair 64 sampleAhead >>= fun x =>
      (State.mk maze).connectSubpathPair x.1.1 x.1.2 64 x.2 >>= fun y =>
      y.1.clean maze 64 >>= fun s1 => s1.maze_.searchComplete 64) = .error .logicError ∧
    (buildMaze sampleWrapRows >>= fun maze =>
      (State.mk maze).sampleSubpathPair 64 sampleAhead >>= fun x =>
      (State.mk maze).connectSubpathPair x.1.1 x.1.2 64 x.2 >>= fun y =>
      y.1.clean maze 64 >>= fun s1 => s1.calculateEnergy 64) = .error .logicError := by
  decide!

/-- Claim C20, amended: whenever `clean(original)` returns and `searchComplete` returns on
the maze after it, every path that `searchComplete` reports on the maze before the call is
reported on the maze after it; and whenever `calculateEnergy` returns before and after the
call, the energy after it is at most the energy before it. In a maze with dimensions in
`1..80` and an outside border, cleaned against a reference maze of the same dimensions with
an outside border, `clean`, both searches and both energy computations do return as soon as
every trace may take `W * H` steps. -/
theorem C20_clean_never_loses_coverage (s : State) (original : Maze) (fuel : Nat) :
    (∀ s1, s.clean original fuel = .ok s1 →
      (∀ paths paths1, s.maze_.searchComplete fuel = .ok paths →
        s1.maze_.searchComplete fuel = .ok paths1 → ∀ p ∈ paths, p ∈ paths1) ∧
      (∀ e e1, s.calculateEnergy fuel = .ok e → s1.calculateEnergy fuel = .ok e1 → e1 ≤ e)) ∧
    (1 ≤ s.maze_.width → s.maze_.width ≤ 80 → 1 ≤ s.maze_.height → s.maze_.height ≤ 80 →
      s.maze_.borderOutside → original.width = s.maze_.width →
      original.height = s.maze_.height → original.borderOutside →
      s.maze_.width * s.maze_.height ≤ fuel →
      ∃ s1 paths paths1 e e1, s.clean original fuel = .ok s1 ∧
        s.maze_.searchComplete fuel = .ok paths ∧ s1.maze_.searchComplete fuel = .ok paths1 ∧
        s.calculateEnergy fuel = .ok e ∧ s1.calculateEnergy fuel = .ok e1) := by
  refine ⟨fun s1 h => ⟨fun paths paths1 hp hp1 => clean_persist s s1 original fuel paths paths1
    h hp hp1, fun e e1 he he1 => clean_energy_le s s1 original fuel e e1 h he he1⟩, ?_⟩
  intro hw1 hw hh1 hh hb how ohh hob hfuel
  obtain ⟨paths, hp, _⟩ := search_total s.maze_ Maze.forward true fuel hw1 hw hh1 hh hb hfuel
    (Or.inl rfl)
  obtain ⟨s1, hs1⟩ := clean_ok s original fuel paths (rowMajor s.maze_.width s.maze_.height)
    hp (gridVertices_eq _ _ hw1 hw hh1 hh)
    (fun v hv => pack_lt_of_inExtent v _ _ hw hh ((rowMajor_mem _ _ v).1 hv))
  obtain ⟨_, _, _, _, hdw, hdh, _⟩ := clean_spec s s1 original fuel hs1
  have hb1 := clean_border s s1 original fuel hw hh hb how ohh hob hs1
  obtain ⟨paths1, hp1, _⟩ := search_total s1.maze_ Maze.forward true fuel
    (by rw [hdw]; exact hw1) (by rw [hdw]; exact hw) (by rw [hdh]; exact hh1)
    (by rw [hdh]; exact hh) hb1 (by rw [hdw, hdh]; exact hfuel) (Or.inl rfl)
  obtain ⟨e, he⟩ := calculateEnergy_ok s fuel paths hw1 hw hh1 hh hp
  obtain ⟨e1, he1⟩ := calculateEnergy_ok s1 fuel paths1
    (by rw [hdw]; exact hw1) (by rw [hdw]; exact hw) (by rw [hdh]; exact hh1)
    (by rw [hdh]; exact hh) hp1
  exact ⟨s1, paths, paths1, e, e1, hs1, hp, hp1, he, he1⟩

theorem sampleRingRef_border : sampleRingRef.borderOutside := by
  rintro ⟨x, y⟩ ⟨hx, hy⟩ hborder
  simp only [sampleRingRef] at hx hy hborder
  interval_cases x <;> interval_cases y <;> first | rfl | (exfalso; omega)

theorem C20_clean_never_loses_coverage_witness :
    ∃ s1 paths paths1 e e1, (State.mk sampleRing).clean sampleRingRef 12 = .ok s1 ∧
      sampleRing.searchComplete 12 = .ok paths ∧ s1.maze_.searchComplete 12 = .ok paths1 ∧
      (State.mk sampleRing).calculateEnergy 12 = .ok e ∧ s1.calculateEnergy 12 = .ok e1 ∧
      (∀ p ∈ paths, p ∈ paths1) ∧ e1 ≤ e := by
  have hall := C20_clean_never_loses_coverage ⟨sampleRing⟩ sampleRingRef 12
  obtain ⟨s1, paths, paths1, e, e1, hs1, hp, hp1, he, he1⟩ := hall.2 (by decide) (by decide)
    (by decide) (by decide) sampleRing_border rfl rfl sampleRingRef_border (by decide)
  exact ⟨s1, paths, paths1, e, e1, hs1, hp, hp1, he, he1,
    (hall.1 s1 hs1).1 paths paths1 hp hp1, (hall.1 s1 hs1).2 e e1 he he1⟩


/-! ## The connective subpath of `connectSubpathPair` -/

theorem connectAdjacents_find (maze : Maze) (trailing subpath : Path) :
    ∀ adj visited queue res,
      State.findAdjacents maze trailing subpath adj visited queue = .ok res →
      State.connectAdjacents maze trailing subpath adj visited queue =
        match res with
        | Sum.inl p => State.assignRules maze p >>= fun m => pure (Sum.inl m)
        | Sum.inr x => .ok (Sum.inr x) := by
  intro adj
  induction adj with
  | nil =>
    intro visited queue res h
    simp only [State.findAdjacents, Except.ok.injEq] at h
    subst h
    rfl
  | cons v1 rest ih =>
    intro visited queue res h
    rw [State.findAdjacents, bind_eq_ok] at h
    obtain ⟨tb, htb, h⟩ := h
    rw [State.connectAdjacents, htb]
    by_cases heq : v1 = tb
    · rw [if_pos heq, bind_eq_ok] at h
      obtain ⟨tb1, htb1, h⟩ := h
      rw [pure_eq_ok] at h
      subst h
      simp only [bind, Except.bind, if_pos heq, htb1]
    · rw [if_neg heq, bind_eq_ok] at h
      obtain ⟨cell, hcell, h⟩ := h
      by_cases hc : v1 ∉ visited ∧ cell ≠ Cell.every ∧ cell ≠ Cell.outside
      · rw [if_pos hc] at h
        have := ih _ _ _ h
        simp only [bind, Except.bind, if_neg heq, hcell, if_pos hc]
        exact this
      · rw [if_neg hc] at h
        have := ih _ _ _ h
        simp only [bind, Except.bind, if_neg heq, hcell, if_neg hc]
        exact this

theorem connectLoop_find (maze : Maze) (trailing : Path) :
    ∀ n visited queue r res, State.findLoop maze trailing n visited queue r = .ok res →
      State.connectLoop maze trailing n visited queue r =
        match res.1 with
        | some p => State.assignRules maze p >>= fun m => pure (m, res.2)
        | none => .ok (maze, res.2) := by
  intro n
  induction n with
  | zero =>
    intro visited queue r res h
    cases queue with
    | nil =>
      simp only [State.findLoop, Except.ok.injEq] at h
      subst h
      rfl
    | cons a rest => simp [State.findLoop] at h
  | succ n ih =>
    intro visited queue r res h
    cases queue with
    | nil =>
      simp only [State.findLoop, Except.ok.injEq] at h
      subst h
      rfl
    | cons subpath rest =>
      rw [State.findLoop, bind_eq_ok] at h
      obtain ⟨v0, hv0, h⟩ := h
      simp only [bind_eq_ok] at h
      obtain ⟨res1, hres1, h⟩ := h
      have hconn := connectAdjacents_find maze trailing subpath _ _ _ res1 hres1
      rw [State.connectLoop, hv0]
      simp only [bind, Except.bind, hconn]
      cases res1 with
      | inl p =>
        simp only [pure_eq_ok] at h
        subst h
        simp only
        cases State.assignRules maze p <;> rfl
      | inr vq =>
        obtain ⟨visited1, queue1⟩ := vq
        exact ih _ _ _ _ h

theorem connectSubpathPair_none (s : State) (leading trailing : Path) (fuel : Nat)
    (r r1 : Rng) (h : s.connectivePath leading trailing fuel r = .ok (none, r1)) :
    s.connectSubpathPair leading trailing fuel r = .ok (s, r1) := by
  simp only [State.connectivePath, bind_eq_ok] at h
  obtain ⟨a, ha, b, hb, h⟩ := h
  have := connectLoop_find s.maze_ trailing _ _ _ _ _ h
  simp only at this
  simp only [State.connectSubpathPair, ha, hb, this, bind, Except.bind, pure, Except.pure]

theorem connectSubpathPair_some (s : State) (leading trailing : Path) (fuel : Nat)
    (r r1 : Rng) (p : Path) (maze1 : Maze)
    (h : s.connectivePath leading trailing fuel r = .ok (some p, r1))
    (hassign : State.assignRules s.maze_ p = .ok maze1) :
    s.connectSubpathPair leading trailing fuel r = .ok (⟨maze1⟩, r1) := by
  simp only [State.connectivePath, bind_eq_ok] at h
  obtain ⟨a, ha, b, hb, h⟩ := h
  have := connectLoop_find s.maze_ trailing _ _ _ _ _ h
  simp only [hassign] at this
  simp only [State.connectSubpathPair, ha, hb, this, bind, Except.bind, pure, Except.pure]

theorem findAdjacents_shape (maze : Maze) (trailing subpath : Path) (a b : Vertex)
    (hsub : ∃ mid, subpath = a :: b :: mid) :
    ∀ adj visited queue res, (∀ q ∈ queue, ∃ mid, q = a :: b :: mid) →
      State.findAdjacents maze trailing subpath adj visited queue = .ok res →
      match res with
      | Sum.inl p => ∃ tb tb1 mid, Path.fromBack trailing 0 = .ok tb ∧
          Path.fromBack trailing 1 = .ok tb1 ∧ p = a :: b :: (mid ++ [tb, tb1])
      | Sum.inr (_, queue1) => ∀ q ∈ queue1, ∃ mid, q = a :: b :: mid := by
  intro adj
  induction adj with
  | nil =>
    intro visited queue res hq h
    simp only [State.findAdjacents, Except.ok.injEq] at h
    subst h
    exact hq
  | cons v1 rest ih =>
    intro visited queue res hq h
    rw [State.findAdjacents, bind_eq_ok] at h
    obtain ⟨tb, htb, h⟩ := h
    by_cases heq : v1 = tb
    · rw [if_pos heq, bind_eq_ok] at h
      obtain ⟨tb1, htb1, h⟩ := h
      rw [pure_eq_ok] at h
      subst h
      obtain ⟨mid, hmid⟩ := hsub
      refine ⟨tb, tb1, mid, htb, htb1, ?_⟩
      rw [hmid, heq]
      simp
    · rw [if_neg heq, bind_eq_ok] at h
      obtain ⟨cell, hcell, h⟩ := h
      by_cases hc : v1 ∉ visited ∧ cell ≠ Cell.every ∧ cell ≠ Cell.outside
      · rw [if_pos hc] at h
        refine ih _ _ _ ?_ h
        intro q hqm
        rcases List.mem_append.1 hqm with hqm | hqm
        · exact hq q hqm
        · rw [List.mem_singleton] at hqm
          obtain ⟨mid, hmid⟩ := hsub
          exact ⟨mid ++ [v1], by rw [hqm, hmid]; simp⟩
      · rw [if_neg hc] at h
        exact ih _ _ _ hq h

theorem findLoop_shape (maze : Maze) (trailing : Path) (a b : Vertex) :
    ∀ n visited queue r p r1, (∀ q ∈ queue, ∃ mid, q = a :: b :: mid) →
      State.findLoop maze trailing n visited queue r = .ok (some p, r1) →
      ∃ tb tb1 mid, Path.fromBack trailing 0 = .ok tb ∧
        Path.fromBack trailing 1 = .ok tb1 ∧ p = a :: b :: (mid ++ [tb, tb1]) := by
  intro n
  induction n with
  | zero =>
    intro visited queue r p r1 hq h
    cases queue with
    | nil => simp [State.findLoop] at h
    | cons q rest => simp [State.findLoop] at h
  | succ n ih =>
    intro visited queue r p r1 hq h
    cases queue with
    | nil => simp [State.findLoop] at h
    | cons subpath rest =>
      rw [State.findLoop, bind_eq_ok] at h
      obtain ⟨v0, hv0, h⟩ := h
      simp only [bind_eq_ok] at h
      obtain ⟨res1, hres1, h⟩ := h
      have hshape := findAdjacents_shape maze trailing subpath a b
        (hq subpath (List.mem_cons_self _ _)) _ _ _ res1
        (fun q hqm => hq q (List.mem_cons_of_mem _ hqm)) hres1
      cases res1 with
      | inl p1 =>
        simp only [pure_eq_ok, Prod.mk.injEq, Option.some.injEq] at h
        obtain ⟨rfl, _⟩ := h
        exact hshape
      | inr vq =>
        obtain ⟨visited1, queue1⟩ := vq
        exact ih _ _ _ _ _ hshape h

theorem connectivePath_shape (s : State) (leading trailing : Path) (fuel : Nat)
    (r r1 : Rng) (p : Path) (h : s.connectivePath leading trailing fuel r = .ok (some p, r1)) :
    ∃ a b tb tb1 mid, Path.fromBack leading 1 = .ok a ∧ Path.fromBack leading 0 = .ok b ∧
      Path.fromBack trailing 0 = .ok tb ∧ Path.fromBack trailing 1 = .ok tb1 ∧
      p = a :: b :: (mid ++ [tb, tb1]) := by
  simp only [State.connectivePath, bind_eq_ok] at h
  obtain ⟨a, ha, b, hb, h⟩ := h
  obtain ⟨tb, tb1, mid, h1, h2, h3⟩ := findLoop_shape s.maze_ trailing a b _ _ _ _ _ _
    (by
      intro q hq
      rw [List.mem_singleton] at hq
      exact ⟨[], hq⟩) h
  exact ⟨a, b, tb, tb1, mid, ha, hb, h1, h2, h3⟩

/-! ## The rules assigned along the connective subpath -/

theorem assignRules_frame :
    ∀ p m m1, State.assignRules m p = .ok m1 →
      m1.width = m.width ∧ m1.height = m.height ∧
      ∀ i, (∀ v ∈ p.tail.dropLast, v.pack ≠ i) → m1.grid i = m.grid i := by
  intro p
  induction p with
  | nil =>
    intro m m1 h
    simp only [State.assignRules, Except.ok.injEq] at h
    subst h
    exact ⟨rfl, rfl, fun _ _ => rfl⟩
  | cons u0 rest ih =>
    intro m m1 h
    match rest, ih, h with
    | [], _, h =>
      simp only [State.assignRules, Except.ok.injEq] at h
      subst h
      exact ⟨rfl, rfl, fun _ _ => rfl⟩
    | [u1], _, h =>
      simp only [State.assignRules, Except.ok.injEq] at h
      subst h
      exact ⟨rfl, rfl, fun _ _ => rfl⟩
    | u1 :: u2 :: rest1, ih, h =>
      rw [State.assignRules, bind_eq_ok] at h
      obtain ⟨d01, _, h⟩ := h
      rw [bind_eq_ok] at h
      obtain ⟨d12, _, h⟩ := h
      rw [bind_eq_ok] at h
      obtain ⟨m2, hm2, h⟩ := h
      obtain ⟨_, hw2, hh2, hg2⟩ := setAt_spec _ _ _ _ hm2
      obtain ⟨hw, hh, hg⟩ := ih m2 m1 h
      refine ⟨hw.trans hw2, hh.trans hh2, ?_⟩
      intro i hi
      simp only [List.tail_cons, List.dropLast_cons₂, List.mem_cons] at hi hg
      rw [hg i (fun v hv => hi v (Or.inr hv)), hg2 i, if_neg]
      exact fun hc => hi u1 (Or.inl rfl) hc.symm

theorem assignRules_rule :
    ∀ p m m1, State.assignRules m p = .ok m1 → (p.tail.dropLast.map Vertex.pack).Nodup →
      ∀ i a b c, p[i]? = some a → p[i + 1]? = some b → p[i + 2]? = some c →
        ∃ d01 d12, a.direction b = .ok d01 ∧ b.direction c = .ok d12 ∧
          m1.at b = .ok (Cell.cast ((4 + d12.toNat - d01.toNat) % 4)) := by
  intro p
  induction p with
  | nil =>
    intro m m1 _ _ i a b c ha
    simp at ha
  | cons u0 rest ih =>
    intro m m1 h hnd i a b c ha hb hc
    match rest, ih, h, hnd, hb, hc with
    | [], _, _, _, hb, _ => simp at hb
    | [u1], _, _, _, _, hc => simp at hc
    | u1 :: u2 :: rest1, ih, h, hnd, hb, hc =>
      rw [State.assignRules, bind_eq_ok] at h
      obtain ⟨d01, hd01, h⟩ := h
      rw [bind_eq_ok] at h
      obtain ⟨d12, hd12, h⟩ := h
      rw [bind_eq_ok] at h
      obtain ⟨m2, hm2, h⟩ := h
      simp only [List.tail_cons, List.dropLast_cons₂, List.map_cons, List.nodup_cons] at hnd
      cases i with
      | zero =>
        simp only [List.getElem?_cons_zero, List.getElem?_cons_succ, Option.some.injEq,
          zero_add] at ha hb hc
        subst ha; subst hb; subst hc
        refine ⟨d01, d12, hd01, hd12, ?_⟩
        obtain ⟨hlt, _, _, hg2⟩ := setAt_spec _ _ _ _ hm2
        obtain ⟨_, _, hg⟩ := assignRules_frame _ _ _ h
        rw [at_eq_ok _ _ hlt, hg u1.pack, hg2 u1.pack, if_pos rfl]
        intro v hv hvb
        simp only [List.tail_cons] at hv
        exact hnd.1 (List.mem_map.2 ⟨v, hv, hvb⟩)
      | succ j =>
        have ha1 : (u1 :: u2 :: rest1)[j]? = some a := by
          rw [List.getElem?_cons_succ] at ha
          exact ha
        have hb1 : (u1 :: u2 :: rest1)[j + 1]? = some b := by
          rw [List.getElem?_cons_succ] at hb
          exact hb
        have hc1 : (u1 :: u2 :: rest1)[j + 2]? = some c := by
          rw [show j + 1 + 2 = (j + 2) + 1 from by omega, List.getElem?_cons_succ] at hc
          exact hc
        exact ih m2 m1 h (by simpa using hnd.2) j a b c ha1 hb1 hc1

theorem stepwise_tail (x : Vertex) (p : Path) (h : Path.stepwise (x :: p)) :
    Path.stepwise p := by
  intro i a b ha hb
  exact h (i + 1) a b (by simpa using ha) (by simpa using hb)

theorem assignRules_ok :
    ∀ p m, Path.stepwise p → (∀ v ∈ p, v.valid) → (∀ v ∈ p, v.pack < kGridSize) →
      ∃ m1, State.assignRules m p = .ok m1 := by
  intro p
  induction p with
  | nil => intro m _ _ _; exact ⟨m, rfl⟩
  | cons u0 rest ih =>
    intro m hstep hval hpk
    match rest, ih, hstep, hval, hpk with
    | [], _, _, _, _ => exact ⟨m, rfl⟩
    | [u1], _, _, _, _ => exact ⟨m, rfl⟩
    | u1 :: u2 :: rest1, ih, hstep, hval, hpk =>
      obtain ⟨d01, hd01⟩ := direction_of_adjacent4 u0 u1 (hval u0 (by simp))
        (hval u1 (by simp)) (hstep 0 u0 u1 (by simp) (by simp))
      obtain ⟨d12, hd12⟩ := direction_of_adjacent4 u1 u2 (hval u1 (by simp))
        (hval u2 (by simp)) (hstep 1 u1 u2 (by simp) (by simp))
      have hset : ∃ m2, m.setAt u1 (Cell.cast ((4 + d12.toNat - d01.toNat) % 4)) = .ok m2 := by
        simp only [Grid.setAt, Grid.set, if_pos (hpk u1 (by simp))]
        exact ⟨_, rfl⟩
      obtain ⟨m2, hm2⟩ := hset
      obtain ⟨m1, hm1⟩ := ih m2 (stepwise_tail _ _ hstep)
        (fun v hv => hval v (List.mem_cons_of_mem _ hv))
        (fun v hv => hpk v (List.mem_cons_of_mem _ hv))
      refine ⟨m1, ?_⟩
      rw [State.assignRules, hd01, hd12]
      simp only [bind, Except.bind, hm2]
      exact hm1

theorem forward_of_rule (m : Maze) (a b c : Vertex) (d01 d12 : Direction)
    (hd01 : a.direction b = .ok d01)
    (hat : m.at b = .ok (Cell.cast ((4 + d12.toNat - d01.toNat) % 4)))
    (hmove : b.move d12 = c) : m.forward a b = .ok c := by
  have hfix : m.fixedAt b := by
    refine ⟨_, hat, ?_, ?_⟩ <;> cases d01 <;> cases d12 <;> decide
  obtain ⟨c1, hc1, _, hf⟩ := forward_eq m a b d01 hfix hd01
  rw [hat] at hc1
  cases hc1
  rw [hf, ← hmove]
  congr 2
  cases d01 <;> cases d12 <;> rfl

set_option maxRecDepth 100000 in
/-- Claim C15, refuted as stated: in the maze `sampleSplice` the generator that draws zeros
samples the leading and the trailing subpath `[(1,0), (1,1)]`, and the breadth-first search
reaches the tail of the trailing subpath with the connective subpath
`p = [(1,0), (1,1), (2,1), (1,1), (1,0)]`. The interior vertex `p[1] = (1,1)` is first given
the rule `left` of the formula, then, as `p[3]`, the rule `right`; in the resulting maze it
holds `right`, and `forward(p[0], p[1])` is `(0,1)`, not `p[2] = (2,1)`. -/
theorem C15_splice_overwrites_rule_counterexample :
    ((State.mk sampleSplice).sampleSubpathPair 9 sampleRng >>= fun x => pure x.1) =
        .ok ([⟨1, 0⟩, ⟨1, 1⟩], [⟨1, 0⟩, ⟨1, 1⟩]) ∧
      ((State.mk sampleSplice).sampleSubpathPair 9 sampleRng >>= fun x =>
        (State.mk sampleSplice).connectivePath x.1.1 x.1.2 9 x.2 >>= fun y => pure y.1) =
        .ok (some [⟨1, 0⟩, ⟨1, 1⟩, ⟨2, 1⟩, ⟨1, 1⟩, ⟨1, 0⟩]) ∧
      (Vertex.mk 1 0).direction ⟨1, 1⟩ = .ok Direction.down ∧
      (Vertex.mk 1 1).direction ⟨2, 1⟩ = .ok Direction.right ∧
      Cell.cast ((4 + Direction.right.toNat - Direction.down.toNat) % 4) = Cell.left ∧
      ((State.mk sampleSplice).sampleSubpathPair 9 sampleRng >>= fun x =>
        (State.mk sampleSplice).connectSubpathPair x.1.1 x.1.2 9 x.2 >>= fun y =>
          y.1.maze_.at ⟨1, 1⟩) = .ok Cell.right ∧
      ((State.mk sampleSplice).sampleSubpathPair 9 sampleRng >>= fun x =>
        (State.mk sampleSplice).connectSubpathPair x.1.1 x.1.2 9 x.2 >>= fun y =>
          y.1.maze_.forward ⟨1, 0⟩ ⟨1, 1⟩) = .ok ⟨0, 1⟩ := by
  decide!

theorem splice_routes (s : State) (leading trailing : Path) (fuel : Nat)
    (r r1 : Rng) (p : Path)
    (hfind : s.connectivePath leading trailing fuel r = .ok (some p, r1))
    (hwalk : Path.walk p) (hnd : (p.tail.dropLast.map Vertex.pack).Nodup) :
    ∃ s1, s.connectSubpathPair leading trailing fuel r = .ok (s1, r1) ∧
      (∃ a b tb tb1 mid, Path.fromBack leading 1 = .ok a ∧ Path.fromBack leading 0 = .ok b ∧
        Path.fromBack trailing 0 = .ok tb ∧ Path.fromBack trailing 1 = .ok tb1 ∧
        p = a :: b :: (mid ++ [tb, tb1])) ∧
      (∀ i a b c, p[i]? = some a → p[i + 1]? = some b → p[i + 2]? = some c →
        ∃ d01 d12, a.direction b = .ok d01 ∧ b.direction c = .ok d12 ∧
          s1.maze_.at b = .ok (Cell.cast ((4 + d12.toNat - d01.toNat) % 4)) ∧
          (Cell.cast ((4 + d12.toNat - d01.toNat) % 4)).isFixed = true) ∧
      (∀ i, (∀ v ∈ p.tail.dropLast, v.pack ≠ i) → s1.maze_.grid i = s.maze_.grid i) ∧
      Path.follows s1.maze_.forward p := by
  have hval : ∀ v ∈ p, v.valid := fun v hv => (hwalk.2 v hv).1
  have hpk : ∀ v ∈ p, v.pack < kGridSize := fun v hv => (hwalk.2 v hv).2
  have hstep : Path.stepwise p := stepwise_of_chain p hwalk.1
  obtain ⟨m1, hm1⟩ := assignRules_ok p s.maze_ hstep hval hpk
  have hrule := assignRules_rule p s.maze_ m1 hm1 hnd
  refine ⟨⟨m1⟩, connectSubpathPair_some s leading trailing fuel r r1 p m1 hfind hm1,
    connectivePath_shape s leading trailing fuel r r1 p hfind, ?_,
    (assignRules_frame p s.maze_ m1 hm1).2.2, ?_⟩
  · intro i a b c ha hb hc
    obtain ⟨d01, d12, h1, h2, h3⟩ := hrule i a b c ha hb hc
    exact ⟨d01, d12, h1, h2, h3, cast_isFixed _⟩
  · intro i a b c ha hb hc
    obtain ⟨d01, d12, h1, h2, h3⟩ := hrule i a b c ha hb hc
    have hbv := hval b (List.getElem?_mem hb)
    have hcv := hval c (List.getElem?_mem hc)
    obtain ⟨d, hd, hmove, _⟩ := direction_move_of_adjacent4 b c hbv.1 hbv.2 hcv.1 hcv.2
      (hstep (i + 1) b c hb hc)
    rw [h2] at hd
    cases hd
    exact forward_of_rule m1 a b c d01 d12 h1 h3 hmove

/-! ## A proposal whose search finds no connective subpath -/

theorem clean_of_cleanFor (s : State) (original : Maze) (fuel : Nat)
    (hw1 : 1 ≤ s.maze_.width) (hw : s.maze_.width ≤ 80)
    (hh1 : 1 ≤ s.maze_.height) (hh : s.maze_.height ≤ 80)
    (hclean : s.cleanFor original fuel) : s.clean original fuel = .ok s := by
  obtain ⟨paths, hpaths, hsame⟩ := hclean
  have hvs : s.maze_.vertices = .ok (rowMajor s.maze_.width s.maze_.height) :=
    gridVertices_eq _ _ hw1 hw hh1 hh
  obtain ⟨s1, hs1⟩ := clean_ok s original fuel paths _ hpaths hvs
    (fun v hv => pack_lt_of_inExtent v _ _ hw hh ((rowMajor_mem _ _ v).1 hv))
  obtain ⟨paths0, vs0, hpaths0, hvs0, hdw, hdh, hg⟩ := clean_spec s s1 original fuel hs1
  rw [hpaths] at hpaths0
  cases hpaths0
  rw [hvs] at hvs0
  cases hvs0
  have hgrid : s1.maze_.grid = s.maze_.grid := by
    funext i
    rw [hg i]
    split_ifs with hc
    · obtain ⟨⟨v, hv, hvi⟩, hno⟩ := hc
      have hin := (rowMajor_mem _ _ v).1 hv
      have hlt := pack_lt_of_inExtent v _ _ hw hh hin
      have := hsame v hin (by rw [hvi]; exact hno)
      rw [at_eq_ok _ _ hlt, at_eq_ok _ _ hlt, Except.ok.injEq] at this
      rw [← hvi]
      exact this.symm
    · rfl
  have : s1 = s := by
    obtain ⟨⟨w1, h1, g1⟩⟩ := s1
    obtain ⟨⟨w, h, g⟩⟩ := s
    simp only at hdw hdh hgrid
    subst hdw; subst hdh; subst hgrid
    rfl
  rw [hs1, this]

theorem cleanFor_self (original : Maze) (fuel : Nat) (paths : List Path)
    (h : original.searchComplete fuel = .ok paths) :
    (State.mk original).cleanFor original fuel :=
  ⟨paths, h, fun _ _ _ => rfl⟩

theorem cleanFor_clean (s s1 : State) (original : Maze) (fuel : Nat) (paths1 : List Path)
    (hw1 : 1 ≤ s.maze_.width) (hw : s.maze_.width ≤ 80)
    (hh1 : 1 ≤ s.maze_.height) (hh : s.maze_.height ≤ 80)
    (h : s.clean original fuel = .ok s1) (hp1 : s1.maze_.searchComplete fuel = .ok paths1) :
    s1.cleanFor original fuel := by
  obtain ⟨paths, vs, hpaths, hvs, hdw, hdh, hg⟩ := clean_spec s s1 original fuel h
  have hrm : s.maze_.vertices = .ok (rowMajor s.maze_.width s.maze_.height) :=
    gridVertices_eq _ _ hw1 hw hh1 hh
  rw [hvs] at hrm
  cases hrm
  refine ⟨paths1, hp1, ?_⟩
  intro v hv hno
  rw [hdw, hdh] at hv
  have hlt := pack_lt_of_inExtent v _ _ hw hh hv
  have hsub := clean_persist s s1 original fuel paths paths1 h hpaths hp1
  have hno0 : ¬ hitIndex paths v.pack := by
    rintro ⟨p, hp, u, hu, hpk⟩
    exact hno ⟨p, hsub p hp, u, hu, hpk⟩
  have hmem : ∃ u ∈ rowMajor s.maze_.width s.maze_.height, u.pack = v.pack :=
    ⟨v, (rowMajor_mem _ _ v).2 hv, rfl⟩
  rw [at_eq_ok _ _ hlt, at_eq_ok _ _ hlt, hg v.pack, if_pos ⟨hmem, hno0⟩]

theorem trace_flag (m : Maze) (next : Maze → Vertex → Vertex → Except Err Vertex)
    (c c1 : Bool) :
    ∀ n v0 v1 visited sub res, Maze.trace m next c n v0 v1 visited sub = .ok res →
      ∃ res1, Maze.trace m next c1 n v0 v1 visited sub = .ok res1 := by
  intro n
  induction n with
  | zero => intro v0 v1 visited sub res h; simp [Maze.trace] at h
  | succ n ih =>
    intro v0 v1 visited sub res h
    rw [Maze.trace, bind_eq_ok] at h
    obtain ⟨v2, hv2, h⟩ := h
    rw [Maze.trace, hv2]
    simp only [bind, Except.bind]
    by_cases hmem : v2 ∈ visited
    · rw [if_pos hmem]
      exact ⟨_, rfl⟩
    · rw [if_neg hmem, bind_eq_ok] at h
      obtain ⟨cell, hcell, h⟩ := h
      rw [if_neg hmem, hcell]
      by_cases hun : cell = Cell.every ∨ cell = Cell.outside
      · simp only [if_pos hun]
        exact ⟨_, rfl⟩
      · rw [if_neg hun] at h
        simp only [if_neg hun]
        exact ih _ _ _ _ _ h

theorem searchAdjacents_flag (m : Maze) (next : Maze → Vertex → Vertex → Except Err Vertex)
    (c c1 : Bool) (fuel : Nat) (end_ : Vertex) :
    ∀ adj paths, Maze.searchAdjacents m next c fuel end_ adj = .ok paths →
      ∃ paths1, Maze.searchAdjacents m next c1 fuel end_ adj = .ok paths1 := by
  intro adj
  induction adj with
  | nil => intro paths _; exact ⟨[], rfl⟩
  | cons v1 rest ih =>
    intro paths h
    rw [Maze.searchAdjacents, bind_eq_ok] at h
    obtain ⟨cell, hcell, h⟩ := h
    rw [Maze.searchAdjacents, hcell]
    simp only [bind, Except.bind]
    by_cases hun : cell = Cell.every ∨ cell = Cell.outside
    · rw [if_pos hun] at h
      simp only [if_pos hun]
      exact ih _ h
    · rw [if_neg hun, bind_eq_ok] at h
      obtain ⟨res, hres, h⟩ := h
      rw [bind_eq_ok] at h
      obtain ⟨more, hmore, _⟩ := h
      obtain ⟨res1, hres1⟩ := trace_flag m next c c1 _ _ _ _ _ _ hres
      obtain ⟨more1, hmore1⟩ := ih _ hmore
      simp only [if_neg hun, hres1, hmore1]
      exact ⟨_, rfl⟩

theorem searchVertices_flag (m : Maze) (next : Maze → Vertex → Vertex → Except Err Vertex)
    (c c1 : Bool) (fuel : Nat) :
    ∀ vs paths, Maze.searchVertices m next c fuel vs = .ok paths →
      ∃ paths1, Maze.searchVertices m next c1 fuel vs = .ok paths1 := by
  intro vs
  induction vs with
  | nil => intro paths _; exact ⟨[], rfl⟩
  | cons end_ rest ih =>
    intro paths h
    rw [Maze.searchVertices, bind_eq_ok] at h
    obtain ⟨cell, hcell, h⟩ := h
    rw [Maze.searchVertices, hcell]
    simp only [bind, Except.bind]
    by_cases hfx : cell ≠ Cell.every ∧ cell ≠ Cell.outside
    · rw [if_pos hfx] at h
      simp only [if_pos hfx]
      exact ih _ h
    · rw [if_neg hfx, bind_eq_ok] at h
      obtain ⟨here, hhere, h⟩ := h
      rw [bind_eq_ok] at h
      obtain ⟨more, hmore, _⟩ := h
      obtain ⟨here1, hhere1⟩ := searchAdjacents_flag m next c c1 fuel end_ _ _ hhere
      obtain ⟨more1, hmore1⟩ := ih _ hmore
      simp only [if_neg hfx, hhere1, hmore1]
      exact ⟨_, rfl⟩

theorem searchComplete_of_searchLeading (m : Maze) (fuel : Nat) (leadings : List Path)
    (h : m.searchLeading fuel = .ok leadings) : ∃ paths, m.searchComplete fuel = .ok paths := by
  simp only [Maze.searchLeading, Maze.search, bind_eq_ok] at h
  obtain ⟨vs, hvs, h⟩ := h
  obtain ⟨paths, hpaths⟩ := searchVertices_flag m Maze.forward false true fuel vs _ h
  refine ⟨paths, ?_⟩
  simp only [Maze.searchComplete, Maze.search, hvs, bind, Except.bind]
  exact hpaths

theorem cleanFor_of_origin (s : State) (original : Maze) (fuel : Nat) (r r1 : Rng)
    (leading trailing : Path) (hw1 : 1 ≤ s.maze_.width) (hw : s.maze_.width ≤ 80)
    (hh1 : 1 ≤ s.maze_.height) (hh : s.maze_.height ≤ 80)
    (hstate : s = ⟨original⟩ ∨
      (∃ (s0 : State) (r0 r3 : Rng), s0.propose original fuel r0 = .ok (s, r3)) ∨
      s.cleanFor original fuel)
    (hsample : s.sampleSubpathPair fuel r = .ok ((leading, trailing), r1)) :
    s.cleanFor original fuel := by
  have hsearch : ∃ paths, s.maze_.searchComplete fuel = .ok paths := by
    simp only [State.sampleSubpathPair, bind_eq_ok] at hsample
    obtain ⟨leadings, hl, _⟩ := hsample
    exact searchComplete_of_searchLeading s.maze_ fuel leadings hl
  obtain ⟨paths, hpaths⟩ := hsearch
  rcases hstate with h | ⟨s0, r0, r3, hprop⟩ | h
  · subst h
    exact cleanFor_self original fuel paths hpaths
  · simp only [State.propose, bind_eq_ok] at hprop
    obtain ⟨⟨⟨l0, t0⟩, r4⟩, _, ⟨state1, r5⟩, _, state2, hclean, hpure⟩ := hprop
    simp only [pure_eq_ok, Prod.mk.injEq] at hpure
    obtain ⟨rfl, _⟩ := hpure
    obtain ⟨_, _, _, _, hdw, hdh, _⟩ := clean_spec state1 state2 original fuel hclean
    exact cleanFor_clean state1 state2 original fuel paths (by rw [← hdw]; exact hw1)
      (by rw [← hdw]; exact hw) (by rw [← hdh]; exact hh1) (by rw [← hdh]; exact hh)
      hclean hpaths
  · exact h

/-- Claim C14: let the maze of the state have dimensions in `1..80`, and let the state be one
that `improve` passes to `propose`, that is `State(original)` or a state returned by
`propose(original, rng)`, or more generally a state that is clean with respect to the
reference maze. If `sampleSubpathPair` returns a pair, which requires the leading and the
trailing search to be non-empty, and the breadth-first search of `connectSubpathPair`
exhausts its queue without reaching the tail of the trailing subpath, then
`propose(original, rng)` returns a state whose maze equals the maze of the state cell for
cell, and whose energy equals the energy of the state. -/
theorem C14_failed_splice_keeps_state (s : State) (original : Maze) (fuel : Nat)
    (r r1 r2 : Rng) (leading trailing : Path)
    (hw1 : 1 ≤ s.maze_.width) (hw : s.maze_.width ≤ 80)
    (hh1 : 1 ≤ s.maze_.height) (hh : s.maze_.height ≤ 80)
    (hstate : s = ⟨original⟩ ∨
      (∃ (s0 : State) (r0 r3 : Rng), s0.propose original fuel r0 = .ok (s, r3)) ∨
      s.cleanFor original fuel)
    (hsample : s.sampleSubpathPair fuel r = .ok ((leading, trailing), r1))
    (hfind : s.connectivePath leading trailing fuel r1 = .ok (none, r2)) :
    ∃ s1 e, s.propose original fuel r = .ok (s1, r2) ∧ s1.maze_ = s.maze_ ∧
      s.calculateEnergy fuel = .ok e ∧ s1.calculateEnergy fuel = .ok e ∧
      ∃ leadings trailings, s.maze_.searchLeading fuel = .ok leadings ∧
        s.maze_.searchTrailing fuel = .ok trailings ∧ leadings ≠ [] ∧ trailings ≠ [] := by
  have hclean := cleanFor_of_origin s original fuel r r1 leading trailing hw1 hw hh1 hh
    hstate hsample
  have hconn := connectSubpathPair_none s leading trailing fuel r1 r2 hfind
  have hcl := clean_of_cleanFor s original fuel hw1 hw hh1 hh hclean
  obtain ⟨paths, hpaths, _⟩ := hclean
  obtain ⟨e, he⟩ := calculateEnergy_ok s fuel paths hw1 hw hh1 hh hpaths
  have hprop : s.propose original fuel r = .ok (s, r2) := by
    simp only [State.propose, hsample, hconn, hcl, bind, Except.bind]
    rfl
  refine ⟨s, e, hprop, rfl, he, he, ?_⟩
  simp only [State.sampleSubpathPair, bind_eq_ok] at hsample
  obtain ⟨leadings, hl, trailings, ht, hloop⟩ := hsample
  refine ⟨leadings, trailings, hl, ht, ?_, ?_⟩
  · rintro rfl
    rw [sampleLoop_nil] at hloop
    cases hloop
  · rintro rfl
    cases fuel with
    | zero => simp [State.sampleLoop] at hloop
    | succ n =>
      rw [State.sampleLoop, bind_eq_ok] at hloop
      obtain ⟨⟨i, r3⟩, _, hloop⟩ := hloop
      simp only [bind_eq_ok] at hloop
      obtain ⟨⟨j, r4⟩, hj, _⟩ := hloop
      simp [Rng.uniform] at hj

set_option maxRecDepth 100000 in
theorem sampleMixed_exhausts :
    ((State.mk sampleMixed).sampleSubpathPair 5 sampleRng >>= fun x =>
      (State.mk sampleMixed).connectivePath x.1.1 x.1.2 5 x.2 >>= fun y => pure y.1) =
      .ok none := by
  decide!

set_option maxRecDepth 100000 in
theorem sampleMixed_energy : (State.mk sampleMixed).calculateEnergy 5 = .ok (-1) := by
  decide!

theorem C14_failed_splice_keeps_state_witness :
    ∃ s1 r2, (State.mk sampleMixed).propose sampleMixed 5 sampleRng = .ok (s1, r2) ∧
      s1.maze_ = sampleMixed ∧ (State.mk sampleMixed).calculateEnergy 5 = .ok (-1) ∧
      s1.calculateEnergy 5 = .ok (-1) := by
  obtain ⟨x, hx, hrest⟩ := (bind_eq_ok _ _ _).1 sampleMixed_exhausts
  obtain ⟨y, hy, hy1⟩ := (bind_eq_ok _ _ _).1 hrest
  obtain ⟨⟨leading, trailing⟩, r1⟩ := x
  obtain ⟨o, r2⟩ := y
  rw [pure_eq_ok] at hy1
  simp only at hy1 hy
  subst hy1
  obtain ⟨s1, e, hprop, hm, he, he1, _⟩ := C14_failed_splice_keeps_state
    ⟨sampleMixed⟩ sampleMixed 5 sampleRng r1 r2 leading trailing (by decide) (by decide)
    (by decide) (by decide) (Or.inl rfl) hx hy
  have hen : e = -1 := by
    rw [sampleMixed_energy] at he
    cases he
    rfl
  subst hen
  exact ⟨s1, r2, hprop, hm, he, he1⟩

/-! ## The sampled subpaths and the connective subpath are walks -/

theorem adjacent4_of_direction (a b : Vertex) (d : Direction) (h : a.direction b = .ok d) :
    a.adjacent4 b := by
  unfold Vertex.direction at h
  unfold Vertex.adjacent4
  split_ifs at h <;> omega

theorem forward_direction (m : Maze) (a b c : Vertex) (h : m.forward a b = .ok c) :
    ∃ d, a.direction b = .ok d := by
  simp only [Maze.forward, bind_eq_ok] at h
  obtain ⟨cell, _, h⟩ := h
  split_ifs at h
  rw [bind_eq_ok] at h
  obtain ⟨d, hd, _⟩ := h
  exact ⟨d, hd⟩

theorem backward_direction (m : Maze) (a b c : Vertex) (h : m.backward a b = .ok c) :
    ∃ d, a.direction b = .ok d := by
  simp only [Maze.backward, bind_eq_ok] at h
  obtain ⟨cell, _, h⟩ := h
  split_ifs at h
  rw [bind_eq_ok] at h
  obtain ⟨d, hd, _⟩ := h
  exact ⟨d, hd⟩

theorem adjacents_adjacent4 (v u : Vertex) (w h : Nat) (hv : v.valid) (hw : w ≤ 256)
    (hh : h ≤ 256) (hu : u ∈ v.adjacents w h) : v.adjacent4 u := by
  obtain ⟨x, y⟩ := v
  obtain ⟨hx, hy⟩ := hv
  simp only at hx hy
  simp only [Vertex.adjacents, List.mem_append] at hu
  rcases hu with ((hu | hu) | hu) | hu <;> split_ifs at hu with hc <;>
    simp only [List.mem_singleton, List.not_mem_nil] at hu <;> subst hu <;>
    simp only [Vertex.adjacent4, Vertex.make, u8] <;> omega

theorem walk_append_one (q : Path) (v0 v1 : Vertex) (hq : Path.walk q)
    (hlast : q.getLast? = some v0) (hadj : v0.adjacent4 v1) (hval : v1.valid)
    (hpk : v1.pack < kGridSize) : Path.walk (q ++ [v1]) := by
  refine ⟨?_, ?_⟩
  · rw [List.chain'_append]
    refine ⟨hq.1, List.chain'_singleton _, ?_⟩
    intro x hx y hy
    rw [hlast] at hx
    simp only [Option.mem_def, Option.some.injEq, List.head?_cons] at hx hy
    subst hx; subst hy
    exact hadj
  · intro v hv
    rcases List.mem_append.1 hv with hv | hv
    · exact hq.2 v hv
    · rw [List.mem_singleton.1 hv]
      exact ⟨hval, hpk⟩

theorem trace_walk (m : Maze) (next : Maze → Vertex → Vertex → Except Err Vertex)
    (hdir : ∀ a b c, next m a b = .ok c → (∃ d, a.direction b = .ok d) ∧ c.valid) :
    ∀ n v0 v1 visited sub pre p, Maze.trace m next false n v0 v1 visited sub = .ok (some p) →
      sub = pre ++ [v0, v1] → List.Chain' Vertex.adjacent4 (pre ++ [v0]) →
      (∀ v ∈ sub, v.valid ∧ v.pack < kGridSize) → Path.walk p := by
  intro n
  induction n with
  | zero => intro v0 v1 visited sub pre p h; simp [Maze.trace] at h
  | succ n ih =>
    intro v0 v1 visited sub pre p h hsub hch hall
    rw [Maze.trace, bind_eq_ok] at h
    obtain ⟨v2, hv2, h⟩ := h
    obtain ⟨⟨d, hd⟩, hval2⟩ := hdir v0 v1 v2 hv2
    have hadj := adjacent4_of_direction v0 v1 d hd
    have hchain : List.Chain' Vertex.adjacent4 sub := by
      rw [hsub, show pre ++ [v0, v1] = (pre ++ [v0]) ++ [v1] from by simp,
        List.chain'_append]
      refine ⟨hch, List.chain'_singleton _, ?_⟩
      intro x hx y hy
      simp only [List.getLast?_append, List.getLast?_singleton, Option.mem_def,
        List.head?_cons, Option.some.injEq, Option.or] at hx hy
      subst hx; subst hy
      exact hadj
    by_cases hmem : v2 ∈ visited
    · rw [if_pos hmem, pure_eq_ok] at h
      simp only [Bool.not_false, if_true, Option.some.injEq] at h
      subst h
      exact ⟨hchain, hall⟩
    · rw [if_neg hmem, bind_eq_ok] at h
      obtain ⟨c, hc, h⟩ := h
      by_cases hun : c = Cell.every ∨ c = Cell.outside
      · rw [if_pos hun, pure_eq_ok] at h
        simp at h
      · rw [if_neg hun] at h
        refine ih v1 v2 _ _ (pre ++ [v0]) p h (by rw [hsub]; simp) ?_ ?_
        · rw [← show pre ++ [v0, v1] = (pre ++ [v0]) ++ [v1] from by simp, ← hsub]
          exact hchain
        · intro v hv
          rcases List.mem_append.1 hv with hv | hv
          · exact hall v hv
          · rw [List.mem_singleton.1 hv]
            exact ⟨hval2, ((at_eq_ok_iff _ _ _).1 hc).1⟩

theorem search_walk (m : Maze) (next : Maze → Vertex → Vertex → Except Err Vertex)
    (hdir : ∀ a b c, next m a b = .ok c → (∃ d, a.direction b = .ok d) ∧ c.valid)
    (fuel : Nat) (paths : List Path) (hw1 : 1 ≤ m.width) (hw : m.width ≤ 80)
    (hh1 : 1 ≤ m.height) (hh : m.height ≤ 80)
    (h : m.search next false fuel = .ok paths) : ∀ p ∈ paths, Path.walk p := by
  obtain ⟨vs, hvs, hiff⟩ := search_mem_iff m next false fuel paths h
  have hrm : m.vertices = .ok (rowMajor m.width m.height) := gridVertices_eq _ _ hw1 hw hh1 hh
  rw [hvs] at hrm
  cases hrm
  intro p hp
  obtain ⟨end_, hend, _, v1, hv1, hfx, htr⟩ := (hiff p).1 hp
  have hin := (rowMajor_mem _ _ end_).1 hend
  refine trace_walk m next hdir fuel end_ v1 _ _ [] p htr rfl (List.chain'_singleton _) ?_
  intro v hv
  simp only [List.nil_append, List.mem_cons, List.mem_singleton, List.not_mem_nil,
    or_false] at hv
  rcases hv with hv | hv <;> subst hv
  · exact ⟨inExtent_valid _ _ _ (by omega) (by omega) hin, pack_lt_of_inExtent _ _ _ hw hh hin⟩
  · exact ⟨adjacents_valid _ _ _ _ hv1, ((fixedAt_iff _ _).1 hfx).1⟩

theorem sampleSubpathPair_walk (s : State) (fuel : Nat) (r r1 : Rng)
    (leading trailing : Path) (hw1 : 1 ≤ s.maze_.width) (hw : s.maze_.width ≤ 80)
    (hh1 : 1 ≤ s.maze_.height) (hh : s.maze_.height ≤ 80)
    (h : s.sampleSubpathPair fuel r = .ok ((leading, trailing), r1)) :
    Path.walk leading ∧ Path.walk trailing := by
  simp only [State.sampleSubpathPair, bind_eq_ok] at h
  obtain ⟨leadings, hl, trailings, ht, h⟩ := h
  obtain ⟨h1, h2⟩ := sampleLoop_mem _ _ _ _ _ _ _ h
  exact ⟨search_walk s.maze_ Maze.forward
      (fun a b c hc => ⟨forward_direction _ a b c hc, forward_valid _ a b c hc⟩)
      fuel leadings hw1 hw hh1 hh hl leading h1,
    search_walk s.maze_ Maze.backward
      (fun a b c hc => ⟨backward_direction _ a b c hc, backward_valid _ a b c hc⟩)
      fuel trailings hw1 hw hh1 hh ht trailing h2⟩

theorem fromBack_zero_getLast (q : Path) (x : Vertex) (h : Path.fromBack q 0 = .ok x) :
    q.getLast? = some x := by
  unfold Path.fromBack at h
  rw [List.getLast?_eq_head?_reverse]
  cases hrev : q.reverse with
  | nil => rw [hrev] at h; simp at h
  | cons c rest =>
    rw [hrev] at h
    simp only [List.get?_cons_zero, Except.ok.injEq] at h
    subst h
    rfl

theorem fromBack_two (q : Path) (x y : Vertex) (h0 : Path.fromBack q 0 = .ok x)
    (h1 : Path.fromBack q 1 = .ok y) : ∃ pre, q = pre ++ [y, x] := by
  unfold Path.fromBack at h0 h1
  cases hrev : q.reverse with
  | nil => rw [hrev] at h0; simp at h0
  | cons c rest =>
    cases rest with
    | nil => rw [hrev] at h1; simp at h1
    | cons e rest1 =>
      rw [hrev] at h0 h1
      simp only [List.get?_cons_zero, List.get?_cons_succ, Except.ok.injEq] at h0 h1
      subst h0; subst h1
      refine ⟨rest1.reverse, ?_⟩
      have := congrArg List.reverse hrev
      rw [List.reverse_reverse] at this
      rw [this]
      simp

theorem insertAt_mem (v u : Vertex) : ∀ k l, u ∈ insertAt v k l → u = v ∨ u ∈ l := by
  intro k
  induction k with
  | zero =>
    intro l h
    simpa [insertAt] using h
  | succ k ih =>
    intro l h
    cases l with
    | nil => simpa [insertAt] using h
    | cons a rest =>
      simp only [insertAt, List.mem_cons] at h ⊢
      rcases h with h | h
      · exact Or.inr (Or.inl h)
      · rcases ih rest h with h | h
        · exact Or.inl h
        · exact Or.inr (Or.inr h)

theorem shuffle_mem (u : Vertex) : ∀ l (r : Rng), u ∈ (r.shuffle l).1 → u ∈ l := by
  intro l
  induction l with
  | nil => intro r h; simp [Rng.shuffle] at h
  | cons v rest ih =>
    intro r h
    simp only [Rng.shuffle] at h
    rcases insertAt_mem _ _ _ _ h with h | h
    · rw [h]; exact List.mem_cons_self _ _
    · exact List.mem_cons_of_mem _ (ih r h)

theorem findAdjacents_walk (maze : Maze) (trailing subpath : Path) (v0 : Vertex)
    (hsub : Path.walk subpath) (hlast : subpath.getLast? = some v0)
    (htr : Path.walk trailing) :
    ∀ adj visited queue res, (∀ v1 ∈ adj, v0.adjacent4 v1 ∧ v1.valid) →
      (∀ q ∈ queue, Path.walk q) →
      State.findAdjacents maze trailing subpath adj visited queue = .ok res →
      match res with
      | Sum.inl p => Path.walk p
      | Sum.inr (_, queue1) => ∀ q ∈ queue1, Path.walk q := by
  intro adj
  induction adj with
  | nil =>
    intro visited queue res _ hq h
    simp only [State.findAdjacents, Except.ok.injEq] at h
    subst h
    exact hq
  | cons v1 rest ih =>
    intro visited queue res hadj hq h
    obtain ⟨h1adj, h1val⟩ := hadj v1 (List.mem_cons_self _ _)
    have hrest : ∀ u ∈ rest, v0.adjacent4 u ∧ u.valid := fun u hu =>
      hadj u (List.mem_cons_of_mem _ hu)
    rw [State.findAdjacents, bind_eq_ok] at h
    obtain ⟨tb, htb, h⟩ := h
    by_cases heq : v1 = tb
    · rw [if_pos heq, bind_eq_ok] at h
      obtain ⟨tb1, htb1, h⟩ := h
      rw [pure_eq_ok] at h
      subst h
      obtain ⟨pre, hpre⟩ := fromBack_two trailing tb tb1 htb htb1
      have htbm : tb ∈ trailing := by rw [hpre]; simp
      have htb1m : tb1 ∈ trailing := by rw [hpre]; simp
      have hadjt : tb1.adjacent4 tb := by
        have hch := htr.1
        rw [hpre] at hch
        exact List.chain'_pair.1 (List.Chain'.right_of_append hch)
      have hstep1 := walk_append_one subpath v0 v1 hsub hlast h1adj h1val
        (by rw [heq]; exact (htr.2 tb htbm).2)
      exact walk_append_one (subpath ++ [v1]) v1 tb1 hstep1 (by simp)
        (by rw [heq]; exact adjacent4_symm _ _ hadjt) (htr.2 tb1 htb1m).1 (htr.2 tb1 htb1m).2
    · rw [if_neg heq, bind_eq_ok] at h
      obtain ⟨cell, hcell, h⟩ := h
      by_cases hc : v1 ∉ visited ∧ cell ≠ Cell.every ∧ cell ≠ Cell.outside
      · rw [if_pos hc] at h
        refine ih _ _ _ hrest ?_ h
        intro q hqm
        rcases List.mem_append.1 hqm with hqm | hqm
        · exact hq q hqm
        · rw [List.mem_singleton.1 hqm]
          exact walk_append_one subpath v0 v1 hsub hlast h1adj h1val
            ((at_eq_ok_iff _ _ _).1 hcell).1
      · rw [if_neg hc] at h
        exact ih _ _ _ hrest hq h

theorem findLoop_walk (maze : Maze) (trailing : Path) (hw : maze.width ≤ 256)
    (hh : maze.height ≤ 256) (htr : Path.walk trailing) :
    ∀ n visited queue r p r1, (∀ q ∈ queue, Path.walk q) →
      State.findLoop maze trailing n visited queue r = .ok (some p, r1) → Path.walk p := by
  intro n
  induction n with
  | zero =>
    intro visited queue r p r1 hq h
    cases queue with
    | nil => simp [State.findLoop] at h
    | cons q rest => simp [State.findLoop] at h
  | succ n ih =>
    intro visited queue r p r1 hq h
    cases queue with
    | nil => simp [State.findLoop] at h
    | cons subpath rest =>
      rw [State.findLoop, bind_eq_ok] at h
      obtain ⟨v0, hv0, h⟩ := h
      simp only [bind_eq_ok] at h
      obtain ⟨res1, hres1, h⟩ := h
      have hsub := hq subpath (List.mem_cons_self _ _)
      have hlast := fromBack_zero_getLast subpath v0 hv0
      have hv0m : v0 ∈ subpath := List.mem_of_getLast?_eq_some hlast
      have hv0val := (hsub.2 v0 hv0m).1
      have hwalk := findAdjacents_walk maze trailing subpath v0 hsub hlast htr _ _ _ res1
        (fun v1 hv1 =>
          have hmem := shuffle_mem v1 _ _ hv1
          ⟨adjacents_adjacent4 v0 v1 _ _ hv0val hw hh hmem, adjacents_valid _ _ _ _ hmem⟩)
        (fun q hqm => hq q (List.mem_cons_of_mem _ hqm)) hres1
      cases res1 with
      | inl p1 =>
        simp only [pure_eq_ok, Prod.mk.injEq, Option.some.injEq] at h
        obtain ⟨rfl, _⟩ := h
        exact hwalk
      | inr vq =>
        obtain ⟨visited1, queue1⟩ := vq
        exact ih _ _ _ _ _ hwalk h

theorem connectivePath_walk (s : State) (leading trailing : Path) (fuel : Nat) (r r1 : Rng)
    (p : Path) (hw : s.maze_.width ≤ 256) (hh : s.maze_.height ≤ 256)
    (hl : Path.walk leading) (ht : Path.walk trailing)
    (h : s.connectivePath leading trailing fuel r = .ok (some p, r1)) : Path.walk p := by
  simp only [State.connectivePath, bind_eq_ok] at h
  obtain ⟨a, ha, b, hb, h⟩ := h
  obtain ⟨pre, hpre⟩ := fromBack_two leading b a hb ha
  refine findLoop_walk s.maze_ trailing hw hh ht _ _ _ _ _ _ ?_ h
  intro q hq
  rw [List.mem_singleton] at hq
  subst hq
  refine ⟨?_, ?_⟩
  · have hch := hl.1
    rw [hpre] at hch
    exact List.Chain'.right_of_append hch
  · intro v hv
    exact hl.2 v (by rw [hpre]; exact List.mem_append_right _ hv)

/-- Claim C15, amended: in a maze with dimensions in `1..80`, whenever the breadth-first
search of `connectSubpathPair`, run on a pair that `sampleSubpathPair` returns, reaches the
tail of the trailing subpath with the connective subpath
`p = [leading[n-2], leading[n-1], ..., trailing[m-1], trailing[m-2]]` whose interior vertices
are pairwise distinct and lie in columns below 80 (as all vertices of the extent do),
`connectSubpathPair` returns; every interior vertex `p[i+1]` then holds the fixed rule
`(4 + direction(p[i+1], p[i+2]) - direction(p[i], p[i+1])) mod 4`, no cell other than those
of the interior vertices is modified, and in the resulting maze
`forward(p[i], p[i+1]) == p[i+2]` for every `i`. -/
theorem C15_splice_routes_along_path (s : State) (fuel : Nat) (r r1 r2 : Rng)
    (leading trailing p : Path)
    (hw1 : 1 ≤ s.maze_.width) (hw : s.maze_.width ≤ 80)
    (hh1 : 1 ≤ s.maze_.height) (hh : s.maze_.height ≤ 80)
    (hsample : s.sampleSubpathPair fuel r = .ok ((leading, trailing), r1))
    (hfind : s.connectivePath leading trailing fuel r1 = .ok (some p, r2))
    (hdistinct : p.tail.dropLast.Nodup) (hcol : ∀ v ∈ p.tail.dropLast, v.x < 80) :
    ∃ s1, s.connectSubpathPair leading trailing fuel r1 = .ok (s1, r2) ∧
      (∃ a b tb tb1 mid, Path.fromBack leading 1 = .ok a ∧ Path.fromBack leading 0 = .ok b ∧
        Path.fromBack trailing 0 = .ok tb ∧ Path.fromBack trailing 1 = .ok tb1 ∧
        p = a :: b :: (mid ++ [tb, tb1])) ∧
      (∀ i a b c, p[i]? = some a → p[i + 1]? = some b → p[i + 2]? = some c →
        ∃ d01 d12, a.direction b = .ok d01 ∧ b.direction c = .ok d12 ∧
          s1.maze_.at b = .ok (Cell.cast ((4 + d12.toNat - d01.toNat) % 4)) ∧
          (Cell.cast ((4 + d12.toNat - d01.toNat) % 4)).isFixed = true) ∧
      (∀ v : Vertex, v.inExtent s.maze_.width s.maze_.height → v ∉ p.tail.dropLast →
        s1.maze_.at v = s.maze_.at v) ∧
      (∀ i, (∀ v ∈ p.tail.dropLast, v.pack ≠ i) → s1.maze_.grid i = s.maze_.grid i) ∧
      Path.follows s1.maze_.forward p := by
  obtain ⟨hl, ht⟩ := sampleSubpathPair_walk s fuel r r1 leading trailing hw1 hw hh1 hh hsample
  have hwalk := connectivePath_walk s leading trailing fuel r1 r2 p (by omega) (by omega)
    hl ht hfind
  have hint : ∀ v ∈ p.tail.dropLast, v ∈ p := fun v hv =>
    List.mem_of_mem_tail (List.mem_of_mem_dropLast hv)
  have hnd : (p.tail.dropLast.map Vertex.pack).Nodup := by
    refine List.Nodup.map_on ?_ hdistinct
    intro u hu v hv huv
    exact pack_inj_of_lt u v (hcol u hu) (hcol v hv) (hwalk.2 u (hint u hu)).1.2
      (hwalk.2 v (hint v hv)).1.2 huv
  obtain ⟨s1, hs1, hshape, hrule, hframe, hfollow⟩ :=
    splice_routes s leading trailing fuel r1 r2 p hfind hwalk hnd
  refine ⟨s1, hs1, hshape, hrule, ?_, hframe, hfollow⟩
  intro v hv hnot
  have hlt := pack_lt_of_inExtent v _ _ hw hh hv
  rw [at_eq_ok _ _ hlt, at_eq_ok _ _ hlt, hframe v.pack]
  intro u hu hpk
  have : u = v := pack_inj_of_lt u v (hcol u hu) (by have := hv.1; omega)
    (hwalk.2 u (hint u hu)).1.2 (by have := hv.2; omega) hpk
  exact hnot (this ▸ hu)

set_option maxRecDepth 100000 in
theorem samplePair_connectivePath :
    ((State.mk samplePair).sampleSubpathPair 4 sampleCounter >>= fun x =>
      (State.mk samplePair).connectivePath x.1.1 x.1.2 4 x.2 >>= fun y => pure y.1) =
      .ok (some [⟨0, 0⟩, ⟨1, 0⟩, ⟨2, 0⟩, ⟨3, 0⟩]) := by
  decide!

theorem C15_splice_routes_along_path_witness :
    ∃ leading trailing r1 r2 s1,
      (State.mk samplePair).sampleSubpathPair 4 sampleCounter = .ok ((leading, trailing), r1) ∧
      (State.mk samplePair).connectSubpathPair leading trailing 4 r1 = .ok (s1, r2) ∧
      s1.maze_.at ⟨1, 0⟩ = .ok Cell.straight ∧
      Path.follows s1.maze_.forward [⟨0, 0⟩, ⟨1, 0⟩, ⟨2, 0⟩, ⟨3, 0⟩] := by
  obtain ⟨x, hx, hrest⟩ := (bind_eq_ok _ _ _).1 samplePair_connectivePath
  obtain ⟨y, hy, hy1⟩ := (bind_eq_ok _ _ _).1 hrest
  obtain ⟨⟨leading, trailing⟩, r1⟩ := x
  obtain ⟨o, r2⟩ := y
  rw [pure_eq_ok] at hy1
  simp only at hy1 hy
  subst hy1
  obtain ⟨s1, hs1, _, hrule, _, _, hfollow⟩ := C15_splice_routes_along_path ⟨samplePair⟩ 4
    sampleCounter r1 r2 leading trailing [⟨0, 0⟩, ⟨1, 0⟩, ⟨2, 0⟩, ⟨3, 0⟩]
    (by decide) (by decide) (by decide) (by decide) hx hy (by decide) (by decide)
  obtain ⟨d01, d12, h1, h2, h3, _⟩ := hrule 0 ⟨0, 0⟩ ⟨1, 0⟩ ⟨2, 0⟩ rfl rfl rfl
  have e1 : d01 = Direction.right := by
    have : (Vertex.mk 0 0).direction ⟨1, 0⟩ = .ok Direction.right := by decide
    rw [this] at h1
    cases h1
    rfl
  have e2 : d12 = Direction.right := by
    have : (Vertex.mk 1 0).direction ⟨2, 0⟩ = .ok Direction.right := by decide
    rw [this] at h2
    cases h2
    rfl
  subst e1; subst e2
  exact ⟨leading, trailing, r1, r2, s1, hx, hs1, h3, hfollow⟩
end MazeFixing
